import Mathlib

/-!
YADA (Diet Manager): food registry and daily-log engine.

A shallow embedding of `src/YADA/food.cpp`, `src/YADA/log.cpp`, the calorie
strategies and the profile of `src/YADA/profile.cpp`, and the parts of
`src/YADA/cli.cpp` that guard calls into them.

Modelling conventions.

* `std::map<string, V>` is represented by its in-order list of key/value pairs
  (`StdMap V`); `mapFind` is `find`/`at` and `mapAssign` is `m[k] = v`.
* `double` values are taken as exact rationals (`ℚ`). Where the rounding of
  `double` arithmetic decides a claim, the rounded operations stand beside the
  exact ones (`Binary64.roundNearest`, `runCallsRounded`).
* `int` servings are `CInt`, the 32-bit two's-complement integers: an
  arithmetic result that leaves the range wraps modulo `2^32`, as it does on
  the targets the program is built for.
* `shared_ptr<Food>` is modelled by value: every pointer is stored in exactly
  one slot of the database. The one place where an object is read while it is
  being updated, the recompute pass of `loadDatabase` on a composite that lists
  its own id, reads the running total (`FoodManager.updateStoredLoop`).
* Interactive reads in the CLI are parameters: each function of the CLI takes
  the values it would read from `cin` and returns the resulting state together
  with the message it reports.
-/

namespace YADA

/-! ## `std::map<string, V>` -/

/-- A `std::map<string, V>`, as the list of its pairs in iteration order. -/
abbrev StdMap (V : Type) := List (String × V)

/-- The `find` member of `std::map`: the value stored under `k`, if any. -/
def mapFind {V : Type} : StdMap V → String → Option V
  | [], _ => none
  | (k', v) :: rest, k => if k' = k then some v else mapFind rest k

/-- The assignment `m[k] = v` of `std::map`: replaces the value of an existing
key, otherwise inserts the pair at its place in key order. Keys are compared as
`std::string` compares them, lexicographically on their character sequences
(by `String.lt_iff_toList_lt` this is the order `<` of `String`). -/
def mapAssign {V : Type} : StdMap V → String → V → StdMap V
  | [], k, v => [(k, v)]
  | (k', v') :: rest, k, v =>
    if k.toList < k'.toList then (k, v) :: (k', v') :: rest
    else if k' = k then (k', v) :: rest
    else (k', v') :: mapAssign rest k v

/-- The keys of a map, in iteration order. -/
def mapKeys {V : Type} (m : StdMap V) : List String := m.map Prod.fst

/-- The values of a map, in iteration order. -/
def mapValues {V : Type} (m : StdMap V) : List V := m.map Prod.snd

/-- The representation invariant of `std::map`: keys strictly ascending. -/
def IsMap {V : Type} (m : StdMap V) : Prop :=
  (mapKeys m).Pairwise (fun a b => a.toList < b.toList)

instance {V : Type} (m : StdMap V) : Decidable (IsMap m) := by
  unfold IsMap; infer_instance

/-! ## Foods (`food.cpp`) -/

/-- The class `BasicFood`. -/
structure BasicFood where
  id : String
  keywords : List String
  caloriesPerServing : ℚ
  description : String
  proteins : ℚ
  carbs : ℚ
  fats : ℚ
  deriving DecidableEq

/-- The class `CompositeFood`; `components` maps a food id to servings. -/
structure CompositeFood where
  id : String
  keywords : List String
  caloriesPerServing : ℚ
  components : StdMap Int
  deriving DecidableEq

/-- A `shared_ptr<Food>`: one of the two concrete classes. -/
inductive Food where
  | basic (f : BasicFood)
  | composite (f : CompositeFood)
  deriving DecidableEq

namespace Food

def getId : Food → String
  | basic f => f.id
  | composite f => f.id

def getKeywords : Food → List String
  | basic f => f.keywords
  | composite f => f.keywords

def getCaloriesPerServing : Food → ℚ
  | basic f => f.caloriesPerServing
  | composite f => f.caloriesPerServing

def getType : Food → String
  | basic _ => "basic"
  | composite _ => "composite"

end Food

namespace CompositeFood

/-- The constructor `CompositeFood(id, keywords)`: no calories, no components. -/
def new (id : String) (keywords : List String) : CompositeFood :=
  { id := id, keywords := keywords, caloriesPerServing := 0, components := [] }

/-- The method `addComponent`: `components[foodId] = servings`. -/
def addComponent (c : CompositeFood) (foodId : String) (servings : Int) : CompositeFood :=
  { c with components := mapAssign c.components foodId servings }

/-- The loop of `updateCalories`, started from the running total `acc`. -/
def updateCaloriesLoop (foodDatabase : StdMap Food) : StdMap Int → ℚ → ℚ
  | [], acc => acc
  | (foodId, servings) :: rest, acc =>
    match mapFind foodDatabase foodId with
    | some food =>
      updateCaloriesLoop foodDatabase rest (acc + food.getCaloriesPerServing * servings)
    | none => updateCaloriesLoop foodDatabase rest acc

/-- The method `updateCalories`. -/
def updateCalories (c : CompositeFood) (foodDatabase : StdMap Food) : CompositeFood :=
  { c with caloriesPerServing := updateCaloriesLoop foodDatabase c.components 0 }

end CompositeFood

/-- The class `FoodManager` (the factory only serves file loading). -/
structure FoodManager where
  foodDatabase : StdMap Food
  modified : Bool
  deriving DecidableEq

namespace FoodManager

/-- A freshly constructed manager: empty database, not modified. -/
def empty : FoodManager := { foodDatabase := [], modified := false }

def addBasicFood (fm : FoodManager) (id : String) (keywords : List String)
    (calories : ℚ) (description : String) (proteins carbs fats : ℚ) : FoodManager :=
  let food : BasicFood :=
    { id := id, keywords := keywords, caloriesPerServing := calories,
      description := description, proteins := proteins, carbs := carbs, fats := fats }
  { foodDatabase := mapAssign fm.foodDatabase id (Food.basic food), modified := true }

/-- The first loop of `createCompositeFood`: `addComponent` for every pair. -/
def addComponents (c : CompositeFood) : StdMap Int → CompositeFood
  | [] => c
  | (foodId, servings) :: rest => addComponents (c.addComponent foodId servings) rest

def createCompositeFood (fm : FoodManager) (id : String) (keywords : List String)
    (components : StdMap Int) : FoodManager :=
  let food := addComponents (CompositeFood.new id keywords) components
  let food := food.updateCalories fm.foodDatabase
  { foodDatabase := mapAssign fm.foodDatabase id (Food.composite food), modified := true }

/-- The inner loop of `searchFoods` for `matchAll`: the final `allMatch`. -/
def allMatch (foodKeywords : List String) : List String → Bool
  | [] => true
  | keyword :: rest =>
    if keyword ∉ foodKeywords then false else allMatch foodKeywords rest

/-- The inner loop of `searchFoods` otherwise: the final `anyMatch`. -/
def anyMatch (foodKeywords : List String) : List String → Bool
  | [] => false
  | keyword :: rest =>
    if keyword ∈ foodKeywords then true else anyMatch foodKeywords rest

/-- The outer loop of `searchFoods` over the database. -/
def searchLoop (keywords : List String) (matchAll : Bool) : StdMap Food → List Food
  | [] => []
  | (_, food) :: rest =>
    let foodKeywords := food.getKeywords
    if matchAll then
      if allMatch foodKeywords keywords then food :: searchLoop keywords matchAll rest
      else searchLoop keywords matchAll rest
    else
      if anyMatch foodKeywords keywords then food :: searchLoop keywords matchAll rest
      else searchLoop keywords matchAll rest

def searchFoods (fm : FoodManager) (keywords : List String) (matchAll : Bool) : List Food :=
  searchLoop keywords matchAll fm.foodDatabase

def getFoodById (fm : FoodManager) (id : String) : Option Food :=
  mapFind fm.foodDatabase id

def getAllFoods (fm : FoodManager) : List Food :=
  mapValues fm.foodDatabase

end FoodManager

/-! ## The type `int` -/

/-- The C++ type `int`: a 32-bit integer in two's complement. -/
structure CInt where
  val : Int
  inRange : -2147483648 ≤ val ∧ val < 2147483648
  deriving DecidableEq

namespace CInt

/-- The `int` an arithmetic result is stored as: the result itself when it lies
in the range of `int`, and the result reduced modulo `2^32` into that range
otherwise. -/
def wrap (x : Int) : CInt :=
  { val := (x + 2147483648) % 4294967296 - 2147483648, inRange := by omega }

instance : Add CInt := ⟨fun a b => wrap (a.val + b.val)⟩

instance : Sub CInt := ⟨fun a b => wrap (a.val - b.val)⟩

instance : Neg CInt := ⟨fun a => wrap (-a.val)⟩

instance (n : Nat) : OfNat CInt n := ⟨wrap n⟩

instance : LT CInt := ⟨fun a b => a.val < b.val⟩

instance : LE CInt := ⟨fun a b => a.val ≤ b.val⟩

instance (a b : CInt) : Decidable (a < b) := inferInstanceAs (Decidable (a.val < b.val))

instance (a b : CInt) : Decidable (a ≤ b) := inferInstanceAs (Decidable (a.val ≤ b.val))

end CInt

/-! ## Daily logs (`log.cpp`) -/

/-- The class `LogEntry`. -/
structure LogEntry where
  foodId : String
  servings : CInt
  deriving DecidableEq

namespace LogEntry

/-- The default constructor `LogEntry()`. -/
def default : LogEntry := { foodId := "", servings := 0 }

def addServings (e : LogEntry) (additionalServings : CInt) : LogEntry :=
  { e with servings := e.servings + additionalServings }

def getTotalCalories (e : LogEntry) (foodManager : FoodManager) : ℚ :=
  match foodManager.getFoodById e.foodId with
  | some food => food.getCaloriesPerServing * (e.servings.val : ℚ)
  | none => 0

end LogEntry

/-- The class `DailyLog`. -/
structure DailyLog where
  entries : List LogEntry
  deriving DecidableEq

namespace DailyLog

/-- A default-constructed `DailyLog`. -/
def empty : DailyLog := { entries := [] }

/-- The loop of `addEntry` over the entries. -/
def addEntryLoop (entry : LogEntry) : List LogEntry → List LogEntry
  | [] => [entry]
  | existingEntry :: rest =>
    if existingEntry.foodId = entry.foodId then
      existingEntry.addServings entry.servings :: rest
    else existingEntry :: addEntryLoop entry rest

def addEntry (log : DailyLog) (entry : LogEntry) : DailyLog :=
  { entries := addEntryLoop entry log.entries }

def removeEntry (log : DailyLog) (index : Nat) : DailyLog :=
  if index < log.entries.length then { entries := log.entries.eraseIdx index } else log

/-- The loop of `getTotalCalories`, started from the running `total`. -/
def totalLoop (foodManager : FoodManager) : List LogEntry → ℚ → ℚ
  | [], total => total
  | entry :: rest, total => totalLoop foodManager rest (total + entry.getTotalCalories foodManager)

def getTotalCalories (log : DailyLog) (foodManager : FoodManager) : ℚ :=
  totalLoop foodManager log.entries 0

end DailyLog

/-- The map element `logs[date]`: the stored log, default-constructed when the
date has none. -/
def logsAt (logs : StdMap DailyLog) (date : String) : DailyLog :=
  (mapFind logs date).getD DailyLog.empty

/-- The loop of `AddFoodLogCommand::undo` over the entries of the day. -/
def undoAddLoop (foodId : String) (servings : CInt) : List LogEntry → List LogEntry
  | [] => []
  | e :: rest =>
    if e.foodId = foodId then
      let e := e.addServings (-servings)
      if e.servings ≤ 0 then rest else e :: rest
    else e :: undoAddLoop foodId servings rest

/-- The two command classes; each acts on the `logs` of its manager. -/
inductive Command where
  | AddFoodLogCommand (date : String) (foodId : String) (servings : CInt)
  | RemoveFoodLogCommand (date : String) (index : Nat) (removedEntry : LogEntry)
  deriving DecidableEq

namespace Command

/-- The constructor of `RemoveFoodLogCommand`, which captures the entry. -/
def newRemove (logs : StdMap DailyLog) (date : String) (index : Nat) : Command :=
  if (mapFind logs date).isSome ∧ index < (logsAt logs date).entries.length then
    RemoveFoodLogCommand date index ((logsAt logs date).entries.getD index LogEntry.default)
  else RemoveFoodLogCommand date index LogEntry.default

def execute : Command → StdMap DailyLog → StdMap DailyLog
  | AddFoodLogCommand date foodId servings, logs =>
    mapAssign logs date ((logsAt logs date).addEntry { foodId := foodId, servings := servings })
  | RemoveFoodLogCommand date index _, logs =>
    if (mapFind logs date).isSome then
      mapAssign logs date ((logsAt logs date).removeEntry index)
    else logs

def undo : Command → StdMap DailyLog → StdMap DailyLog
  | AddFoodLogCommand date foodId servings, logs =>
    mapAssign logs date { entries := undoAddLoop foodId servings (logsAt logs date).entries }
  | RemoveFoodLogCommand date _ removedEntry, logs =>
    if removedEntry.foodId ≠ "" then
      mapAssign logs date ((logsAt logs date).addEntry removedEntry)
    else logs

end Command

/-- The class `LogManager`; the food manager it refers to is passed to the
one method that reads it. -/
structure LogManager where
  logs : StdMap DailyLog
  undoStack : List Command
  currentDate : String
  modified : Bool
  deriving DecidableEq

namespace LogManager

def setCurrentDate (lm : LogManager) (date : String) : LogManager :=
  { lm with currentDate := date }

def addFoodToLog (lm : LogManager) (foodId : String) (servings : CInt) : LogManager :=
  let command := Command.AddFoodLogCommand lm.currentDate foodId servings
  { lm with logs := command.execute lm.logs, undoStack := command :: lm.undoStack,
            modified := true }

def removeFoodFromLog (lm : LogManager) (index : Nat) : LogManager :=
  let command := Command.newRemove lm.logs lm.currentDate index
  { lm with logs := command.execute lm.logs, undoStack := command :: lm.undoStack,
            modified := true }

def undo (lm : LogManager) : LogManager :=
  match lm.undoStack with
  | command :: rest => { lm with logs := command.undo lm.logs, undoStack := rest, modified := true }
  | [] => lm

def getCurrentDayLog (lm : LogManager) : DailyLog :=
  match mapFind lm.logs lm.currentDate with
  | some log => log
  | none => DailyLog.empty

def getTotalCaloriesForDay (lm : LogManager) (foodManager : FoodManager) : ℚ :=
  match mapFind lm.logs lm.currentDate with
  | some log => log.getTotalCalories foodManager
  | none => 0

end LogManager

/-! ## The guards of the command-line interface (`cli.cpp`) -/

/-- A call of `printError` or `printSuccess`, with the message passed. -/
inductive Report where
  | printError (message : String)
  | printSuccess (message : String)
  deriving DecidableEq

namespace CLI

/-- Whether a character is one of `" \t"`. -/
def isBlank (c : Char) : Bool := c = ' ' || c = '\t'

/-- The two `erase` calls that strip blanks from both ends of a keyword. -/
def trim (s : List Char) : List Char :=
  ((s.dropWhile isBlank).reverse.dropWhile isBlank).reverse

/-- The keyword loop of `addBasicFood` and `createCompositeFood`: the input is
cut at every comma, each piece is trimmed, and the non-empty pieces are kept;
`piece` holds, reversed, the characters read since the last comma. -/
def keywordsLoop : List Char → List Char → List String
  | [], piece =>
    let keyword := trim piece.reverse
    if keyword ≠ [] then [String.mk keyword] else []
  | c :: rest, piece =>
    if c = ',' then
      let keyword := trim piece.reverse
      if keyword ≠ [] then String.mk keyword :: keywordsLoop rest []
      else keywordsLoop rest []
    else keywordsLoop rest (c :: piece)

def parseKeywords (keywordsInput : String) : List String :=
  keywordsLoop keywordsInput.toList []

/-- What `viewAllFoods` reports. -/
def viewAllFoods (foodManager : FoodManager) : List Report :=
  if foodManager.getAllFoods.isEmpty then [Report.printError "No foods in database."] else []

/-- The test `!(cin >> x) || x < 0` on a number read: the number, unless
extraction fails (`none`) or the number is negative. -/
def readNonNegative : Option ℚ → Option ℚ
  | none => none
  | some x => if x < 0 then none else some x

/-- The function `CLI::addBasicFood`. The lines read are `id`, `description` and
`keywordsInput`; a number read by `cin >> x` is `none` when extraction fails. -/
def addBasicFood (foodManager : FoodManager) (id description keywordsInput : String)
    (calories proteins carbs fats : Option ℚ) : FoodManager × List Report :=
  if id = "" then (foodManager, [Report.printError "Food ID cannot be empty."])
  else if (foodManager.getFoodById id).isSome then
    (foodManager, [Report.printError "Food with this ID already exists."])
  else if description = "" then
    (foodManager, [Report.printError "Description cannot be empty."])
  else if keywordsInput = "" then
    (foodManager, [Report.printError "At least one keyword is required."])
  else if parseKeywords keywordsInput = [] then
    (foodManager, [Report.printError "At least one valid keyword is required."])
  else
    match readNonNegative calories with
    | none =>
      (foodManager, [Report.printError "Invalid calorie value. Must be a positive number."])
    | some calories =>
      match readNonNegative proteins with
      | none =>
        (foodManager, [Report.printError "Invalid protein value. Must be a positive number."])
      | some proteins =>
        match readNonNegative carbs with
        | none =>
          (foodManager, [Report.printError "Invalid carbs value. Must be a positive number."])
        | some carbs =>
          match readNonNegative fats with
          | none =>
            (foodManager, [Report.printError "Invalid fats value. Must be a positive number."])
          | some fats =>
            (foodManager.addBasicFood id (parseKeywords keywordsInput) calories description
                proteins carbs fats,
              [Report.printSuccess "Basic food added successfully!"])

/-- One round of the component loop of `CLI::createCompositeFood`, after the
test for the empty line: `compId` is the line read and `servingsInput` what
`cin >> servings` yields if the round gets that far (`none` when extraction
fails). The result is the component map after the round and what it reports. -/
def componentRound (foodManager : FoodManager) (compId : String) (servingsInput : Option Int)
    (components : StdMap Int) : StdMap Int × List Report :=
  if compId = "list" then (components, viewAllFoods foodManager)
  else
    match foodManager.getFoodById compId with
    | none => (components, [Report.printError "Food not found. Please try again."])
    | some _ =>
      match servingsInput with
      | none => (components, [Report.printError "Invalid input. Please enter a number."])
      | some servings =>
        if servings ≤ 0 then
          (components, [Report.printError "Servings must be positive. Please try again."])
        else
          (mapAssign components compId servings,
            [Report.printSuccess "Component added successfully!"])

/-- The component loop of `CLI::createCompositeFood`, one element of the input
per round. The loop ends on an empty line, also at the end of the input. -/
def componentsLoop (foodManager : FoodManager) :
    List (String × Option Int) → StdMap Int → StdMap Int × List Report
  | [], components => (components, [])
  | (compId, servingsInput) :: rest, components =>
    if compId = "" then (components, [])
    else
      ((componentsLoop foodManager rest
          (componentRound foodManager compId servingsInput components).1).1,
        (componentRound foodManager compId servingsInput components).2 ++
          (componentsLoop foodManager rest
            (componentRound foodManager compId servingsInput components).1).2)

/-- The function `CLI::createCompositeFood`. -/
def createCompositeFood (foodManager : FoodManager) (id keywordsInput : String)
    (componentInputs : List (String × Option Int)) : FoodManager × List Report :=
  if id = "" then (foodManager, [Report.printError "Food ID cannot be empty."])
  else if (foodManager.getFoodById id).isSome then
    (foodManager, [Report.printError "Food with this ID already exists."])
  else if keywordsInput = "" then
    (foodManager,
      [Report.printError "Keywords cannot be empty. At least one keyword is required."])
  else if parseKeywords keywordsInput = [] then
    (foodManager,
      [Report.printError "No valid keywords provided. At least one keyword is required."])
  else if (componentsLoop foodManager componentInputs []).1 = [] then
    (foodManager,
      (componentsLoop foodManager componentInputs []).2 ++
        [Report.printError "No components added. Composite food creation cancelled."])
  else
    (foodManager.createCompositeFood id (parseKeywords keywordsInput)
        (componentsLoop foodManager componentInputs []).1,
      (componentsLoop foodManager componentInputs []).2 ++
        [Report.printSuccess "Composite food created successfully!"])

end CLI

/-! ## Loading (`FoodManager::loadDatabase`, `DailyLog::fromJson`) -/

namespace FoodManager

/-- The loop of `loadFromFile` over the records of a file, each already turned
into a food by the factory or by `CompositeFood::fromJson`:
`foodDatabase[food->getId()] = food`. -/
def loadRecords (fm : FoodManager) : List Food → FoodManager
  | [] => fm
  | food :: rest =>
    loadRecords { fm with foodDatabase := mapAssign fm.foodDatabase food.getId food } rest

/-- The function `loadFromFile`; the file is `none` when it cannot be opened,
else the list of its records. The result says whether the file was loaded. -/
def loadFromFile (fm : FoodManager) : Option (List Food) → FoodManager × Bool
  | none => (fm, false)
  | some records => (fm.loadRecords records, true)

/-- The loop of `updateCalories` when the composite it runs on is the one the
database holds under `key`: the database is read through pointers, so a
component with the id `key` finds the composite itself, whose calories at that
moment are the running total `acc`. -/
def updateStoredLoop (foodDatabase : StdMap Food) (key : String) : StdMap Int → ℚ → ℚ
  | [], acc => acc
  | (foodId, servings) :: rest, acc =>
    if foodId = key then updateStoredLoop foodDatabase key rest (acc + acc * servings)
    else
      match mapFind foodDatabase foodId with
      | some food =>
        updateStoredLoop foodDatabase key rest (acc + food.getCaloriesPerServing * servings)
      | none => updateStoredLoop foodDatabase key rest acc

/-- The call `compositeFood->updateCalories(foodDatabase)` on the composite
stored under `key`. -/
def updateStored (c : CompositeFood) (foodDatabase : StdMap Food) (key : String) :
    CompositeFood :=
  { c with caloriesPerServing := updateStoredLoop foodDatabase key c.components 0 }

/-- The second loop of `loadDatabase`, over the ids still to visit: a composite
is updated in place against the database as it is at that moment. -/
def recomputeLoop : List String → StdMap Food → StdMap Food
  | [], db => db
  | id :: rest, db =>
    match mapFind db id with
    | some (Food.composite c) =>
      recomputeLoop rest (mapAssign db id (Food.composite (updateStored c db id)))
    | _ => recomputeLoop rest db

/-- The function `loadDatabase`, given the two files. -/
def loadDatabase (fm : FoodManager) (basicFile compositeFile : Option (List Food)) :
    FoodManager × Bool :=
  let basicLoaded := fm.loadFromFile basicFile
  let compositeLoaded := basicLoaded.1.loadFromFile compositeFile
  ({ compositeLoaded.1 with
      foodDatabase := recomputeLoop (mapKeys compositeLoaded.1.foodDatabase)
        compositeLoaded.1.foodDatabase },
    basicLoaded.2 || compositeLoaded.2)

end FoodManager

namespace DailyLog

/-- The loop of `DailyLog::fromJson` over the entries read, started from `log`. -/
def fromJsonLoop (log : DailyLog) : List LogEntry → DailyLog
  | [] => log
  | entry :: rest => fromJsonLoop (log.addEntry entry) rest

/-- The function `DailyLog::fromJson`, given the entries of the array. -/
def fromJson (entries : List LogEntry) : DailyLog := fromJsonLoop DailyLog.empty entries

end DailyLog

namespace LogManager

/-- The constructor of `LogManager`; `today` is the date the clock gives. -/
def new (today : String) : LogManager :=
  { logs := [], undoStack := [], currentDate := today, modified := false }

end LogManager

/-! ## The log guards of the command-line interface (`cli.cpp`) -/

namespace CLI

/-- The function `CLI::addFoodToLog`. The first line read is `foodId`; when it
is `list` the foods are shown and `secondFoodId` is read in its place.
`servings` is the value of the variable after `cin >> servings`. -/
def addFoodToLog (foodManager : FoodManager) (logManager : LogManager)
    (foodId secondFoodId : String) (servings : CInt) : LogManager × List Report :=
  let shown := if foodId = "list" then viewAllFoods foodManager else []
  let foodId := if foodId = "list" then secondFoodId else foodId
  match foodManager.getFoodById foodId with
  | none => (logManager, shown ++ [Report.printError "Food not found."])
  | some _ =>
    if servings ≤ 0 then
      (logManager, shown ++ [Report.printError "Servings must be positive."])
    else
      (logManager.addFoodToLog foodId servings,
        shown ++ [Report.printSuccess "Food added to log successfully!"])

/-- The function `CLI::removeFoodFromLog`; `entryIndex` is what `stoi(input)`
returns, `none` when it throws. -/
def removeFoodFromLog (logManager : LogManager) (entryIndex : Option Int) :
    LogManager × List Report :=
  if logManager.getCurrentDayLog.entries = [] then
    (logManager, [Report.printError "No entries to remove."])
  else
    match entryIndex with
    | none => (logManager, [Report.printError "Invalid input. Please enter a valid number."])
    | some entryIndex =>
      if entryIndex < 0 ∨ entryIndex ≥ logManager.getCurrentDayLog.entries.length then
        (logManager, [Report.printError "Invalid entry number."])
      else
        (logManager.removeFoodFromLog entryIndex.toNat,
          [Report.printSuccess "Entry removed successfully!"])

end CLI

/-! ## Profile and calorie strategies (`profile.cpp`) -/

namespace HarrisBenedictStrategy

def getActivityFactor (activityLevel : String) : ℚ :=
  if activityLevel = "light" then 1.375
  else if activityLevel = "moderate" then 1.55
  else if activityLevel = "active" then 1.725
  else if activityLevel = "very active" then 1.9
  else 1.2

def calculateCalories (gender : String) (height : ℚ) (age : Int) (weight : ℚ)
    (activityLevel : String) : ℚ :=
  let bmr : ℚ :=
    if gender = "male" then 88.362 + (13.397 * weight) + (4.799 * height) - (5.677 * age)
    else 447.593 + (9.247 * weight) + (3.098 * height) - (4.330 * age)
  bmr * getActivityFactor activityLevel

end HarrisBenedictStrategy

namespace MifflinStJeorStrategy

def getActivityFactor (activityLevel : String) : ℚ :=
  if activityLevel = "light" then 1.375
  else if activityLevel = "moderate" then 1.55
  else if activityLevel = "active" then 1.725
  else if activityLevel = "very active" then 1.9
  else 1.2

def calculateCalories (gender : String) (height : ℚ) (age : Int) (weight : ℚ)
    (activityLevel : String) : ℚ :=
  let bmr : ℚ :=
    if gender = "male" then (10 * weight) + (6.25 * height) - (5 * age) + 5
    else (10 * weight) + (6.25 * height) - (5 * age) - 161
  bmr * getActivityFactor activityLevel

end MifflinStJeorStrategy

/-- The concrete classes a `shared_ptr<CalorieCalculationStrategy>` points to. -/
inductive CalorieCalculationStrategy where
  | HarrisBenedictStrategy
  | MifflinStJeorStrategy
  deriving DecidableEq

namespace CalorieCalculationStrategy

/-- The virtual call `calculateCalories`. -/
def calculateCalories : CalorieCalculationStrategy → String → ℚ → Int → ℚ → String → ℚ
  | HarrisBenedictStrategy => YADA.HarrisBenedictStrategy.calculateCalories
  | MifflinStJeorStrategy => YADA.MifflinStJeorStrategy.calculateCalories

end CalorieCalculationStrategy

/-- The class `UserProfile`; a null `calorieStrategy` is `none`. -/
structure UserProfile where
  gender : String
  height : ℚ
  age : Int
  weight : ℚ
  activityLevel : String
  calorieStrategy : Option CalorieCalculationStrategy
  deriving DecidableEq

namespace UserProfile

/-- The constructor `UserProfile()`. -/
def new : UserProfile :=
  { gender := "", height := 0, age := 0, weight := 0, activityLevel := "",
    calorieStrategy := some CalorieCalculationStrategy.HarrisBenedictStrategy }

def calculateTargetCalories (p : UserProfile) : ℚ :=
  match p.calorieStrategy with
  | none => 0
  | some strategy =>
    if p.gender = "" ∨ p.height ≤ 0 ∨ p.age ≤ 0 ∨ p.weight ≤ 0 ∨ p.activityLevel = "" then 0
    else strategy.calculateCalories p.gender p.height p.age p.weight p.activityLevel

end UserProfile

namespace UserProfile

def setCalorieCalculationStrategy (p : UserProfile)
    (strategy : Option CalorieCalculationStrategy) : UserProfile :=
  { p with calorieStrategy := strategy }

def setGender (p : UserProfile) (g : String) : UserProfile := { p with gender := g }

def setHeight (p : UserProfile) (h : ℚ) : UserProfile := { p with height := h }

def setAge (p : UserProfile) (a : Int) : UserProfile := { p with age := a }

def setWeight (p : UserProfile) (w : ℚ) : UserProfile := { p with weight := w }

def setActivityLevel (p : UserProfile) (al : String) : UserProfile :=
  { p with activityLevel := al }

end UserProfile

/-- The class `ProfileManager`. -/
structure ProfileManager where
  profile : UserProfile
  modified : Bool
  deriving DecidableEq

namespace ProfileManager

/-- A freshly constructed manager: default profile, not modified. -/
def new : ProfileManager := { profile := UserProfile.new, modified := false }

/-- The function `updateProfile`; the call of `setGender` is commented out in
the source. -/
def updateProfile (pm : ProfileManager) (height : ℚ) (age : Int) (weight : ℚ)
    (activityLevel : String) : ProfileManager :=
  { profile :=
      (((pm.profile.setHeight height).setAge age).setWeight weight).setActivityLevel
        activityLevel,
    modified := true }

def setCalculationMethod (pm : ProfileManager) (method : String) : ProfileManager :=
  if method = "harris-benedict" then
    { profile := pm.profile.setCalorieCalculationStrategy
        (some CalorieCalculationStrategy.HarrisBenedictStrategy),
      modified := true }
  else if method = "mifflin-st-jeor" then
    { profile := pm.profile.setCalorieCalculationStrategy
        (some CalorieCalculationStrategy.MifflinStJeorStrategy),
      modified := true }
  else { pm with modified := true }

def getTargetCalories (pm : ProfileManager) : ℚ := pm.profile.calculateTargetCalories

end ProfileManager

/-! ## Specification vocabulary -/

/-- The contribution of one component to a composite: stored calories of the
food times servings, zero when the id does not resolve. -/
def componentCalories (fm : FoodManager) (p : String × Int) : ℚ :=
  match fm.getFoodById p.1 with
  | some food => food.getCaloriesPerServing * p.2
  | none => 0

/-- The sum of the contributions of a component map. -/
def componentSum (fm : FoodManager) (components : StdMap Int) : ℚ :=
  (components.map (componentCalories fm)).sum

/-- Every composite of the registry has the calories its components sum to. -/
def CompositeInvariant (fm : FoodManager) : Prop :=
  ∀ id c, fm.getFoodById id = some (Food.composite c) →
    c.caloriesPerServing = componentSum fm c.components

/-- The component-reference graph: the composite stored under `a` lists `b`. -/
def RefersTo (fm : FoodManager) (a b : String) : Prop :=
  ∃ c, fm.getFoodById a = some (Food.composite c) ∧ b ∈ mapKeys c.components

/-- No composite lists its own id among its components. -/
def NoSelfReference (fm : FoodManager) : Prop := ∀ a, ¬ RefersTo fm a a

/-- The component-reference graph has no cycle. -/
def Acyclic (fm : FoodManager) : Prop := ∀ a, ¬ Relation.TransGen (RefersTo fm) a a

/-- Every id listed by a composite of the registry resolves in the registry. -/
def Closed (fm : FoodManager) : Prop :=
  ∀ a b, RefersTo fm a b → (fm.getFoodById b).isSome

/-- A call of one of the two registry operations, with its arguments. -/
inductive FoodCall where
  | addBasicFood (id : String) (keywords : List String) (calories : ℚ)
      (description : String) (proteins carbs fats : ℚ)
  | createCompositeFood (id : String) (keywords : List String) (components : StdMap Int)

namespace FoodCall

/-- The effect of a call on the registry. -/
def apply (fm : FoodManager) : FoodCall → FoodManager
  | addBasicFood id keywords calories description proteins carbs fats =>
    fm.addBasicFood id keywords calories description proteins carbs fats
  | createCompositeFood id keywords components =>
    fm.createCompositeFood id keywords components

/-- The conditions under which the CLI lets a call through: the id is not yet
in the registry, and every component of a composite resolves. -/
def Guarded (fm : FoodManager) : FoodCall → Prop
  | addBasicFood id _ _ _ _ _ _ => (fm.getFoodById id).isSome = false
  | createCompositeFood id _ components =>
    (fm.getFoodById id).isSome = false ∧
      ∀ k ∈ mapKeys components, (fm.getFoodById k).isSome = true

instance (fm : FoodManager) (call : FoodCall) : Decidable (Guarded fm call) := by
  cases call <;> (unfold Guarded; infer_instance)

end FoodCall

/-- The registry after a sequence of calls. -/
def runCalls (fm : FoodManager) : List FoodCall → FoodManager
  | [] => fm
  | call :: rest => runCalls (call.apply fm) rest

/-- Every call of the sequence is guarded in the state it is made in. -/
def GuardedCalls (fm : FoodManager) : List FoodCall → Prop
  | [] => True
  | call :: rest => call.Guarded fm ∧ GuardedCalls (call.apply fm) rest

instance guardedCallsDecidable (fm : FoodManager) (calls : List FoodCall) :
    Decidable (GuardedCalls fm calls) := by
  induction calls generalizing fm with
  | nil => unfold GuardedCalls; infer_instance
  | cons call rest ih =>
    unfold GuardedCalls
    exact @instDecidableAnd _ _ _ (ih _)

/-- The registry of the scenario: `bread` (80) and `cheese` (110). -/
def breadAndCheese : FoodManager :=
  (FoodManager.empty.addBasicFood "bread" ["lunch"] 80 "Bread" 3 15 1).addBasicFood
    "cheese" ["lunch"] 110 "Cheese" 7 1 9

/-- The calls of the scenario: `bread`, `cheese`, then `sandwich`. -/
def sandwichCalls : List FoodCall :=
  [FoodCall.addBasicFood "bread" ["lunch"] 80 "Bread" 3 15 1,
   FoodCall.addBasicFood "cheese" ["lunch"] 110 "Cheese" 7 1 9,
   FoodCall.createCompositeFood "sandwich" ["lunch"] [("bread", 2), ("cheese", 1)]]

/-- A basic food is replaced after a composite was built from it. -/
def replacedComponentCalls : List FoodCall :=
  [FoodCall.addBasicFood "bread" ["lunch"] 80 "Bread" 3 15 1,
   FoodCall.createCompositeFood "toast" ["breakfast"] [("bread", 1)],
   FoodCall.addBasicFood "bread" ["lunch"] 95 "Bread" 3 15 1]

/-- A composite is created that lists its own id. -/
def selfReferenceCalls : List FoodCall :=
  [FoodCall.createCompositeFood "stew" ["dinner"] [("stew", 1)]]

/-- A log manager on the date `2024-01-01` with no log at all. -/
def emptyDay : LogManager :=
  { logs := [], undoStack := [], currentDate := "2024-01-01", modified := false }

/-- A log manager whose current day holds one entry with an empty food id. -/
def blankIdDay : LogManager :=
  { logs := [("2024-01-01", { entries := [{ foodId := "", servings := 1 }] })],
    undoStack := [], currentDate := "2024-01-01", modified := false }

/-- A log manager whose current day holds two `bread` and one `cheese`. -/
def lunchDay : LogManager :=
  { logs := [("2024-01-01",
      { entries := [{ foodId := "bread", servings := 2 }, { foodId := "cheese", servings := 1 }] })],
    undoStack := [], currentDate := "2024-01-01", modified := false }

/-- A registry of four basic foods with different keyword lists. -/
def taggedFoods : FoodManager :=
  (((FoodManager.empty.addBasicFood "salad" ["lunch", "healthy"] 150 "Salad" 3 10 7).addBasicFood
    "burger" ["lunch"] 550 "Burger" 25 40 30).addBasicFood
    "apple" ["healthy", "snack"] 95 "Apple" 0 25 0).addBasicFood
    "cake" ["dessert"] 350 "Cake" 4 50 15

/-- A call of one of the four operations of the log manager. -/
inductive LogCall where
  | addFoodToLog (foodId : String) (servings : CInt)
  | removeFoodFromLog (index : Nat)
  | undo
  | setCurrentDate (date : String)

namespace LogCall

/-- The effect of a call on the log manager. -/
def apply (lm : LogManager) : LogCall → LogManager
  | addFoodToLog foodId servings => lm.addFoodToLog foodId servings
  | removeFoodFromLog index => lm.removeFoodFromLog index
  | undo => lm.undo
  | setCurrentDate date => lm.setCurrentDate date

/-- The call adds no servings that are zero or negative. -/
def PositiveServings : LogCall → Prop
  | addFoodToLog _ servings => 0 < servings
  | _ => True

instance (call : LogCall) : Decidable (PositiveServings call) := by
  cases call <;> (unfold PositiveServings; infer_instance)

end LogCall

/-- The log manager after a sequence of calls. -/
def runLogCalls (lm : LogManager) : List LogCall → LogManager
  | [] => lm
  | call :: rest => runLogCalls (call.apply lm) rest

/-- The food ids of the entries of a log are pairwise distinct. -/
def DistinctIds (log : DailyLog) : Prop := (log.entries.map LogEntry.foodId).Nodup

/-- What one entry contributes to a day's total: stored calories of the food
times servings, zero when the food id does not resolve. -/
def entryCalories (fm : FoodManager) (e : LogEntry) : ℚ :=
  match fm.getFoodById e.foodId with
  | some food => food.getCaloriesPerServing * (e.servings.val : ℚ)
  | none => 0

/-- A log manager whose current day holds one `sandwich`. -/
def sandwichDay : LogManager :=
  { logs := [("2024-01-01", { entries := [{ foodId := "sandwich", servings := 1 }] })],
    undoStack := [], currentDate := "2024-01-01", modified := false }

/-- The registry of the scenario after `sandwich` was created. -/
def sandwichFoods : FoodManager :=
  breadAndCheese.createCompositeFood "sandwich" ["lunch"] [("bread", 2), ("cheese", 1)]

/-- A composite file in which `bowl` lists the composite `mix`, whose id comes
later; the calories stored in the file are zero for both. -/
def staleCompositeFile : List Food :=
  [Food.composite
    { id := "bowl", keywords := ["lunch"], caloriesPerServing := 0, components := [("mix", 1)] },
   Food.composite
    { id := "mix", keywords := ["lunch"], caloriesPerServing := 0,
      components := [("bread", 2)] }]

/-- A basic file holding `bread` (80). -/
def breadFile : List Food :=
  [Food.basic
    { id := "bread", keywords := ["lunch"], caloriesPerServing := 80,
      description := "Bread", proteins := 3, carbs := 15, fats := 1 }]

/-- A composite file holding `stack` = {bread: 1, stack: 2}, stored with 100
calories: a composite that lists its own id. -/
def selfReferenceFile : List Food :=
  [Food.composite
    { id := "stack", keywords := ["lunch"], caloriesPerServing := 100,
      components := [("bread", 1), ("stack", 2)] }]

/-- A complete profile: male, 180 cm, 30 years, 80 kg, moderate activity. -/
def sampleProfile : UserProfile :=
  { gender := "male", height := 180, age := 30, weight := 80, activityLevel := "moderate",
    calorieStrategy := some CalorieCalculationStrategy.HarrisBenedictStrategy }

/-- Every entry of a log has positive servings. -/
def PositiveEntries (log : DailyLog) : Prop := ∀ e ∈ log.entries, 0 < e.servings

/-- A session of the log manager: adds, a merge, undos and a removal. -/
def sampleLogCalls : List LogCall :=
  [LogCall.addFoodToLog "bread" 2, LogCall.addFoodToLog "cheese" 1,
   LogCall.addFoodToLog "bread" 1, LogCall.undo, LogCall.removeFoodFromLog 0, LogCall.undo,
   LogCall.setCurrentDate "2024-01-02", LogCall.addFoodToLog "bread" 1, LogCall.undo]

/-- A call of one of the two operations that change the profile in a session. -/
inductive ProfileCall where
  | updateProfile (height : ℚ) (age : Int) (weight : ℚ) (activityLevel : String)
  | setCalculationMethod (method : String)

namespace ProfileCall

/-- The effect of a call on the profile manager. -/
def apply (pm : ProfileManager) : ProfileCall → ProfileManager
  | updateProfile height age weight activityLevel =>
    pm.updateProfile height age weight activityLevel
  | setCalculationMethod method => pm.setCalculationMethod method

end ProfileCall

/-- The profile manager after a sequence of calls. -/
def runProfileCalls (pm : ProfileManager) : List ProfileCall → ProfileManager
  | [] => pm
  | call :: rest => runProfileCalls (call.apply pm) rest

/-- What every registry of a `FoodManager` satisfies: the database is a
`std::map`, keys strictly ascending, and each food is stored under its id. -/
def WellFormedRegistry (fm : FoodManager) : Prop :=
  IsMap fm.foodDatabase ∧ ∀ p ∈ fm.foodDatabase, p.2.getId = p.1

instance (fm : FoodManager) : Decidable (WellFormedRegistry fm) := by
  unfold WellFormedRegistry; infer_instance

/-- The reference paths from a food down to simple foods, at most `fuel`
references deep: for each path, the calories of the simple food at its end and
the product of the serving counts along it. -/
def leafPaths (fm : FoodManager) : Nat → String → List (ℚ × Int)
  | 0, id =>
    match fm.getFoodById id with
    | some (Food.basic b) => [(b.caloriesPerServing, 1)]
    | _ => []
  | fuel + 1, id =>
    match fm.getFoodById id with
    | some (Food.basic b) => [(b.caloriesPerServing, 1)]
    | some (Food.composite c) =>
      c.components.flatMap (fun p =>
        (leafPaths fm fuel p.1).map (fun q => (q.1, p.2 * q.2)))
    | none => []

/-- The fully expanded value of a food: the sum over its reference paths of the
calories of the simple food at the end times the product of the serving counts
along the path. -/
def expandedCalories (fm : FoodManager) (fuel : Nat) (id : String) : ℚ :=
  ((leafPaths fm fuel id).map (fun q => q.1 * (q.2 : ℚ))).sum

/-- The scenario continued: a `lunchbox` of two `sandwich` and one `bread`. -/
def lunchboxCalls : List FoodCall :=
  sandwichCalls ++ [FoodCall.createCompositeFood "lunchbox" ["lunch"]
    [("bread", 1), ("sandwich", 2)]]

/-- The servings a list of entries records for a food id, if any: the mapping
from food ids to servings that a day's log stands for. -/
def servingsOf : List LogEntry → String → Option CInt
  | [], _ => none
  | e :: rest, f => if e.foodId = f then some e.servings else servingsOf rest f

/-- The number of `addFoodToLog` and `removeFoodFromLog` calls of a sequence. -/
def mutations : List LogCall → Nat
  | [] => 0
  | LogCall.addFoodToLog _ _ :: rest => mutations rest + 1
  | LogCall.removeFoodFromLog _ :: rest => mutations rest + 1
  | _ :: rest => mutations rest

/-- A sequence of adds of positive servings, removals at indices within the
bounds of the day current at that moment, and changes of date; no undo. -/
def ValidOps (lm : LogManager) : List LogCall → Prop
  | [] => True
  | LogCall.addFoodToLog foodId servings :: rest =>
    0 < servings ∧ ValidOps (lm.addFoodToLog foodId servings) rest
  | LogCall.removeFoodFromLog index :: rest =>
    index < lm.getCurrentDayLog.entries.length ∧ ValidOps (lm.removeFoodFromLog index) rest
  | LogCall.undo :: _ => False
  | LogCall.setCurrentDate date :: rest => ValidOps (lm.setCurrentDate date) rest

instance validOpsDecidable (lm : LogManager) (ops : List LogCall) :
    Decidable (ValidOps lm ops) := by
  induction ops generalizing lm with
  | nil => unfold ValidOps; infer_instance
  | cons op rest ih =>
    cases op with
    | addFoodToLog foodId servings => unfold ValidOps; exact @instDecidableAnd _ _ _ (ih _)
    | removeFoodFromLog index => unfold ValidOps; exact @instDecidableAnd _ _ _ (ih _)
    | undo => unfold ValidOps; infer_instance
    | setCurrentDate date => unfold ValidOps; exact ih _

/-- The log manager after `n` calls of `undo`. -/
def undoTimes : Nat → LogManager → LogManager
  | 0, lm => lm
  | n + 1, lm => (undoTimes n lm).undo

/-- The condition on the logs a full unwinding starts from: per day distinct
food ids, positive servings and no empty food id. -/
def CleanLogs (logs : StdMap DailyLog) : Prop :=
  ∀ p ∈ logs, DistinctIds p.2 ∧ PositiveEntries p.2 ∧ ∀ e ∈ p.2.entries, e.foodId ≠ ""

instance (logs : StdMap DailyLog) : Decidable (CleanLogs logs) := by
  unfold CleanLogs DistinctIds PositiveEntries; infer_instance

/-- A session over two dates: adds, a merge, a removal, no undo. -/
def sampleOps : List LogCall :=
  [LogCall.addFoodToLog "bread" 1, LogCall.setCurrentDate "2024-01-02",
   LogCall.addFoodToLog "cheese" 2, LogCall.setCurrentDate "2024-01-01",
   LogCall.removeFoodFromLog 0, LogCall.addFoodToLog "ham" 1]

/-- The logs `X` record the same servings as the logs `L` for every date and
food id, except that an entry with the empty food id may be missing from `X`. -/
def AgreeUpToBlank (X L : StdMap DailyLog) : Prop :=
  ∀ d f, servingsOf (logsAt X d).entries f = servingsOf (logsAt L d).entries f ∨
    (f = "" ∧ servingsOf (logsAt X d).entries f = none)

/-- No `addFoodToLog` call of the sequence, run from `lm`, overflows: where the
call merges into an entry of the current day, the sum of the two servings is at
most `INT_MAX`. -/
def AddsFit (lm : LogManager) : List LogCall → Prop
  | [] => True
  | LogCall.addFoodToLog foodId servings :: rest =>
    (∀ e ∈ lm.getCurrentDayLog.entries, e.foodId = foodId →
        e.servings.val + servings.val < 2147483648) ∧
      AddsFit (lm.addFoodToLog foodId servings) rest
  | LogCall.removeFoodFromLog index :: rest => AddsFit (lm.removeFoodFromLog index) rest
  | LogCall.undo :: rest => AddsFit lm.undo rest
  | LogCall.setCurrentDate date :: rest => AddsFit (lm.setCurrentDate date) rest

instance addsFitDecidable (lm : LogManager) (ops : List LogCall) :
    Decidable (AddsFit lm ops) := by
  induction ops generalizing lm with
  | nil => unfold AddsFit; infer_instance
  | cons op rest ih =>
    cases op with
    | addFoodToLog foodId servings => unfold AddsFit; exact @instDecidableAnd _ _ _ (ih _)
    | removeFoodFromLog index => unfold AddsFit; exact ih _
    | undo => unfold AddsFit; exact ih _
    | setCurrentDate date => unfold AddsFit; exact ih _

/-- Two adds of the same food whose servings sum to `INT_MAX + 1`. -/
def overflowCalls : List LogCall :=
  [LogCall.addFoodToLog "bread" 2147483647, LogCall.addFoodToLog "bread" 1]

/-- A log manager whose current day holds one `bread`. -/
def breadDay : LogManager :=
  { logs := [("2024-01-01", { entries := [{ foodId := "bread", servings := 1 }] })],
    undoStack := [], currentDate := "2024-01-01", modified := false }

/-- A log manager whose current day holds `INT_MAX` servings of `bread`. -/
def fullDay : LogManager :=
  { logs := [("2024-01-01", { entries := [{ foodId := "bread", servings := 2147483647 }] })],
    undoStack := [], currentDate := "2024-01-01", modified := false }

/-- The servings the logs record for a date and a food id other than the empty
one. -/
def recorded (logs : StdMap DailyLog) (d f : String) : Option CInt :=
  if f = "" then none else servingsOf (logsAt logs d).entries f

/-- What `undo` of a command does to the recorded servings. -/
def Command.undoRecorded :
    Command → (String → String → Option CInt) → String → String → Option CInt
  | Command.AddFoodLogCommand date foodId servings, M, d, f =>
    if d = date ∧ f = foodId then
      match M d f with
      | some m => if m + -servings ≤ 0 then none else some (m + -servings)
      | none => none
    else M d f
  | Command.RemoveFoodLogCommand date _ removedEntry, M, d, f =>
    if removedEntry.foodId ≠ "" ∧ d = date ∧ f = removedEntry.foodId then
      match M d f with
      | some m => some (m + removedEntry.servings)
      | none => some removedEntry.servings
    else M d f

/-- The undo of the command finds no entry to merge into: a removal gives back
positive servings of a food that its day does not record. -/
def Command.Restorable : Command → (String → String → Option CInt) → Prop
  | Command.AddFoodLogCommand _ _ _, _ => True
  | Command.RemoveFoodLogCommand date _ removedEntry, M =>
    removedEntry.foodId = "" ∨ (M date removedEntry.foodId = none ∧ 0 < removedEntry.servings)

/-- Every command of the history is restorable at the moment its undo runs. -/
def Unwinds : (String → String → Option CInt) → List Command → Prop
  | _, [] => True
  | M, cmd :: rest => cmd.Restorable M ∧ Unwinds (cmd.undoRecorded M) rest

/-! ## Rounding to `double` -/

namespace Binary64

/-- The loop of `bitLength`: one round per binary digit. -/
def bitLengthLoop : Nat → Nat → Nat
  | 0, _ => 0
  | fuel + 1, n => if n = 0 then 0 else bitLengthLoop fuel (n / 2) + 1

/-- The number of binary digits of `n`. -/
def bitLength (n : Nat) : Nat := bitLengthLoop n n

/-- The quotient of `q` by `2^e`. -/
def scale (q : ℚ) (e : Int) : ℚ :=
  if 0 ≤ e then q / (2 : ℚ) ^ e.toNat else q * (2 : ℚ) ^ (-e).toNat

/-- The integer nearest to `q`, the even one of the two when `q` lies halfway
between them. -/
def nearestEven (q : ℚ) : Int :=
  if q - ⌊q⌋ < 1 / 2 then ⌊q⌋
  else if 1 / 2 < q - ⌊q⌋ then ⌊q⌋ + 1
  else if ⌊q⌋ % 2 = 0 then ⌊q⌋ else ⌊q⌋ + 1

/-- The exponent of the unit in the last place of the `double` nearest to a
positive `q`: the `e` with `2^52 ≤ q / 2^e < 2^53`, and `-1074` for the
subnormal numbers. With `n` and `d` the numerator and the denominator of `q`,
`q / 2^(bitLength n - bitLength d - 53)` lies between `2^52` and `2^54`. -/
def ulpExponent (q : ℚ) : Int :=
  max
    (if scale q ((bitLength q.num.natAbs : Int) - (bitLength q.den : Int) - 53) < 2 ^ 53 then
      (bitLength q.num.natAbs : Int) - (bitLength q.den : Int) - 53
    else (bitLength q.num.natAbs : Int) - (bitLength q.den : Int) - 52)
    (-1074)

/-- The `double` that an arithmetic result `q` is stored as: the multiple of
the unit in the last place nearest to `q`, ties going to the even multiple.
Results beyond the largest `double` are not modelled. -/
def roundNearest (q : ℚ) : ℚ :=
  if q = 0 then 0
  else if 0 < q then scale (nearestEven (scale q (ulpExponent q))) (-ulpExponent q)
  else -scale (nearestEven (scale (-q) (ulpExponent (-q)))) (-ulpExponent (-q))

end Binary64

/-- The loop of `updateCalories` in `double` arithmetic: the product of the
stored calories and the servings is rounded, and so is its sum with the running
total. -/
def CompositeFood.updateCaloriesLoopRounded (foodDatabase : StdMap Food) :
    StdMap Int → ℚ → ℚ
  | [], acc => acc
  | (foodId, servings) :: rest, acc =>
    match mapFind foodDatabase foodId with
    | some food =>
      updateCaloriesLoopRounded foodDatabase rest
        (Binary64.roundNearest
          (acc + Binary64.roundNearest (food.getCaloriesPerServing * servings)))
    | none => updateCaloriesLoopRounded foodDatabase rest acc

/-- The method `updateCalories` in `double` arithmetic. -/
def CompositeFood.updateCaloriesRounded (c : CompositeFood) (foodDatabase : StdMap Food) :
    CompositeFood :=
  { c with caloriesPerServing := updateCaloriesLoopRounded foodDatabase c.components 0 }

/-- The method `createCompositeFood` in `double` arithmetic. -/
def FoodManager.createCompositeFoodRounded (fm : FoodManager) (id : String)
    (keywords : List String) (components : StdMap Int) : FoodManager :=
  { foodDatabase := mapAssign fm.foodDatabase id
      (Food.composite
        ((addComponents (CompositeFood.new id keywords) components).updateCaloriesRounded
          fm.foodDatabase)),
    modified := true }

/-- The effect of a call on the registry in `double` arithmetic; the numbers
passed to `addBasicFood` are stored as they are. -/
def FoodCall.applyRounded (fm : FoodManager) : FoodCall → FoodManager
  | FoodCall.addBasicFood id keywords calories description proteins carbs fats =>
    fm.addBasicFood id keywords calories description proteins carbs fats
  | FoodCall.createCompositeFood id keywords components =>
    fm.createCompositeFoodRounded id keywords components

/-- The registry after a sequence of calls in `double` arithmetic. -/
def runCallsRounded (fm : FoodManager) : List FoodCall → FoodManager
  | [] => fm
  | call :: rest => runCallsRounded (call.applyRounded fm) rest

/-- Every call of the sequence is guarded in the state it is made in, the
registry being computed in `double` arithmetic. -/
def GuardedCallsRounded (fm : FoodManager) : List FoodCall → Prop
  | [] => True
  | call :: rest => call.Guarded fm ∧ GuardedCallsRounded (call.applyRounded fm) rest

instance guardedCallsRoundedDecidable (fm : FoodManager) (calls : List FoodCall) :
    Decidable (GuardedCallsRounded fm calls) := by
  induction calls generalizing fm with
  | nil => unfold GuardedCallsRounded; infer_instance
  | cons call rest ih =>
    unfold GuardedCallsRounded
    exact @instDecidableAnd _ _ _ (ih _)

/-- A `leaf` of 0.1 calories as a `double`, a `pack` of three `leaf` and a
`crate` of three `pack`. -/
def tenthCalls : List FoodCall :=
  [FoodCall.addBasicFood "leaf" ["snack"] (Binary64.roundNearest (1 / 10)) "Leaf" 0 0 0,
   FoodCall.createCompositeFood "pack" ["snack"] [("leaf", 3)],
   FoodCall.createCompositeFood "crate" ["snack"] [("pack", 3)]]

/-! ## Lemmas on `int` -/

theorem CInt.ext_val {a b : CInt} (h : a.val = b.val) : a = b := by
  cases a
  cases b
  simp only at h
  subst h
  rfl

theorem CInt.lt_iff (a b : CInt) : a < b ↔ a.val < b.val := Iff.rfl

theorem CInt.le_iff (a b : CInt) : a ≤ b ↔ a.val ≤ b.val := Iff.rfl

theorem CInt.val_zero : (0 : CInt).val = 0 := rfl

theorem CInt.val_one : (1 : CInt).val = 1 := rfl

theorem CInt.val_add (a b : CInt) :
    (a + b).val = (a.val + b.val + 2147483648) % 4294967296 - 2147483648 := rfl

theorem CInt.val_sub (a b : CInt) :
    (a - b).val = (a.val - b.val + 2147483648) % 4294967296 - 2147483648 := rfl

theorem CInt.val_neg (a : CInt) :
    (-a).val = (-a.val + 2147483648) % 4294967296 - 2147483648 := rfl

/-- An addition whose result lies in the range of `int` gives that result. -/
theorem CInt.val_add_of_fits (a b : CInt)
    (h : -2147483648 ≤ a.val + b.val ∧ a.val + b.val < 2147483648) :
    (a + b).val = a.val + b.val := by
  rw [CInt.val_add]
  omega

theorem CInt.add_neg_cancel_right (a b : CInt) : a + b + -b = a := by
  apply CInt.ext_val
  have := a.inRange
  have := b.inRange
  simp only [CInt.val_add, CInt.val_neg]
  omega

theorem CInt.add_neg_self (a : CInt) : a + -a = 0 := by
  apply CInt.ext_val
  have := a.inRange
  simp only [CInt.val_add, CInt.val_neg, CInt.val_zero]
  omega

theorem CInt.sub_eq_add_neg (a b : CInt) : a - b = a + -b := by
  apply CInt.ext_val
  have := a.inRange
  have := b.inRange
  simp only [CInt.val_add, CInt.val_neg, CInt.val_sub]
  omega

theorem CInt.not_pos_zero : ¬ (0 : CInt) < 0 := by decide

theorem CInt.zero_le_zero : (0 : CInt) ≤ 0 := by decide

theorem CInt.not_le_of_lt {a b : CInt} (h : a < b) : ¬ b ≤ a := by
  rw [CInt.lt_iff] at h
  rw [CInt.le_iff]
  omega

theorem CInt.lt_of_not_le {a b : CInt} (h : ¬ b ≤ a) : a < b := by
  rw [CInt.le_iff] at h
  rw [CInt.lt_iff]
  omega

/-! ## Lemmas on `std::map` -/

theorem mapFind_mapAssign_self {V : Type} (m : StdMap V) (k : String) (v : V) :
    mapFind (mapAssign m k v) k = some v := by
  induction m with
  | nil => simp [mapAssign, mapFind]
  | cons p rest ih =>
    obtain ⟨k', v'⟩ := p
    simp only [mapAssign]
    split_ifs with h1 h2
    · simp [mapFind]
    · simp [mapFind, h2]
    · simp [mapFind, h2, ih]

theorem mapFind_mapAssign_of_ne {V : Type} (m : StdMap V) (k k2 : String) (v : V)
    (h : k ≠ k2) : mapFind (mapAssign m k v) k2 = mapFind m k2 := by
  induction m with
  | nil => simp [mapAssign, mapFind, h]
  | cons p rest ih =>
    obtain ⟨k', v'⟩ := p
    simp only [mapAssign]
    split_ifs with h1 h2
    · simp [mapFind, h]
    · subst h2; simp [mapFind, h]
    · simp [mapFind, ih]

theorem toList_lt_irrefl (k : String) : ¬ k.toList < k.toList := by
  rw [← String.lt_iff_toList_lt]; exact lt_irrefl k

theorem toList_lt_asymm {a b : String} (h : a.toList < b.toList) : ¬ b.toList < a.toList := by
  rw [← String.lt_iff_toList_lt] at h ⊢; exact lt_asymm h

/-- Assigning a key above every key of the map appends the pair. -/
theorem mapAssign_append {V : Type} (m : StdMap V) (k : String) (v : V)
    (h : ∀ p ∈ m, p.1.toList < k.toList) : mapAssign m k v = m ++ [(k, v)] := by
  induction m with
  | nil => simp [mapAssign]
  | cons p rest ih =>
    obtain ⟨k', v'⟩ := p
    have hk : k'.toList < k.toList := h (k', v') (List.mem_cons_self _ _)
    have hne : k' ≠ k := by
      rintro rfl; exact toList_lt_irrefl _ hk
    simp only [mapAssign, if_neg (toList_lt_asymm hk), if_neg hne, List.cons_append]
    rw [ih (fun p hp => h p (List.mem_cons_of_mem _ hp))]

theorem mem_mapKeys_of_mapFind {V : Type} (m : StdMap V) (k : String) (v : V)
    (h : mapFind m k = some v) : k ∈ mapKeys m := by
  induction m with
  | nil => simp [mapFind] at h
  | cons p rest ih =>
    obtain ⟨k', v'⟩ := p
    simp only [mapFind] at h
    split_ifs at h with h1
    · simp [mapKeys, h1]
    · have := ih h
      simp only [mapKeys, List.map_cons, List.mem_cons]
      right; exact this

theorem mapFind_isSome_of_mem_mapKeys {V : Type} (m : StdMap V) (k : String)
    (h : k ∈ mapKeys m) : (mapFind m k).isSome := by
  induction m with
  | nil => simp [mapKeys] at h
  | cons p rest ih =>
    obtain ⟨k', v'⟩ := p
    simp only [mapFind]
    split_ifs with h1
    · rfl
    · apply ih
      simp only [mapKeys, List.map_cons, List.mem_cons] at h
      rcases h with h | h
      · exact absurd h.symm h1
      · exact h

/-- The keys after an assignment are the old keys and the assigned one. -/
theorem mem_mapKeys_mapAssign {V : Type} (m : StdMap V) (k k2 : String) (v : V) :
    k2 ∈ mapKeys (mapAssign m k v) ↔ k2 = k ∨ k2 ∈ mapKeys m := by
  induction m with
  | nil => simp [mapAssign, mapKeys]
  | cons p rest ih =>
    obtain ⟨k', v'⟩ := p
    simp only [mapAssign]
    split_ifs with h1 h2
    · simp [mapKeys]
    · subst h2; simp [mapKeys]
    · simp only [mapKeys, List.map_cons, List.mem_cons] at ih ⊢
      rw [ih]; tauto

/-! ## Lemmas on composite foods -/

theorem updateCaloriesLoop_eq (fm : FoodManager) (components : StdMap Int) (acc : ℚ) :
    CompositeFood.updateCaloriesLoop fm.foodDatabase components acc
      = acc + componentSum fm components := by
  induction components generalizing acc with
  | nil => simp [CompositeFood.updateCaloriesLoop, componentSum]
  | cons p rest ih =>
    obtain ⟨foodId, servings⟩ := p
    simp only [CompositeFood.updateCaloriesLoop]
    cases hfind : mapFind fm.foodDatabase foodId with
    | none =>
      simp only [ih, componentSum, List.map_cons, List.sum_cons, componentCalories,
        FoodManager.getFoodById, hfind]
      ring
    | some food =>
      simp only [ih, componentSum, List.map_cons, List.sum_cons, componentCalories,
        FoodManager.getFoodById, hfind]
      ring

theorem addComponents_id (c : CompositeFood) (components : StdMap Int) :
    (FoodManager.addComponents c components).id = c.id := by
  induction components generalizing c with
  | nil => rfl
  | cons p rest ih => obtain ⟨k, v⟩ := p; simp [FoodManager.addComponents, ih, CompositeFood.addComponent]

theorem addComponents_keywords (c : CompositeFood) (components : StdMap Int) :
    (FoodManager.addComponents c components).keywords = c.keywords := by
  induction components generalizing c with
  | nil => rfl
  | cons p rest ih => obtain ⟨k, v⟩ := p; simp [FoodManager.addComponents, ih, CompositeFood.addComponent]

theorem addComponents_caloriesPerServing (c : CompositeFood) (components : StdMap Int) :
    (FoodManager.addComponents c components).caloriesPerServing = c.caloriesPerServing := by
  induction components generalizing c with
  | nil => rfl
  | cons p rest ih => obtain ⟨k, v⟩ := p; simp [FoodManager.addComponents, ih, CompositeFood.addComponent]

/-- Copying a well-formed map pair by pair onto a map whose keys lie below
appends it. -/
theorem addComponents_components (c : CompositeFood) (components : StdMap Int)
    (h : IsMap (c.components ++ components)) :
    (FoodManager.addComponents c components).components = c.components ++ components := by
  induction components generalizing c with
  | nil => simp [FoodManager.addComponents]
  | cons p rest ih =>
    obtain ⟨k, v⟩ := p
    have hlt : ∀ q ∈ c.components, q.1.toList < k.toList := by
      intro q hq
      simp only [IsMap, mapKeys, List.map_append, List.map_cons, List.pairwise_append] at h
      exact h.2.2 q.1 (List.mem_map_of_mem _ hq) k (List.mem_cons_self _ _)
    have hstep : (c.addComponent k v).components = c.components ++ [(k, v)] := by
      simp [CompositeFood.addComponent, mapAssign_append _ _ _ hlt]
    simp only [FoodManager.addComponents]
    rw [ih (c.addComponent k v) (by rw [hstep]; simpa using h), hstep]
    simp

/-- The keys stored by `addComponents` are old keys or keys of the input. -/
theorem mem_mapKeys_addComponents (c : CompositeFood) (components : StdMap Int) (k : String)
    (h : k ∈ mapKeys (FoodManager.addComponents c components).components) :
    k ∈ mapKeys c.components ∨ k ∈ mapKeys components := by
  induction components generalizing c with
  | nil => left; exact h
  | cons p rest ih =>
    obtain ⟨k', v⟩ := p
    simp only [FoodManager.addComponents] at h
    rcases ih _ h with h1 | h1
    · simp only [CompositeFood.addComponent, mem_mapKeys_mapAssign] at h1
      rcases h1 with h1 | h1
      · right; simp [mapKeys, h1]
      · left; exact h1
    · right; simp only [mapKeys, List.map_cons, List.mem_cons] at h1 ⊢; right; exact h1

/-! ## Composite creation (C1) -/

/-- C1. For every registry, id, keyword list and component map,
`createCompositeFood` stores under the id a composite with the given keywords
and components whose calories are the sum, over the components, of the
calories stored for the component at that moment times its servings, a
component whose id does not resolve contributing zero. -/
theorem createCompositeFood_calories (fm : FoodManager) (id : String)
    (keywords : List String) (components : StdMap Int) (h : IsMap components) :
    (fm.createCompositeFood id keywords components).getFoodById id
      = some (Food.composite
          { id := id, keywords := keywords,
            caloriesPerServing := componentSum fm components,
            components := components }) := by
  have hc := addComponents_components (CompositeFood.new id keywords) components
    (by simpa [CompositeFood.new] using h)
  simp only [FoodManager.createCompositeFood, FoodManager.getFoodById, mapFind_mapAssign_self,
    CompositeFood.updateCalories, updateCaloriesLoop_eq, hc, addComponents_id,
    addComponents_keywords]
  simp [CompositeFood.new]

theorem createCompositeFood_calories_witness :
    IsMap [("bread", (2 : Int)), ("cheese", 1)] ∧
    (breadAndCheese.createCompositeFood "sandwich" ["lunch"]
        [("bread", 2), ("cheese", 1)]).getFoodById "sandwich"
      = some (Food.composite
          { id := "sandwich", keywords := ["lunch"], caloriesPerServing := 270,
            components := [("bread", 2), ("cheese", 1)] }) := by
  refine ⟨by decide, ?_⟩
  rw [createCompositeFood_calories breadAndCheese "sandwich" ["lunch"]
    [("bread", 2), ("cheese", 1)] (by decide)]
  simp [componentSum, componentCalories, breadAndCheese, FoodManager.addBasicFood,
    FoodManager.empty, FoodManager.getFoodById, mapAssign, mapFind,
    Food.getCaloriesPerServing]
  norm_num

/-! ## Registry invariants under guarded calls (C2, C10) -/

theorem getFoodById_addBasicFood_self (fm : FoodManager) (id : String) (keywords : List String)
    (calories : ℚ) (description : String) (proteins carbs fats : ℚ) :
    (fm.addBasicFood id keywords calories description proteins carbs fats).getFoodById id
      = some (Food.basic
          { id := id, keywords := keywords, caloriesPerServing := calories,
            description := description, proteins := proteins, carbs := carbs, fats := fats }) := by
  simp [FoodManager.addBasicFood, FoodManager.getFoodById, mapFind_mapAssign_self]

theorem getFoodById_addBasicFood_of_ne (fm : FoodManager) (id : String) (keywords : List String)
    (calories : ℚ) (description : String) (proteins carbs fats : ℚ) (k : String) (h : id ≠ k) :
    (fm.addBasicFood id keywords calories description proteins carbs fats).getFoodById k
      = fm.getFoodById k := by
  simp [FoodManager.addBasicFood, FoodManager.getFoodById, mapFind_mapAssign_of_ne _ _ _ _ h]

theorem getFoodById_createCompositeFood_self (fm : FoodManager) (id : String)
    (keywords : List String) (components : StdMap Int) :
    (fm.createCompositeFood id keywords components).getFoodById id
      = some (Food.composite
          ((FoodManager.addComponents (CompositeFood.new id keywords) components).updateCalories
            fm.foodDatabase)) := by
  simp [FoodManager.createCompositeFood, FoodManager.getFoodById, mapFind_mapAssign_self]

theorem getFoodById_createCompositeFood_of_ne (fm : FoodManager) (id : String)
    (keywords : List String) (components : StdMap Int) (k : String) (h : id ≠ k) :
    (fm.createCompositeFood id keywords components).getFoodById k = fm.getFoodById k := by
  simp [FoodManager.createCompositeFood, FoodManager.getFoodById,
    mapFind_mapAssign_of_ne _ _ _ _ h]

/-- The sum of a component map only depends on how its keys resolve. -/
theorem componentSum_congr (fm fm2 : FoodManager) (components : StdMap Int)
    (h : ∀ k ∈ mapKeys components, fm2.getFoodById k = fm.getFoodById k) :
    componentSum fm2 components = componentSum fm components := by
  unfold componentSum
  congr 1
  apply List.map_congr_left
  intro p hp
  have := h p.1 (List.mem_map_of_mem _ hp)
  simp [componentCalories, this]

/-- The keys of the composite that `createCompositeFood` stores are keys of the
component map it was given. -/
theorem mem_components_created (id : String) (keywords : List String) (components : StdMap Int)
    (db : StdMap Food) (k : String)
    (h : k ∈ mapKeys ((FoodManager.addComponents (CompositeFood.new id keywords)
      components).updateCalories db).components) : k ∈ mapKeys components := by
  have h2 : k ∈ mapKeys (FoodManager.addComponents (CompositeFood.new id keywords)
      components).components := by
    simpa [CompositeFood.updateCalories] using h
  rcases mem_mapKeys_addComponents _ _ _ h2 with h3 | h3
  · simp [CompositeFood.new, mapKeys] at h3
  · exact h3

theorem isSome_false_ne {fm : FoodManager} {id k : String}
    (hfresh : (fm.getFoodById id).isSome = false) (hk : (fm.getFoodById k).isSome = true) :
    id ≠ k := by
  rintro rfl; rw [hfresh] at hk; cases hk

/-- A guarded `addBasicFood` changes neither the edges of the reference graph
nor, for a closed registry, how the listed ids resolve. -/
theorem refersTo_addBasicFood {fm : FoodManager} {id : String} {keywords : List String}
    {calories : ℚ} {description : String} {proteins carbs fats : ℚ} {a b : String}
    (h : RefersTo (fm.addBasicFood id keywords calories description proteins carbs fats) a b) :
    a ≠ id ∧ RefersTo fm a b := by
  obtain ⟨c, hc, hb⟩ := h
  have hne : a ≠ id := by
    rintro rfl
    rw [getFoodById_addBasicFood_self] at hc
    cases hc
  rw [getFoodById_addBasicFood_of_ne _ _ _ _ _ _ _ _ _ (Ne.symm hne)] at hc
  exact ⟨hne, c, hc, hb⟩

/-- The edges after `createCompositeFood`: those of the new composite lead to
keys of the given component map, the others are old. -/
theorem refersTo_createCompositeFood {fm : FoodManager} {id : String} {keywords : List String}
    {components : StdMap Int} {a b : String}
    (h : RefersTo (fm.createCompositeFood id keywords components) a b) :
    (a = id ∧ b ∈ mapKeys components) ∨ (a ≠ id ∧ RefersTo fm a b) := by
  obtain ⟨c, hc, hb⟩ := h
  by_cases ha : a = id
  · subst ha
    rw [getFoodById_createCompositeFood_self] at hc
    injection hc with hc
    injection hc with hc
    subst hc
    exact Or.inl ⟨rfl, mem_components_created _ _ _ _ _ hb⟩
  · rw [getFoodById_createCompositeFood_of_ne _ _ _ _ _ (Ne.symm ha)] at hc
    exact Or.inr ⟨ha, c, hc, hb⟩

theorem closed_empty : Closed FoodManager.empty := by
  rintro a b ⟨c, hc, -⟩
  simp [FoodManager.empty, FoodManager.getFoodById, mapFind] at hc

theorem closed_apply (fm : FoodManager) (call : FoodCall) (hcl : Closed fm)
    (hg : call.Guarded fm) : Closed (call.apply fm) := by
  cases call with
  | addBasicFood id keywords calories description proteins carbs fats =>
    intro a b h
    obtain ⟨-, h2⟩ := refersTo_addBasicFood h
    have hb := hcl a b h2
    by_cases hbid : id = b
    · subst hbid; simp [FoodCall.apply, getFoodById_addBasicFood_self]
    · simpa [FoodCall.apply, getFoodById_addBasicFood_of_ne _ _ _ _ _ _ _ _ _ hbid] using hb
  | createCompositeFood id keywords components =>
    intro a b h
    have hb : (fm.getFoodById b).isSome = true := by
      rcases refersTo_createCompositeFood h with ⟨-, h2⟩ | ⟨-, h2⟩
      · exact hg.2 b h2
      · exact hcl a b h2
    have hne : id ≠ b := isSome_false_ne hg.1 hb
    simpa [FoodCall.apply, getFoodById_createCompositeFood_of_ne _ _ _ _ _ hne] using hb

theorem closed_runCalls (calls : List FoodCall) (fm : FoodManager) (hcl : Closed fm)
    (hg : GuardedCalls fm calls) : Closed (runCalls fm calls) := by
  induction calls generalizing fm with
  | nil => exact hcl
  | cons call rest ih => exact ih _ (closed_apply fm call hcl hg.1) hg.2

theorem compositeInvariant_apply (fm : FoodManager) (call : FoodCall) (hcl : Closed fm)
    (hinv : CompositeInvariant fm) (hg : call.Guarded fm) :
    CompositeInvariant (call.apply fm) := by
  cases call with
  | addBasicFood id keywords calories description proteins carbs fats =>
    intro a c hc
    have hne : a ≠ id := by
      rintro rfl
      rw [FoodCall.apply, getFoodById_addBasicFood_self] at hc
      cases hc
    rw [FoodCall.apply, getFoodById_addBasicFood_of_ne _ _ _ _ _ _ _ _ _ (Ne.symm hne)] at hc
    rw [hinv a c hc]
    symm
    apply componentSum_congr
    intro k hk
    have hk2 := hcl a k ⟨c, hc, hk⟩
    exact getFoodById_addBasicFood_of_ne _ _ _ _ _ _ _ _ _ (isSome_false_ne hg hk2)
  | createCompositeFood id keywords components =>
    intro a c hc
    by_cases ha : a = id
    · subst ha
      rw [FoodCall.apply, getFoodById_createCompositeFood_self] at hc
      injection hc with hc
      injection hc with hc
      subst hc
      simp only [CompositeFood.updateCalories, updateCaloriesLoop_eq, zero_add]
      symm
      apply componentSum_congr
      intro k hk
      have hk2 := mem_components_created a keywords components fm.foodDatabase k
        (by simpa [CompositeFood.updateCalories] using hk)
      exact getFoodById_createCompositeFood_of_ne _ _ _ _ _ (isSome_false_ne hg.1 (hg.2 k hk2))
    · rw [FoodCall.apply, getFoodById_createCompositeFood_of_ne _ _ _ _ _ (Ne.symm ha)] at hc
      rw [hinv a c hc]
      symm
      apply componentSum_congr
      intro k hk
      have hk2 := hcl a k ⟨c, hc, hk⟩
      exact getFoodById_createCompositeFood_of_ne _ _ _ _ _ (isSome_false_ne hg.1 hk2)

theorem compositeInvariant_runCalls (calls : List FoodCall) (fm : FoodManager)
    (hcl : Closed fm) (hinv : CompositeInvariant fm) (hg : GuardedCalls fm calls) :
    CompositeInvariant (runCalls fm calls) := by
  induction calls generalizing fm with
  | nil => exact hinv
  | cons call rest ih =>
    exact ih _ (closed_apply fm call hcl hg.1) (compositeInvariant_apply fm call hcl hinv hg.1)
      hg.2

/-- C2, as the code has it. In every sequence of `addBasicFood` and
`createCompositeFood` calls from the empty registry in which each call uses an
id not yet present and each composite lists only ids already present, every
composite of the resulting registry has the calories that its components
currently sum to. -/
theorem compositeInvariant_of_guardedCalls (calls : List FoodCall)
    (hg : GuardedCalls FoodManager.empty calls) :
    CompositeInvariant (runCalls FoodManager.empty calls) := by
  apply compositeInvariant_runCalls calls _ closed_empty _ hg
  intro a c hc
  simp [FoodManager.empty, FoodManager.getFoodById, mapFind] at hc

theorem compositeInvariant_of_guardedCalls_witness :
    GuardedCalls FoodManager.empty sandwichCalls ∧
      CompositeInvariant (runCalls FoodManager.empty sandwichCalls) :=
  ⟨by decide, compositeInvariant_of_guardedCalls sandwichCalls (by decide)⟩

/-- C2 fails as stated. After `bread` (80), `toast` made of one `bread`, and
`bread` again (95), the composite `toast` still has 80 calories while its
component now has 95: nothing recomputes a composite when a component is
replaced. -/
theorem compositeInvariant_unguarded_counterexample :
    ¬ ∀ calls : List FoodCall, CompositeInvariant (runCalls FoodManager.empty calls) := by
  intro h
  have h1 := h replacedComponentCalls "toast"
    { id := "toast", keywords := ["breakfast"], caloriesPerServing := 80,
      components := [("bread", 1)] }
  simp [replacedComponentCalls, runCalls, FoodCall.apply, FoodManager.createCompositeFood,
    FoodManager.addBasicFood, FoodManager.empty, FoodManager.getFoodById,
    FoodManager.addComponents, CompositeFood.new, CompositeFood.addComponent,
    CompositeFood.updateCalories, CompositeFood.updateCaloriesLoop, mapAssign, mapFind,
    Food.getCaloriesPerServing, componentSum, componentCalories] at h1

theorem ranked_apply (fm : FoodManager) (call : FoodCall) (hcl : Closed fm)
    (hr : ∃ r : String → ℕ, ∀ a b, RefersTo fm a b → r a < r b) (hg : call.Guarded fm) :
    ∃ r : String → ℕ, ∀ a b, RefersTo (call.apply fm) a b → r a < r b := by
  obtain ⟨r, hr⟩ := hr
  cases call with
  | addBasicFood id keywords calories description proteins carbs fats =>
    exact ⟨r, fun a b h => hr a b (refersTo_addBasicFood h).2⟩
  | createCompositeFood id keywords components =>
    refine ⟨fun x => if x = id then 0 else r x + 1, ?_⟩
    intro a b h
    rcases refersTo_createCompositeFood h with ⟨ha, hb⟩ | ⟨ha, hab⟩
    · have hne : id ≠ b := isSome_false_ne hg.1 (hg.2 b hb)
      simp [ha, Ne.symm hne]
    · have hne : id ≠ b := isSome_false_ne hg.1 (hcl a b hab)
      have := hr a b hab
      simp [ha, Ne.symm hne, this]

theorem ranked_runCalls (calls : List FoodCall) (fm : FoodManager) (hcl : Closed fm)
    (hr : ∃ r : String → ℕ, ∀ a b, RefersTo fm a b → r a < r b)
    (hg : GuardedCalls fm calls) :
    ∃ r : String → ℕ, ∀ a b, RefersTo (runCalls fm calls) a b → r a < r b := by
  induction calls generalizing fm with
  | nil => exact hr
  | cons call rest ih =>
    exact ih _ (closed_apply fm call hcl hg.1) (ranked_apply fm call hcl hr hg.1) hg.2

/-- A registry whose references strictly increase some rank has no cycle. -/
theorem acyclic_of_ranked (fm : FoodManager)
    (hr : ∃ r : String → ℕ, ∀ a b, RefersTo fm a b → r a < r b) : Acyclic fm := by
  obtain ⟨r, hr⟩ := hr
  have hpath : ∀ a b, Relation.TransGen (RefersTo fm) a b → r a < r b := by
    intro a b h
    induction h with
    | single h => exact hr _ _ h
    | tail _ h ih => exact lt_trans ih (hr _ _ h)
  intro a h
  exact lt_irrefl _ (hpath a a h)

/-- C10, as the code has it. In every registry reached from the empty one by
`addBasicFood` and `createCompositeFood` calls that each use an id not yet
present and, for a composite, list only ids already present, no composite
lists its own id and the component-reference graph has no cycle. -/
theorem acyclic_of_guardedCalls (calls : List FoodCall)
    (hg : GuardedCalls FoodManager.empty calls) :
    NoSelfReference (runCalls FoodManager.empty calls) ∧
      Acyclic (runCalls FoodManager.empty calls) := by
  have hac : Acyclic (runCalls FoodManager.empty calls) := by
    apply acyclic_of_ranked
    apply ranked_runCalls calls _ closed_empty _ hg
    refine ⟨fun _ => 0, ?_⟩
    rintro a b ⟨c, hc, -⟩
    simp [FoodManager.empty, FoodManager.getFoodById, mapFind] at hc
  exact ⟨fun a h => hac a (Relation.TransGen.single h), hac⟩

theorem acyclic_of_guardedCalls_witness :
    GuardedCalls FoodManager.empty sandwichCalls ∧
      NoSelfReference (runCalls FoodManager.empty sandwichCalls) ∧
      Acyclic (runCalls FoodManager.empty sandwichCalls) :=
  ⟨by decide, acyclic_of_guardedCalls sandwichCalls (by decide)⟩

/-- C10 fails as stated. `createCompositeFood` accepts a component map that
lists the id being created: the composite `stew` made of `stew` is stored, so
a reachable registry has a self-reference, which is a cycle of length one. -/
theorem acyclic_unguarded_counterexample :
    ¬ ∀ calls : List FoodCall,
      NoSelfReference (runCalls FoodManager.empty calls) ∧
        Acyclic (runCalls FoodManager.empty calls) := by
  intro h
  refine (h selfReferenceCalls).1 "stew" ⟨_, getFoodById_createCompositeFood_self _ _ _ _, ?_⟩
  simp [CompositeFood.updateCalories, FoodManager.addComponents, CompositeFood.new,
    CompositeFood.addComponent, mapAssign, mapKeys]

/-! ## Adding to the log and undoing (C3, C5) -/

theorem logsAt_mapAssign_self (logs : StdMap DailyLog) (date : String) (log : DailyLog) :
    logsAt (mapAssign logs date log) date = log := by
  simp [logsAt, mapFind_mapAssign_self]

theorem getCurrentDayLog_eq_logsAt (lm : LogManager) :
    lm.getCurrentDayLog = logsAt lm.logs lm.currentDate := by
  unfold LogManager.getCurrentDayLog logsAt
  cases mapFind lm.logs lm.currentDate <;> rfl

/-- The day's log after `addFoodToLog` is `addEntry` of the day's log. -/
theorem getCurrentDayLog_addFoodToLog (lm : LogManager) (foodId : String) (servings : CInt) :
    (lm.addFoodToLog foodId servings).getCurrentDayLog
      = lm.getCurrentDayLog.addEntry { foodId := foodId, servings := servings } := by
  rw [getCurrentDayLog_eq_logsAt, getCurrentDayLog_eq_logsAt]
  simp [LogManager.addFoodToLog, Command.execute, logsAt_mapAssign_self]

/-- Undoing an add on the entries the add produced gives back the entries,
provided the entries with that food id had positive servings. -/
theorem undoAddLoop_addEntryLoop (foodId : String) (servings : CInt) (entries : List LogEntry)
    (hpos : ∀ e ∈ entries, e.foodId = foodId → 0 < e.servings) :
    undoAddLoop foodId servings
      (DailyLog.addEntryLoop { foodId := foodId, servings := servings } entries) = entries := by
  induction entries with
  | nil =>
    simp [DailyLog.addEntryLoop, undoAddLoop, LogEntry.addServings, CInt.add_neg_self,
      CInt.zero_le_zero]
  | cons e rest ih =>
    by_cases he : e.foodId = foodId
    · have hp : 0 < e.servings := hpos e (List.mem_cons_self _ _) he
      have hnot : ¬ (e.servings + servings + -servings ≤ 0) := by
        rw [CInt.add_neg_cancel_right]
        exact CInt.not_le_of_lt hp
      obtain ⟨ef, es⟩ := e
      simp only at he
      subst he
      simp only [DailyLog.addEntryLoop, if_true, undoAddLoop, LogEntry.addServings, hnot,
        if_false]
      congr 1
      simp only [LogEntry.mk.injEq, true_and]
      exact CInt.add_neg_cancel_right _ _
    · simp only [DailyLog.addEntryLoop, he, if_false, undoAddLoop]
      rw [ih (fun x hx => hpos x (List.mem_cons_of_mem _ hx))]

theorem getTotalCaloriesForDay_eq (lm : LogManager) (fm : FoodManager) :
    lm.getTotalCaloriesForDay fm = lm.getCurrentDayLog.getTotalCalories fm := by
  unfold LogManager.getTotalCaloriesForDay LogManager.getCurrentDayLog
  cases mapFind lm.logs lm.currentDate <;>
    simp [DailyLog.getTotalCalories, DailyLog.empty, DailyLog.totalLoop]

/-- C3. For every day log with pairwise distinct food ids and positive
servings, every food id and every positive servings count, `addFoodToLog`
followed by `undo` leaves the day's entries exactly as they were (hence also
the day's total calories, for every registry). -/
theorem addFoodToLog_undo (lm : LogManager) (foodId : String) (servings : CInt)
    (_hdistinct : (lm.getCurrentDayLog.entries.map LogEntry.foodId).Nodup)
    (hpos : ∀ e ∈ lm.getCurrentDayLog.entries, 0 < e.servings)
    (_hservings : 0 < servings) :
    (lm.addFoodToLog foodId servings).undo.getCurrentDayLog.entries
        = lm.getCurrentDayLog.entries ∧
      ∀ fm : FoodManager,
        (lm.addFoodToLog foodId servings).undo.getTotalCaloriesForDay fm
          = lm.getTotalCaloriesForDay fm := by
  have hlog : (lm.addFoodToLog foodId servings).undo.getCurrentDayLog = lm.getCurrentDayLog := by
    rw [getCurrentDayLog_eq_logsAt, getCurrentDayLog_eq_logsAt]
    simp only [LogManager.addFoodToLog, LogManager.undo, Command.execute, Command.undo,
      logsAt_mapAssign_self, DailyLog.addEntry]
    rw [undoAddLoop_addEntryLoop]
    intro e he _
    exact hpos e (by rw [getCurrentDayLog_eq_logsAt]; exact he)
  refine ⟨by rw [hlog], fun fm => ?_⟩
  rw [getTotalCaloriesForDay_eq, getTotalCaloriesForDay_eq, hlog]

theorem addFoodToLog_undo_witness :
    (emptyDay.addFoodToLog "sandwich" 1).undo.getCurrentDayLog.entries = [] ∧
      ∀ fm : FoodManager, (emptyDay.addFoodToLog "sandwich" 1).undo.getTotalCaloriesForDay fm = 0 :=
  addFoodToLog_undo emptyDay "sandwich" 1 (by decide) (by decide) (by decide)

/-- C5, as the code has it. For every day log, food id `f` and servings `s`:
if no entry has food id `f`, `addFoodToLog` appends `(f, s)` at the end; if `e`
is the first entry with food id `f`, the result has the same entries in the
same order, with the servings of `e` replaced by the `int` sum of the two
servings and nothing else changed. The `int` sum is the servings of `e`
increased by `s` when that lies within the range of `int`; it is lower by
`2^32` when the increased servings exceed `INT_MAX` and higher by `2^32` when
they fall below `INT_MIN`. -/
theorem addFoodToLog_entries (lm : LogManager) (f : String) (s : CInt) :
    ((∀ e ∈ lm.getCurrentDayLog.entries, e.foodId ≠ f) →
        (lm.addFoodToLog f s).getCurrentDayLog.entries
          = lm.getCurrentDayLog.entries ++ [{ foodId := f, servings := s }]) ∧
      ∀ (before after : List LogEntry) (e : LogEntry),
        lm.getCurrentDayLog.entries = before ++ e :: after →
        (∀ x ∈ before, x.foodId ≠ f) → e.foodId = f →
        (lm.addFoodToLog f s).getCurrentDayLog.entries
            = before ++ { foodId := f, servings := e.servings + s } :: after ∧
          (-2147483648 ≤ e.servings.val + s.val → e.servings.val + s.val < 2147483648 →
            (e.servings + s).val = e.servings.val + s.val) ∧
          (2147483648 ≤ e.servings.val + s.val →
            (e.servings + s).val = e.servings.val + s.val - 4294967296) ∧
          (e.servings.val + s.val < -2147483648 →
            (e.servings + s).val = e.servings.val + s.val + 4294967296) := by
  rw [getCurrentDayLog_addFoodToLog]
  simp only [DailyLog.addEntry]
  generalize lm.getCurrentDayLog.entries = entries
  constructor
  · intro h
    induction entries with
    | nil => rfl
    | cons x rest ih =>
      have hx : x.foodId ≠ f := h x (List.mem_cons_self _ _)
      simp only [DailyLog.addEntryLoop, hx, if_false, List.cons_append]
      rw [ih (fun y hy => h y (List.mem_cons_of_mem _ hy))]
  · intro before after e hsplit hbefore he
    have he1 := e.servings.inRange
    have hs1 := s.inRange
    refine ⟨?_, fun h1 h2 => CInt.val_add_of_fits _ _ ⟨h1, h2⟩,
      fun h1 => by rw [CInt.val_add]; omega, fun h1 => by rw [CInt.val_add]; omega⟩
    subst hsplit
    induction before with
    | nil => simp [DailyLog.addEntryLoop, he, LogEntry.addServings]
    | cons x rest ih =>
      have hx : x.foodId ≠ f := hbefore x (List.mem_cons_self _ _)
      simp only [List.cons_append, DailyLog.addEntryLoop, hx, if_false]
      exact congrArg (x :: ·) (ih (fun y hy => hbefore y (List.mem_cons_of_mem _ hy)))

theorem addFoodToLog_entries_witness :
    ((emptyDay.addFoodToLog "apple" 2).addFoodToLog "apple" 3).getCurrentDayLog.entries
        = [{ foodId := "apple", servings := 5 }] ∧
      (fullDay.addFoodToLog "bread" 1).getCurrentDayLog.entries
        = [{ foodId := "bread", servings := CInt.wrap (-2147483648) }] :=
  ⟨((addFoodToLog_entries (emptyDay.addFoodToLog "apple" 2) "apple" 3).2 []  []
      { foodId := "apple", servings := 2 } (by decide) (by decide) (by decide)).1,
    ((addFoodToLog_entries fullDay "bread" 1).2 []  []
      { foodId := "bread", servings := 2147483647 } (by decide) (by decide) (by decide)).1⟩

/-- C5 fails as stated: a day that holds `INT_MAX` servings of `bread` holds,
after one more serving of `bread` is added, `INT_MIN` servings of it, not the
`INT_MAX + 1` that increasing the servings by one would give. -/
theorem addFoodToLog_entries_counterexample :
    ¬ ∀ (lm : LogManager) (f : String) (s : CInt) (before after : List LogEntry)
        (e : LogEntry),
        lm.getCurrentDayLog.entries = before ++ e :: after →
        (∀ x ∈ before, x.foodId ≠ f) → e.foodId = f →
        ∃ e2 : LogEntry,
          (lm.addFoodToLog f s).getCurrentDayLog.entries = before ++ e2 :: after ∧
            e2.foodId = f ∧ e2.servings.val = e.servings.val + s.val := by
  intro h
  obtain ⟨e2, h1, -, h3⟩ := h fullDay "bread" 1 [] []
    { foodId := "bread", servings := 2147483647 } (by decide) (by decide) (by decide)
  have h4 : (fullDay.addFoodToLog "bread" 1).getCurrentDayLog.entries
      = [{ foodId := "bread", servings := CInt.wrap (-2147483648) }] := by decide
  rw [h4] at h1
  simp only [List.nil_append, List.cons.injEq, and_true] at h1
  rw [← h1] at h3
  revert h3
  decide

/-! ## Removing from the log and undoing (C4) -/

theorem addEntryLoop_append (entry : LogEntry) (entries : List LogEntry)
    (h : ∀ x ∈ entries, x.foodId ≠ entry.foodId) :
    DailyLog.addEntryLoop entry entries = entries ++ [entry] := by
  induction entries with
  | nil => rfl
  | cons x rest ih =>
    have hx : x.foodId ≠ entry.foodId := h x (List.mem_cons_self _ _)
    simp only [DailyLog.addEntryLoop, hx, if_false, List.cons_append]
    rw [ih (fun y hy => h y (List.mem_cons_of_mem _ hy))]

/-- With distinct food ids, what remains after erasing position `i` has no
entry with the food id of the erased entry. -/
theorem foodId_ne_of_mem_eraseIdx (entries : List LogEntry) (i : Nat)
    (h : i < entries.length) (hd : (entries.map LogEntry.foodId).Nodup) :
    ∀ x ∈ entries.eraseIdx i, x.foodId ≠ entries[i].foodId := by
  induction entries generalizing i with
  | nil => simp at h
  | cons e rest ih =>
    rw [List.map_cons, List.nodup_cons] at hd
    cases i with
    | zero =>
      intro x hx hEq
      simp only [List.eraseIdx_cons_zero] at hx
      simp only [List.getElem_cons_zero] at hEq
      exact hd.1 (hEq ▸ List.mem_map_of_mem _ hx)
    | succ j =>
      intro x hx hEq
      simp only [List.eraseIdx_cons_succ, List.mem_cons] at hx
      simp only [List.getElem_cons_succ] at hEq
      have hj : j < rest.length := by simpa using h
      rcases hx with hx | hx
      · subst hx
        exact hd.1 (hEq ▸ List.mem_map_of_mem _ (List.getElem_mem hj))
      · exact ih j hj hd.2 x hx hEq

theorem sum_map_eraseIdx (g : LogEntry → ℚ) (entries : List LogEntry) (i : Nat)
    (h : i < entries.length) :
    ((entries.eraseIdx i).map g).sum + g entries[i] = (entries.map g).sum := by
  induction entries generalizing i with
  | nil => simp at h
  | cons e rest ih =>
    cases i with
    | zero => simp [add_comm]
    | succ j =>
      have hj : j < rest.length := by simpa using h
      simp only [List.eraseIdx_cons_succ, List.map_cons, List.sum_cons, List.getElem_cons_succ]
      rw [add_assoc, ih j hj]

theorem totalLoop_eq (fm : FoodManager) (entries : List LogEntry) (total : ℚ) :
    DailyLog.totalLoop fm entries total
      = total + (entries.map (fun e => e.getTotalCalories fm)).sum := by
  induction entries generalizing total with
  | nil => simp [DailyLog.totalLoop]
  | cons e rest ih =>
    simp only [DailyLog.totalLoop, ih, List.map_cons, List.sum_cons]
    ring

/-- The day's entries after `removeFoodFromLog i` and `undo`, when position `i`
exists and holds an entry with a non-empty food id. -/
theorem entries_after_remove_undo (lm : LogManager) (i : Nat)
    (h : i < lm.getCurrentDayLog.entries.length)
    (hne : lm.getCurrentDayLog.entries[i].foodId ≠ "") :
    (lm.removeFoodFromLog i).undo.getCurrentDayLog.entries
      = DailyLog.addEntryLoop lm.getCurrentDayLog.entries[i]
          (lm.getCurrentDayLog.entries.eraseIdx i) := by
  have hlog := getCurrentDayLog_eq_logsAt lm
  have hsome : (mapFind lm.logs lm.currentDate).isSome = true := by
    cases hfind : mapFind lm.logs lm.currentDate with
    | some log => rfl
    | none =>
      simp [LogManager.getCurrentDayLog, hfind, DailyLog.empty] at h
  have h2 : i < (logsAt lm.logs lm.currentDate).entries.length := by rw [← hlog]; exact h
  have hget : (logsAt lm.logs lm.currentDate).entries.getD i LogEntry.default
      = lm.getCurrentDayLog.entries[i] := by
    rw [List.getD_eq_getElem _ _ h2]
    simp only [hlog]
  have hcmd : Command.newRemove lm.logs lm.currentDate i
      = Command.RemoveFoodLogCommand lm.currentDate i lm.getCurrentDayLog.entries[i] := by
    simp only [Command.newRemove, hsome, h2, and_self, if_true, hget]
  rw [getCurrentDayLog_eq_logsAt]
  simp only [LogManager.removeFoodFromLog, LogManager.undo, hcmd, Command.execute, hsome,
    if_true, Command.undo, ne_eq, hne, not_false_eq_true, logsAt_mapAssign_self,
    DailyLog.addEntry, DailyLog.removeEntry, h2, hlog]
  have hne2 : ¬ (logsAt lm.logs lm.currentDate).entries[i].foodId = "" := by
    simpa only [hlog] using hne
  rw [if_pos hne2, logsAt_mapAssign_self]

/-- C4, as the code has it. For every day log with distinct food ids and
positive servings, every registry and every in-range index `i` whose entry has
a non-empty food id, `removeFoodFromLog i` followed by `undo` yields a log
that again contains the removed entry, and the day's total calories are what
they were before the removal. -/
theorem removeFoodFromLog_undo (lm : LogManager) (fm : FoodManager) (i : Nat)
    (h : i < lm.getCurrentDayLog.entries.length)
    (hdistinct : (lm.getCurrentDayLog.entries.map LogEntry.foodId).Nodup)
    (_hpos : ∀ e ∈ lm.getCurrentDayLog.entries, 0 < e.servings)
    (hne : lm.getCurrentDayLog.entries[i].foodId ≠ "") :
    lm.getCurrentDayLog.entries[i] ∈ (lm.removeFoodFromLog i).undo.getCurrentDayLog.entries ∧
      (lm.removeFoodFromLog i).undo.getTotalCaloriesForDay fm
        = lm.getTotalCaloriesForDay fm := by
  have hentries := entries_after_remove_undo lm i h hne
  rw [addEntryLoop_append _ _ (foodId_ne_of_mem_eraseIdx _ i h hdistinct)] at hentries
  constructor
  · rw [hentries]; simp
  · rw [getTotalCaloriesForDay_eq, getTotalCaloriesForDay_eq, DailyLog.getTotalCalories,
      DailyLog.getTotalCalories, totalLoop_eq, totalLoop_eq, hentries, List.map_append,
      List.sum_append]
    simp only [List.map_cons, List.map_nil, List.sum_cons, List.sum_nil, add_zero, zero_add]
    exact sum_map_eraseIdx (fun e => e.getTotalCalories fm) _ i h

theorem removeFoodFromLog_undo_witness :
    (⟨"bread", 2⟩ : LogEntry) ∈ (lunchDay.removeFoodFromLog 0).undo.getCurrentDayLog.entries ∧
      (lunchDay.removeFoodFromLog 0).undo.getTotalCaloriesForDay breadAndCheese
        = lunchDay.getTotalCaloriesForDay breadAndCheese :=
  removeFoodFromLog_undo lunchDay breadAndCheese 0 (by decide) (by decide) (by decide)
    (by decide)

/-- C4 fails as stated. `RemoveFoodLogCommand::undo` restores nothing when the
captured food id is empty: after removing the only entry `("", 1)` of a day and
undoing, the day's log is empty and does not contain the entry. -/
theorem removeFoodFromLog_undo_counterexample :
    ¬ ∀ (lm : LogManager) (fm : FoodManager) (i : Nat)
        (h : i < lm.getCurrentDayLog.entries.length),
        (lm.getCurrentDayLog.entries.map LogEntry.foodId).Nodup →
        (∀ e ∈ lm.getCurrentDayLog.entries, 0 < e.servings) →
        (lm.getCurrentDayLog.entries[i] ∈
            (lm.removeFoodFromLog i).undo.getCurrentDayLog.entries ∧
          (lm.removeFoodFromLog i).undo.getTotalCaloriesForDay fm
            = lm.getTotalCaloriesForDay fm) := by
  intro hall
  have h := (hall blankIdDay FoodManager.empty 0 (by decide) (by decide) (by decide)).1
  revert h
  decide

/-! ## Keyword search (C6, C7) -/

theorem allMatch_iff (foodKeywords keywords : List String) :
    FoodManager.allMatch foodKeywords keywords = true ↔ ∀ k ∈ keywords, k ∈ foodKeywords := by
  induction keywords with
  | nil => simp [FoodManager.allMatch]
  | cons k rest ih =>
    by_cases hk : k ∈ foodKeywords
    · simp [FoodManager.allMatch, hk, ih]
    · simp [FoodManager.allMatch, hk]

theorem anyMatch_iff (foodKeywords keywords : List String) :
    FoodManager.anyMatch foodKeywords keywords = true ↔ ∃ k ∈ keywords, k ∈ foodKeywords := by
  induction keywords with
  | nil => simp [FoodManager.anyMatch]
  | cons k rest ih =>
    by_cases hk : k ∈ foodKeywords
    · simp [FoodManager.anyMatch, hk]
    · simp [FoodManager.anyMatch, hk, ih]

/-- Whatever the keyword list, `searchFoods` keeps, in registry order, the
foods with all (`matchAll`) or at least one (otherwise) of the keywords. -/
theorem searchFoods_eq_filter (fm : FoodManager) (keywords : List String) :
    fm.searchFoods keywords true
        = fm.getAllFoods.filter (fun food => decide (∀ k ∈ keywords, k ∈ food.getKeywords)) ∧
      fm.searchFoods keywords false
        = fm.getAllFoods.filter (fun food => decide (∃ k ∈ keywords, k ∈ food.getKeywords)) := by
  unfold FoodManager.searchFoods FoodManager.getAllFoods mapValues
  generalize fm.foodDatabase = db
  constructor
  · induction db with
    | nil => rfl
    | cons p rest ih =>
      obtain ⟨id, food⟩ := p
      by_cases hm : ∀ k ∈ keywords, k ∈ food.getKeywords
      · have hd : decide (∀ k ∈ keywords, k ∈ food.getKeywords) = true := decide_eq_true hm
        simp only [FoodManager.searchLoop, if_true, (allMatch_iff _ _).2 hm, List.map_cons,
          List.filter_cons, hd, ih]
      · have hfalse : FoodManager.allMatch food.getKeywords keywords = false := by
          rw [← Bool.not_eq_true, allMatch_iff]; exact hm
        have hd : decide (∀ k ∈ keywords, k ∈ food.getKeywords) = false := decide_eq_false hm
        simp only [FoodManager.searchLoop, if_true, hfalse, List.map_cons, List.filter_cons, hd,
          ih, Bool.false_eq_true, if_false]
  · induction db with
    | nil => rfl
    | cons p rest ih =>
      obtain ⟨id, food⟩ := p
      by_cases hm : ∃ k ∈ keywords, k ∈ food.getKeywords
      · have hd : decide (∃ k ∈ keywords, k ∈ food.getKeywords) = true := decide_eq_true hm
        simp only [FoodManager.searchLoop, if_true, (anyMatch_iff _ _).2 hm, List.map_cons,
          List.filter_cons, hd, ih, Bool.false_eq_true, if_false]
      · have hfalse : FoodManager.anyMatch food.getKeywords keywords = false := by
          rw [← Bool.not_eq_true, anyMatch_iff]; exact hm
        have hd : decide (∃ k ∈ keywords, k ∈ food.getKeywords) = false := decide_eq_false hm
        simp only [FoodManager.searchLoop, hfalse, List.map_cons, List.filter_cons, hd, ih,
          Bool.false_eq_true, if_false]

/-- C6. For every registry and every non-empty keyword list, `searchFoods` with
`matchAll` returns exactly the foods whose keyword list contains every keyword
of the list, and without `matchAll` exactly the foods whose keyword list
contains at least one of them (strings compared for equality), in the order of
the registry. -/
theorem searchFoods_nonempty (fm : FoodManager) (keywords : List String)
    (_hne : keywords ≠ []) :
    fm.searchFoods keywords true
        = fm.getAllFoods.filter (fun food => decide (∀ k ∈ keywords, k ∈ food.getKeywords)) ∧
      fm.searchFoods keywords false
        = fm.getAllFoods.filter (fun food => decide (∃ k ∈ keywords, k ∈ food.getKeywords)) :=
  searchFoods_eq_filter fm keywords

theorem searchFoods_nonempty_witness :
    (taggedFoods.searchFoods ["lunch", "healthy"] true).map Food.getId = ["salad"] ∧
      (taggedFoods.searchFoods ["lunch", "healthy"] false).map Food.getId
        = ["apple", "burger", "salad"] := by
  have h := searchFoods_nonempty taggedFoods ["lunch", "healthy"] (by decide)
  rw [h.1, h.2]
  decide

/-- C7, as the code has it. With an empty keyword list `searchFoods` returns
no food when `matchAll` is false and every food of the registry when
`matchAll` is true. -/
theorem searchFoods_nil (fm : FoodManager) :
    fm.searchFoods [] false = [] ∧ fm.searchFoods [] true = fm.getAllFoods := by
  have h := searchFoods_eq_filter fm []
  rw [h.1, h.2]
  simp

/-- C7 fails as stated. On the registry holding `bread` and `cheese`, the
empty keyword list finds nothing under "any" and both foods under "all". -/
theorem searchFoods_nil_counterexample :
    ¬ ∀ fm : FoodManager,
      fm.searchFoods [] false = fm.getAllFoods ∧ fm.searchFoods [] true = [] := by
  intro h
  have h1 := (h breadAndCheese).2
  revert h1
  decide

/-! ## Duplicate ids and unknown components (C8, C9) -/

/-- A round of the component loop only adds ids that resolve. -/
theorem componentRound_resolve (fm : FoodManager) (compId : String)
    (servingsInput : Option Int) (components : StdMap Int)
    (h : ∀ j ∈ mapKeys components, (fm.getFoodById j).isSome = true) :
    ∀ j ∈ mapKeys (CLI.componentRound fm compId servingsInput components).1,
      (fm.getFoodById j).isSome = true := by
  unfold CLI.componentRound
  split_ifs with h1
  · exact h
  · cases hfind : fm.getFoodById compId with
    | none => exact h
    | some food =>
      cases servingsInput with
      | none => exact h
      | some servings =>
        simp only
        split_ifs with h3
        · exact h
        · intro j hj
          rcases (mem_mapKeys_mapAssign _ _ _ _).1 hj with hj | hj
          · rw [hj, hfind]; rfl
          · exact h j hj

/-- Every id in the map built by the component loop of the CLI resolves, if
every id of the map it starts from does. -/
theorem componentsLoop_resolve (fm : FoodManager) (inputs : List (String × Option Int))
    (components : StdMap Int)
    (h : ∀ j ∈ mapKeys components, (fm.getFoodById j).isSome = true) :
    ∀ j ∈ mapKeys (CLI.componentsLoop fm inputs components).1,
      (fm.getFoodById j).isSome = true := by
  induction inputs generalizing components with
  | nil => simpa [CLI.componentsLoop] using h
  | cons p rest ih =>
    obtain ⟨compId, servingsInput⟩ := p
    simp only [CLI.componentsLoop]
    split_ifs with h1
    · exact h
    · exact ih _ (componentRound_resolve fm compId servingsInput components h)

/-- What `CLI::addBasicFood` lets through is a guarded `addBasicFood` call. -/
theorem cli_addBasicFood_guarded (fm : FoodManager) (id description keywordsInput : String)
    (calories proteins carbs fats : Option ℚ) :
    (CLI.addBasicFood fm id description keywordsInput calories proteins carbs fats).1 = fm ∨
      ∃ call : FoodCall, call.Guarded fm ∧
        (CLI.addBasicFood fm id description keywordsInput calories proteins carbs fats).1
          = call.apply fm := by
  unfold CLI.addBasicFood
  split_ifs with h1 h2 h3 h4 h5
  · exact Or.inl rfl
  · exact Or.inl rfl
  · exact Or.inl rfl
  · exact Or.inl rfl
  · exact Or.inl rfl
  · cases CLI.readNonNegative calories with
    | none => exact Or.inl rfl
    | some c =>
      cases CLI.readNonNegative proteins with
      | none => exact Or.inl rfl
      | some p =>
        cases CLI.readNonNegative carbs with
        | none => exact Or.inl rfl
        | some cb =>
          cases CLI.readNonNegative fats with
          | none => exact Or.inl rfl
          | some f =>
            exact Or.inr ⟨FoodCall.addBasicFood id (CLI.parseKeywords keywordsInput) c
              description p cb f, by simpa [FoodCall.Guarded] using h2, rfl⟩

/-- What `CLI::createCompositeFood` lets through is a guarded
`createCompositeFood` call. -/
theorem cli_createCompositeFood_guarded (fm : FoodManager) (id keywordsInput : String)
    (componentInputs : List (String × Option Int)) :
    (CLI.createCompositeFood fm id keywordsInput componentInputs).1 = fm ∨
      ∃ call : FoodCall, call.Guarded fm ∧
        (CLI.createCompositeFood fm id keywordsInput componentInputs).1 = call.apply fm := by
  unfold CLI.createCompositeFood
  split_ifs with h1 h2 h3 h4 h5
  · exact Or.inl rfl
  · exact Or.inl rfl
  · exact Or.inl rfl
  · exact Or.inl rfl
  · exact Or.inl rfl
  · refine Or.inr ⟨FoodCall.createCompositeFood id (CLI.parseKeywords keywordsInput)
      (CLI.componentsLoop fm componentInputs []).1, ⟨by simpa using h2, ?_⟩, rfl⟩
    exact componentsLoop_resolve fm componentInputs [] (by simp [mapKeys])

/-- C8, as the code has it. When the registry already holds a food with id
`x`, `CLI::addBasicFood` and `CLI::createCompositeFood` report an error and
leave the registry as it is, whatever else is entered; `FoodManager`'s own
`addBasicFood` and `createCompositeFood` check nothing, and leave every food
other than the one stored under `x` unchanged. -/
theorem duplicate_id_rejected (fm : FoodManager) (x : String)
    (h : (fm.getFoodById x).isSome = true) :
    (∀ (description keywordsInput : String) (calories proteins carbs fats : Option ℚ),
        CLI.addBasicFood fm x description keywordsInput calories proteins carbs fats
          = (fm, [Report.printError
              (if x = "" then "Food ID cannot be empty."
                else "Food with this ID already exists.")])) ∧
      (∀ (keywordsInput : String) (componentInputs : List (String × Option Int)),
        CLI.createCompositeFood fm x keywordsInput componentInputs
          = (fm, [Report.printError
              (if x = "" then "Food ID cannot be empty."
                else "Food with this ID already exists.")])) ∧
      (∀ (keywords : List String) (calories : ℚ) (description : String)
          (proteins carbs fats : ℚ) (k : String), k ≠ x →
        (fm.addBasicFood x keywords calories description proteins carbs fats).getFoodById k
          = fm.getFoodById k) ∧
      (∀ (keywords : List String) (components : StdMap Int) (k : String), k ≠ x →
        (fm.createCompositeFood x keywords components).getFoodById k = fm.getFoodById k) := by
  refine ⟨?_, ?_, ?_, ?_⟩
  · intro description keywordsInput calories proteins carbs fats
    unfold CLI.addBasicFood
    by_cases hx : x = ""
    · simp [hx]
    · simp [hx, h]
  · intro keywordsInput componentInputs
    unfold CLI.createCompositeFood
    by_cases hx : x = ""
    · simp [hx]
    · simp [hx, h]
  · intro keywords calories description proteins carbs fats k hk
    exact getFoodById_addBasicFood_of_ne _ _ _ _ _ _ _ _ _ (Ne.symm hk)
  · intro keywords components k hk
    exact getFoodById_createCompositeFood_of_ne _ _ _ _ _ (Ne.symm hk)

theorem duplicate_id_rejected_witness :
    CLI.addBasicFood breadAndCheese "bread" "Rye bread" "lunch" (some 95) (some 3) (some 15)
        (some 1)
      = (breadAndCheese, [Report.printError "Food with this ID already exists."]) :=
  (duplicate_id_rejected breadAndCheese "bread" (by decide)).1 "Rye bread" "lunch" (some 95)
    (some 3) (some 15) (some 1)

/-- C8 fails as stated. `FoodManager::addBasicFood` on the id `bread`, already
present with 80 calories, does not fail: the food stored under `bread` is
replaced by the new one. -/
theorem duplicate_id_counterexample :
    ¬ ∀ (fm : FoodManager) (x : String) (keywords : List String) (calories : ℚ)
        (description : String) (proteins carbs fats : ℚ),
        (fm.getFoodById x).isSome = true →
        (fm.addBasicFood x keywords calories description proteins carbs fats).getFoodById x
          = fm.getFoodById x := by
  intro h
  have h1 := h breadAndCheese "bread" ["lunch"] 95 "Rye bread" 3 15 1 (by decide)
  revert h1
  decide

/-- The loop of `updateCalories` adds, to what it starts from, the stored
calories times the servings of the components that resolve, and nothing for
the others. -/
theorem updateCaloriesLoop_resolved (fm : FoodManager) (components : StdMap Int) (acc : ℚ) :
    CompositeFood.updateCaloriesLoop fm.foodDatabase components acc
      = acc + (components.filterMap (fun p => (fm.getFoodById p.1).map
          (fun food => food.getCaloriesPerServing * (p.2 : ℚ)))).sum := by
  induction components generalizing acc with
  | nil => simp [CompositeFood.updateCaloriesLoop]
  | cons p rest ih =>
    obtain ⟨foodId, servings⟩ := p
    simp only [CompositeFood.updateCaloriesLoop]
    cases hfind : mapFind fm.foodDatabase foodId with
    | none =>
      simp only [ih, List.filterMap_cons, FoodManager.getFoodById, hfind, Option.map_none']
    | some food =>
      simp only [ih, List.filterMap_cons, FoodManager.getFoodById, hfind, Option.map_some',
        List.sum_cons]
      ring

theorem createCompositeFood_resolved (fm : FoodManager) (id : String)
    (keywords : List String) (components : StdMap Int) (h : IsMap components) :
    (fm.createCompositeFood id keywords components).getFoodById id
      = some (Food.composite
          { id := id, keywords := keywords,
            caloriesPerServing := (components.filterMap (fun p => (fm.getFoodById p.1).map
              (fun food => food.getCaloriesPerServing * (p.2 : ℚ)))).sum,
            components := components }) := by
  have hc := addComponents_components (CompositeFood.new id keywords) components
    (by simpa [CompositeFood.new] using h)
  simp only [FoodManager.createCompositeFood, FoodManager.getFoodById, mapFind_mapAssign_self,
    CompositeFood.updateCalories, updateCaloriesLoop_resolved, hc, addComponents_id,
    addComponents_keywords]
  simp [CompositeFood.new, FoodManager.getFoodById]

theorem isMap_filter (components : StdMap Int) (q : String × Int → Bool)
    (h : IsMap components) : IsMap (components.filter q) := by
  unfold IsMap mapKeys at h ⊢
  exact h.sublist ((List.filter_sublist _).map _)

/-- Leaving out a component whose id does not resolve changes nothing in the
calories of the components that resolve. -/
theorem resolved_filter_absent (fm : FoodManager) (components : StdMap Int) (k : String)
    (habsent : fm.getFoodById k = none) :
    (components.filterMap (fun p => (fm.getFoodById p.1).map
        (fun food => food.getCaloriesPerServing * (p.2 : ℚ)))).sum
      = ((components.filter (fun p => decide (p.1 ≠ k))).filterMap
          (fun p => (fm.getFoodById p.1).map
            (fun food => food.getCaloriesPerServing * (p.2 : ℚ)))).sum := by
  induction components with
  | nil => rfl
  | cons p rest ih =>
    by_cases hp : p.1 = k
    · have hnone : fm.getFoodById p.1 = none := by rw [hp]; exact habsent
      have hq : (p :: rest).filter (fun p => decide (p.1 ≠ k))
          = rest.filter (fun p => decide (p.1 ≠ k)) := by
        simp [List.filter_cons, hp]
      rw [hq, List.filterMap_cons]
      simp only [hnone, Option.map_none']
      exact ih
    · have hq : (p :: rest).filter (fun p => decide (p.1 ≠ k))
          = p :: rest.filter (fun p => decide (p.1 ≠ k)) := by
        simp [List.filter_cons, hp]
      rw [hq, List.filterMap_cons, List.filterMap_cons]
      cases fm.getFoodById p.1 with
      | none =>
        simp only [Option.map_none']
        exact ih
      | some food => simp only [Option.map_some', List.sum_cons, ih]

/-- C9, as the code has it. When a component map lists an id that the registry
does not hold, `FoodManager::createCompositeFood` still adds the composite,
the absent id contributing zero to its calories: the composite stored has the
given keywords and components, its calories are the sum, over the components
that resolve only, of the stored calories times the servings, and they are the
calories the same call stores when the absent id is left out of the map.
Absent ids are turned away before that, in the component loop of
`CLI::createCompositeFood`: for such an id, other than the empty line, which
ends the loop, and `list`, which shows the foods, the loop reports that the
food was not found, adds nothing and goes on, so every id of the map it builds
resolves. -/
theorem unknown_component (fm : FoodManager) (id : String) (keywords : List String)
    (components : StdMap Int) (k : String) (hmap : IsMap components)
    (_hk : k ∈ mapKeys components) (habsent : (fm.getFoodById k).isSome = false) :
    (fm.createCompositeFood id keywords components).getFoodById id
        = some (Food.composite
            { id := id, keywords := keywords,
              caloriesPerServing := (components.filterMap (fun p => (fm.getFoodById p.1).map
                (fun food => food.getCaloriesPerServing * (p.2 : ℚ)))).sum,
              components := components }) ∧
      ((fm.createCompositeFood id keywords components).getFoodById id).map
          Food.getCaloriesPerServing
        = ((fm.createCompositeFood id keywords
            (components.filter (fun p => decide (p.1 ≠ k)))).getFoodById id).map
              Food.getCaloriesPerServing ∧
      (∀ (servingsInput : Option Int) (rest : List (String × Option Int))
          (built : StdMap Int), k ≠ "" → k ≠ "list" →
        CLI.componentsLoop fm ((k, servingsInput) :: rest) built
          = ((CLI.componentsLoop fm rest built).1,
              Report.printError "Food not found. Please try again."
                :: (CLI.componentsLoop fm rest built).2)) ∧
      (∀ (inputs : List (String × Option Int)),
        ∀ j ∈ mapKeys (CLI.componentsLoop fm inputs []).1,
          (fm.getFoodById j).isSome = true) := by
  have hnone : fm.getFoodById k = none := by
    cases hfind : fm.getFoodById k with
    | none => rfl
    | some food => rw [hfind] at habsent; cases habsent
  refine ⟨createCompositeFood_resolved fm id keywords components hmap, ?_, ?_, ?_⟩
  · rw [createCompositeFood_resolved fm id keywords components hmap,
      createCompositeFood_resolved fm id keywords _ (isMap_filter components _ hmap)]
    exact congrArg some (resolved_filter_absent fm components k hnone)
  · intro servingsInput rest built h1 h2
    simp [CLI.componentsLoop, CLI.componentRound, h1, h2, hnone]
  · intro inputs
    exact componentsLoop_resolve fm inputs [] (by simp [mapKeys])

theorem unknown_component_witness :
    (breadAndCheese.createCompositeFood "sandwich" ["lunch"]
        [("bread", 2), ("ham", 1)]).getFoodById "sandwich"
      = some (Food.composite
          { id := "sandwich", keywords := ["lunch"], caloriesPerServing := 160,
            components := [("bread", 2), ("ham", 1)] }) := by
  rw [(unknown_component breadAndCheese "sandwich" ["lunch"] [("bread", 2), ("ham", 1)]
    "ham" (by decide) (by decide) (by decide)).1]
  simp [breadAndCheese, FoodManager.addBasicFood, FoodManager.empty, FoodManager.getFoodById,
    mapAssign, mapFind, Food.getCaloriesPerServing]
  norm_num

/-- C9 fails as stated. `FoodManager::createCompositeFood` with the single
component `ham`, absent from the empty registry, does not fail: afterwards the
id `sandwich` resolves. -/
theorem unknown_component_counterexample :
    ¬ ∀ (fm : FoodManager) (id : String) (keywords : List String) (components : StdMap Int),
        (∃ k ∈ mapKeys components, (fm.getFoodById k).isSome = false) →
        (fm.createCompositeFood id keywords components).getFoodById id = fm.getFoodById id := by
  intro h
  have h1 := h FoodManager.empty "sandwich" ["lunch"] [("ham", 1)] (by decide)
  rw [getFoodById_createCompositeFood_self] at h1
  revert h1
  decide

/-! ## The day's total (C11) -/

/-- C11. For every registry, set of logs and current date,
`getTotalCaloriesForDay` is the sum over the entries of the current day of the
calories stored for the entry's food times its servings, an entry whose food
id does not resolve contributing zero; it is 0 when the current date has no
log. -/
theorem getTotalCaloriesForDay_sum (lm : LogManager) (fm : FoodManager) :
    lm.getTotalCaloriesForDay fm = (lm.getCurrentDayLog.entries.map (entryCalories fm)).sum ∧
      (mapFind lm.logs lm.currentDate = none → lm.getTotalCaloriesForDay fm = 0) := by
  constructor
  · rw [getTotalCaloriesForDay_eq, DailyLog.getTotalCalories, totalLoop_eq, zero_add]
    rfl
  · intro h
    simp [LogManager.getTotalCaloriesForDay, h]

theorem getTotalCaloriesForDay_sum_witness :
    sandwichDay.getTotalCaloriesForDay sandwichFoods = 270 := by
  rw [(getTotalCaloriesForDay_sum sandwichDay sandwichFoods).1]
  simp [sandwichDay, sandwichFoods, breadAndCheese, LogManager.getCurrentDayLog, entryCalories,
    FoodManager.createCompositeFood, FoodManager.addBasicFood, FoodManager.empty,
    FoodManager.getFoodById, FoodManager.addComponents, CompositeFood.new,
    CompositeFood.addComponent, CompositeFood.updateCalories, CompositeFood.updateCaloriesLoop,
    mapAssign, mapFind, Food.getCaloriesPerServing, CInt.val_one]
  norm_num

/-! ## Calls the log manager does not refuse (C12, C13, C14) -/

theorem logsAt_mapAssign_of_ne (logs : StdMap DailyLog) (date d : String) (log : DailyLog)
    (h : date ≠ d) : logsAt (mapAssign logs date log) d = logsAt logs d := by
  simp [logsAt, mapFind_mapAssign_of_ne _ _ _ _ h]

/-- Removing at an index past the end changes the log of no date. -/
theorem logsAt_execute_remove_out_of_range (logs : StdMap DailyLog) (date : String)
    (index : Nat) (entry : LogEntry) (h : (logsAt logs date).entries.length ≤ index)
    (d : String) :
    logsAt ((Command.RemoveFoodLogCommand date index entry).execute logs) d = logsAt logs d := by
  simp only [Command.execute]
  split_ifs with hsome
  · by_cases hd : date = d
    · subst hd
      rw [logsAt_mapAssign_self, DailyLog.removeEntry, if_neg (by omega)]
    · exact logsAt_mapAssign_of_ne _ _ _ _ hd
  · rfl

/-- C12, as the code has it. For every index that is not within the bounds of
the current day's entries, `LogManager::removeFoodFromLog` leaves the entries of
every date unchanged, yet does not fail: it records a command, which captures
no entry, in the undo history, and sets the modified flag. The refusal is made
by `CLI::removeFoodFromLog`, which reports an error for such an index and
leaves the log manager as it is. -/
theorem removeFoodFromLog_out_of_range (lm : LogManager) (index : Nat)
    (h : lm.getCurrentDayLog.entries.length ≤ index) :
    (∀ d : String, logsAt (lm.removeFoodFromLog index).logs d = logsAt lm.logs d) ∧
      (lm.removeFoodFromLog index).getCurrentDayLog.entries = lm.getCurrentDayLog.entries ∧
      (lm.removeFoodFromLog index).undoStack
        = Command.RemoveFoodLogCommand lm.currentDate index LogEntry.default :: lm.undoStack ∧
      (lm.removeFoodFromLog index).modified = true ∧
      CLI.removeFoodFromLog lm (some (index : Int))
        = (lm, [Report.printError
            (if lm.getCurrentDayLog.entries = [] then "No entries to remove."
              else "Invalid entry number.")]) := by
  have h2 : (logsAt lm.logs lm.currentDate).entries.length ≤ index := by
    rw [← getCurrentDayLog_eq_logsAt]; exact h
  have hcmd : Command.newRemove lm.logs lm.currentDate index
      = Command.RemoveFoodLogCommand lm.currentDate index LogEntry.default := by
    unfold Command.newRemove
    rw [if_neg]
    rintro ⟨-, hlt⟩
    omega
  have hlogs : ∀ d : String, logsAt (lm.removeFoodFromLog index).logs d = logsAt lm.logs d := by
    intro d
    simp only [LogManager.removeFoodFromLog, hcmd]
    exact logsAt_execute_remove_out_of_range _ _ _ _ h2 d
  refine ⟨hlogs, ?_, ?_, rfl, ?_⟩
  · rw [getCurrentDayLog_eq_logsAt, getCurrentDayLog_eq_logsAt]
    have := hlogs lm.currentDate
    simpa [LogManager.removeFoodFromLog] using congrArg DailyLog.entries this
  · simp [LogManager.removeFoodFromLog, hcmd]
  · unfold CLI.removeFoodFromLog
    split_ifs with h3
    · rfl
    · simp only
      rw [if_pos]
      right
      exact_mod_cast h

theorem removeFoodFromLog_out_of_range_witness :
    (lunchDay.removeFoodFromLog 2).getCurrentDayLog.entries = lunchDay.getCurrentDayLog.entries ∧
      (lunchDay.removeFoodFromLog 2).undoStack
        = [Command.RemoveFoodLogCommand "2024-01-01" 2 LogEntry.default] ∧
      (lunchDay.removeFoodFromLog 2).modified = true ∧
      CLI.removeFoodFromLog lunchDay (some 2)
        = (lunchDay, [Report.printError "Invalid entry number."]) :=
  (removeFoodFromLog_out_of_range lunchDay 2 (by decide)).2

/-- C12 fails as stated. `LogManager::removeFoodFromLog` does not fail on an
index past the end: on a day without entries, index 0 is accepted and a
command is pushed onto the undo history. -/
theorem removeFoodFromLog_out_of_range_counterexample :
    ¬ ∀ (lm : LogManager) (index : Nat), lm.getCurrentDayLog.entries.length ≤ index →
        (lm.removeFoodFromLog index).getCurrentDayLog.entries = lm.getCurrentDayLog.entries ∧
          (lm.removeFoodFromLog index).undoStack = lm.undoStack := by
  intro h
  have h1 := (h emptyDay 0 (by decide)).2
  revert h1
  decide

/-- C13, as the code has it. When the servings are zero or negative or the food
id does not resolve, `CLI::addFoodToLog` reports an error and leaves the log
manager, entries and undo history included, as it is.
`LogManager::addFoodToLog` itself checks neither: it always records the add in
the undo history and changes the day's log by `addEntry`. -/
theorem addFoodToLog_rejected (fm : FoodManager) (lm : LogManager)
    (foodId secondFoodId : String) (servings : CInt)
    (h : servings ≤ 0 ∨
      fm.getFoodById (if foodId = "list" then secondFoodId else foodId) = none) :
    CLI.addFoodToLog fm lm foodId secondFoodId servings
        = (lm, (if foodId = "list" then CLI.viewAllFoods fm else []) ++
            [Report.printError
              (if fm.getFoodById (if foodId = "list" then secondFoodId else foodId) = none
                then "Food not found." else "Servings must be positive.")]) ∧
      (lm.addFoodToLog foodId servings).undoStack
        = Command.AddFoodLogCommand lm.currentDate foodId servings :: lm.undoStack ∧
      (lm.addFoodToLog foodId servings).getCurrentDayLog
        = lm.getCurrentDayLog.addEntry { foodId := foodId, servings := servings } := by
  refine ⟨?_, rfl, getCurrentDayLog_addFoodToLog lm foodId servings⟩
  unfold CLI.addFoodToLog
  cases hfind : fm.getFoodById (if foodId = "list" then secondFoodId else foodId) with
  | none => simp [hfind]
  | some food =>
    have hs : servings ≤ 0 := by
      rcases h with h | h
      · exact h
      · rw [hfind] at h; cases h
    simp [hfind, hs]

theorem addFoodToLog_rejected_witness :
    CLI.addFoodToLog breadAndCheese emptyDay "ham" "" 1
      = (emptyDay, [Report.printError "Food not found."]) :=
  (addFoodToLog_rejected breadAndCheese emptyDay "ham" "" 1 (Or.inr (by decide))).1

/-- C13 fails as stated. `LogManager::addFoodToLog` accepts a food id that
does not resolve: on an empty day and an empty registry, adding `ham` puts an
entry in the day's log and a command in the undo history. -/
theorem addFoodToLog_rejected_counterexample :
    ¬ ∀ (lm : LogManager) (fm : FoodManager) (foodId : String) (servings : CInt),
        (servings ≤ 0 ∨ fm.getFoodById foodId = none) →
        (lm.addFoodToLog foodId servings).getCurrentDayLog.entries
            = lm.getCurrentDayLog.entries ∧
          (lm.addFoodToLog foodId servings).undoStack = lm.undoStack := by
  intro h
  have h1 := (h emptyDay FoodManager.empty "ham" 1 (Or.inr (by decide))).1
  revert h1
  decide

/-- C14. With an empty undo history `LogManager::undo` changes nothing: the
logs, the current date, the history and the modified flag are as before. -/
theorem undo_empty_history (lm : LogManager) (h : lm.undoStack = []) : lm.undo = lm := by
  unfold LogManager.undo
  rw [h]

theorem undo_empty_history_witness : lunchDay.undo = lunchDay :=
  undo_empty_history lunchDay (by decide)

/-! ## Where undo puts a removed entry (C15) -/

theorem eraseIdx_last_append (entries : List LogEntry) (i : Nat) (h : i < entries.length)
    (hlast : i + 1 = entries.length) : entries.eraseIdx i ++ [entries[i]] = entries := by
  induction entries generalizing i with
  | nil => simp at h
  | cons e rest ih =>
    cases i with
    | zero =>
      have hrest : rest = [] := by
        apply List.eq_nil_of_length_eq_zero
        simpa using hlast.symm
      subst hrest
      rfl
    | succ j =>
      have hj : j < rest.length := by simpa using h
      have hjl : j + 1 = rest.length := by simpa using hlast
      simp only [List.eraseIdx_cons_succ, List.cons_append, List.getElem_cons_succ]
      rw [ih j hj hjl]

/-- C15, as the code has it. For every day log with at least two entries
(distinct food ids, positive servings) and every in-range index `i` whose
entry has a non-empty food id, `removeFoodFromLog i` followed by `undo` puts
the captured entry back at the end of the day's entries: the result is the
old sequence with the entry at `i` moved to the last place, which is the old
sequence exactly when `i` is the last index. -/
theorem removeFoodFromLog_undo_order (lm : LogManager) (i : Nat)
    (h : i < lm.getCurrentDayLog.entries.length)
    (_htwo : 2 ≤ lm.getCurrentDayLog.entries.length)
    (hdistinct : (lm.getCurrentDayLog.entries.map LogEntry.foodId).Nodup)
    (_hpos : ∀ e ∈ lm.getCurrentDayLog.entries, 0 < e.servings)
    (hne : lm.getCurrentDayLog.entries[i].foodId ≠ "") :
    (lm.removeFoodFromLog i).undo.getCurrentDayLog.entries
        = lm.getCurrentDayLog.entries.eraseIdx i ++ [lm.getCurrentDayLog.entries[i]] ∧
      (i + 1 = lm.getCurrentDayLog.entries.length →
        (lm.removeFoodFromLog i).undo.getCurrentDayLog.entries = lm.getCurrentDayLog.entries) := by
  have hentries := entries_after_remove_undo lm i h hne
  rw [addEntryLoop_append _ _ (foodId_ne_of_mem_eraseIdx _ i h hdistinct)] at hentries
  refine ⟨hentries, fun hlast => ?_⟩
  rw [hentries, eraseIdx_last_append _ i h hlast]

theorem removeFoodFromLog_undo_order_witness :
    (lunchDay.removeFoodFromLog 0).undo.getCurrentDayLog.entries
      = [{ foodId := "cheese", servings := 1 }, { foodId := "bread", servings := 2 }] :=
  (removeFoodFromLog_undo_order lunchDay 0 (by decide) (by decide) (by decide) (by decide)
    (by decide)).1

/-- C15 fails as stated. On the day holding `bread` then `cheese`, removing
index 0 and undoing gives `cheese` then `bread`: the entry comes back at the
end, not at its original index. -/
theorem removeFoodFromLog_undo_order_counterexample :
    ¬ ∀ (lm : LogManager) (i : Nat), i < lm.getCurrentDayLog.entries.length →
        2 ≤ lm.getCurrentDayLog.entries.length →
        (lm.getCurrentDayLog.entries.map LogEntry.foodId).Nodup →
        (∀ e ∈ lm.getCurrentDayLog.entries, 0 < e.servings) →
        (lm.removeFoodFromLog i).undo.getCurrentDayLog.entries
          = lm.getCurrentDayLog.entries := by
  intro h
  have h1 := h lunchDay 0 (by decide) (by decide) (by decide) (by decide)
  revert h1
  decide

/-! ## The recompute pass of `loadDatabase` (C16) -/

/-- C16 does not hold of the code. Loading `bread` (80) and the composites
`bowl` = {mix: 1} and `mix` = {bread: 2}, both stored with 0 calories, the pass
visits `bowl` before `mix`: `mix` ends with 160 calories while `bowl` keeps the
0 it computed from the value `mix` had in the file. -/
theorem loadDatabase_stale_component :
    ((FoodManager.empty.loadDatabase (some breadFile) (some staleCompositeFile)).1.getFoodById
        "mix").map Food.getCaloriesPerServing = some 160 ∧
      ((FoodManager.empty.loadDatabase (some breadFile) (some staleCompositeFile)).1.getFoodById
        "bowl").map Food.getCaloriesPerServing = some 0 ∧
      ¬ CompositeInvariant
        (FoodManager.empty.loadDatabase (some breadFile) (some staleCompositeFile)).1 := by
  have hdb : (FoodManager.empty.loadDatabase (some breadFile) (some staleCompositeFile)).1
      = { foodDatabase :=
            [("bowl", Food.composite
                { id := "bowl", keywords := ["lunch"], caloriesPerServing := 0,
                  components := [("mix", 1)] }),
             ("bread", Food.basic
                { id := "bread", keywords := ["lunch"], caloriesPerServing := 80,
                  description := "Bread", proteins := 3, carbs := 15, fats := 1 }),
             ("mix", Food.composite
                { id := "mix", keywords := ["lunch"], caloriesPerServing := 160,
                  components := [("bread", 2)] })],
          modified := false } := by
    simp [FoodManager.loadDatabase, FoodManager.loadFromFile, FoodManager.loadRecords,
      FoodManager.recomputeLoop, FoodManager.empty, breadFile, staleCompositeFile, mapAssign,
      mapFind, mapKeys, Food.getId, FoodManager.updateStored,
      FoodManager.updateStoredLoop, Food.getCaloriesPerServing]
    norm_num
    decide
  rw [hdb]
  refine ⟨by simp [FoodManager.getFoodById, mapFind, Food.getCaloriesPerServing],
    by simp [FoodManager.getFoodById, mapFind, Food.getCaloriesPerServing], ?_⟩
  intro hinv
  have h1 := hinv "bowl"
    { id := "bowl", keywords := ["lunch"], caloriesPerServing := 0, components := [("mix", 1)] }
    (by simp [FoodManager.getFoodById, mapFind])
  simp [componentSum, componentCalories, FoodManager.getFoodById, mapFind,
    Food.getCaloriesPerServing] at h1

/-- On a composite that does not list its own id the recompute pass computes
what `updateCalories` computes from a copy of the database. -/
theorem updateStoredLoop_eq (db : StdMap Food) (key : String) (components : StdMap Int)
    (acc : ℚ) (h : key ∉ mapKeys components) :
    FoodManager.updateStoredLoop db key components acc
      = CompositeFood.updateCaloriesLoop db components acc := by
  induction components generalizing acc with
  | nil => rfl
  | cons p rest ih =>
    obtain ⟨foodId, servings⟩ := p
    have hne : ¬ foodId = key := fun hEq => h (by simp [mapKeys, hEq])
    have hrest : key ∉ mapKeys rest := fun hmem => h (by
      simp only [mapKeys, List.map_cons, List.mem_cons]
      exact Or.inr hmem)
    simp only [FoodManager.updateStoredLoop, CompositeFood.updateCaloriesLoop, hne, if_false]
    cases mapFind db foodId with
    | none => exact ih acc hrest
    | some food => exact ih _ hrest

/-- The recompute pass on a composite that lists its own id reads the
composite while updating it: `stack` = {bread: 1, stack: 2} gets 80 from
`bread` and then twice the 80 it holds by then, 240 in all; the 100 stored in
the file is not read. -/
theorem loadDatabase_self_reference :
    ((FoodManager.empty.loadDatabase (some breadFile) (some selfReferenceFile)).1.getFoodById
        "stack").map Food.getCaloriesPerServing = some 240 := by
  simp [FoodManager.loadDatabase, FoodManager.loadFromFile, FoodManager.loadRecords,
    FoodManager.recomputeLoop, FoodManager.empty, breadFile, selfReferenceFile, mapAssign,
    mapFind, mapKeys, Food.getId, FoodManager.updateStored, FoodManager.updateStoredLoop,
    Food.getCaloriesPerServing, FoodManager.getFoodById]
  norm_num

/-! ## Invariants of the logs (C17) -/

theorem mem_mapAssign {V : Type} (m : StdMap V) (k : String) (v : V) (p : String × V)
    (h : p ∈ mapAssign m k v) : p.2 = v ∨ p ∈ m := by
  induction m with
  | nil =>
    simp only [mapAssign, List.mem_singleton] at h
    left; rw [h]
  | cons q rest ih =>
    obtain ⟨k', v'⟩ := q
    simp only [mapAssign] at h
    split_ifs at h with h1 h2
    · rcases List.mem_cons.1 h with h | h
      · left; rw [h]
      · right; exact h
    · rcases List.mem_cons.1 h with h | h
      · left; rw [h]
      · right; exact List.mem_cons_of_mem _ h
    · rcases List.mem_cons.1 h with h | h
      · right; rw [h]; exact List.mem_cons_self _ _
      · rcases ih h with h | h
        · left; exact h
        · right; exact List.mem_cons_of_mem _ h

theorem mem_of_mapFind {V : Type} (m : StdMap V) (k : String) (v : V)
    (h : mapFind m k = some v) : ∃ p ∈ m, p.2 = v := by
  induction m with
  | nil => simp [mapFind] at h
  | cons q rest ih =>
    obtain ⟨k', v'⟩ := q
    simp only [mapFind] at h
    split_ifs at h with h1
    · injection h with h
      exact ⟨(k', v'), List.mem_cons_self _ _, h⟩
    · obtain ⟨p, hp, hv⟩ := ih h
      exact ⟨p, List.mem_cons_of_mem _ hp, hv⟩

/-- A property of all stored logs that the empty log has holds of `logs[date]`. -/
theorem logsAt_of_forall (P : DailyLog → Prop) (hempty : P DailyLog.empty)
    (logs : StdMap DailyLog) (date : String) (h : ∀ p ∈ logs, P p.2) :
    P (logsAt logs date) := by
  unfold logsAt
  cases hfind : mapFind logs date with
  | none => exact hempty
  | some log =>
    obtain ⟨p, hp, hv⟩ := mem_of_mapFind logs date log hfind
    simpa [← hv] using h p hp

theorem forall_mapAssign (P : DailyLog → Prop) (logs : StdMap DailyLog) (date : String)
    (log : DailyLog) (h : ∀ p ∈ logs, P p.2) (hlog : P log) :
    ∀ p ∈ mapAssign logs date log, P p.2 := by
  intro p hp
  rcases mem_mapAssign logs date log p hp with h1 | h1
  · rw [h1]; exact hlog
  · exact h p h1

theorem map_foodId_addEntryLoop (entry : LogEntry) (entries : List LogEntry) :
    (DailyLog.addEntryLoop entry entries).map LogEntry.foodId
      = if entry.foodId ∈ entries.map LogEntry.foodId then entries.map LogEntry.foodId
        else entries.map LogEntry.foodId ++ [entry.foodId] := by
  induction entries with
  | nil => simp [DailyLog.addEntryLoop]
  | cons x rest ih =>
    by_cases hx : x.foodId = entry.foodId
    · simp [DailyLog.addEntryLoop, hx, LogEntry.addServings]
    · have hx2 : ¬ entry.foodId = x.foodId := fun h => hx h.symm
      simp only [DailyLog.addEntryLoop, hx, if_false, List.map_cons, ih, List.mem_cons, hx2,
        false_or]
      split_ifs <;> simp

theorem distinctIds_addEntry (log : DailyLog) (entry : LogEntry) (h : DistinctIds log) :
    DistinctIds (log.addEntry entry) := by
  unfold DistinctIds at h ⊢
  simp only [DailyLog.addEntry, map_foodId_addEntryLoop]
  split_ifs with hmem
  · exact h
  · rw [List.nodup_append]
    refine ⟨h, List.nodup_singleton _, ?_⟩
    intro a ha hb
    rw [List.mem_singleton] at hb
    exact hmem (hb ▸ ha)

theorem distinctIds_removeEntry (log : DailyLog) (index : Nat) (h : DistinctIds log) :
    DistinctIds (log.removeEntry index) := by
  unfold DailyLog.removeEntry
  split_ifs
  · exact List.Nodup.sublist ((List.eraseIdx_sublist _ _).map _) h
  · exact h

theorem undoAddLoop_sublist_ids (foodId : String) (servings : CInt) (entries : List LogEntry) :
    List.Sublist ((undoAddLoop foodId servings entries).map LogEntry.foodId)
      (entries.map LogEntry.foodId) := by
  induction entries with
  | nil => simp [undoAddLoop]
  | cons x rest ih =>
    simp only [undoAddLoop]
    split_ifs with h1 h2
    · exact List.sublist_cons_self _ _
    · simp [LogEntry.addServings]
    · simpa using ih

theorem distinctIds_empty : DistinctIds DailyLog.empty := by
  simp [DistinctIds, DailyLog.empty]

theorem distinctIds_execute (cmd : Command) (logs : StdMap DailyLog)
    (h : ∀ p ∈ logs, DistinctIds p.2) : ∀ p ∈ cmd.execute logs, DistinctIds p.2 := by
  have hat := fun date => logsAt_of_forall DistinctIds distinctIds_empty logs date h
  cases cmd with
  | AddFoodLogCommand date foodId servings =>
    exact forall_mapAssign _ _ _ _ h (distinctIds_addEntry _ _ (hat date))
  | RemoveFoodLogCommand date index removedEntry =>
    simp only [Command.execute]
    split_ifs
    · exact forall_mapAssign _ _ _ _ h (distinctIds_removeEntry _ _ (hat date))
    · exact h

theorem distinctIds_undo (cmd : Command) (logs : StdMap DailyLog)
    (h : ∀ p ∈ logs, DistinctIds p.2) : ∀ p ∈ cmd.undo logs, DistinctIds p.2 := by
  have hat := fun date => logsAt_of_forall DistinctIds distinctIds_empty logs date h
  cases cmd with
  | AddFoodLogCommand date foodId servings =>
    apply forall_mapAssign _ _ _ _ h
    exact List.Nodup.sublist (undoAddLoop_sublist_ids _ _ _) (hat date)
  | RemoveFoodLogCommand date index removedEntry =>
    simp only [Command.undo]
    split_ifs
    · exact forall_mapAssign _ _ _ _ h (distinctIds_addEntry _ _ (hat date))
    · exact h

theorem distinctIds_apply (lm : LogManager) (call : LogCall)
    (h : ∀ p ∈ lm.logs, DistinctIds p.2) : ∀ p ∈ (call.apply lm).logs, DistinctIds p.2 := by
  cases call with
  | addFoodToLog foodId servings =>
    exact distinctIds_execute (Command.AddFoodLogCommand lm.currentDate foodId servings) _ h
  | removeFoodFromLog index =>
    exact distinctIds_execute (Command.newRemove lm.logs lm.currentDate index) _ h
  | undo =>
    simp only [LogCall.apply, LogManager.undo]
    cases hstack : lm.undoStack with
    | nil => exact h
    | cons cmd rest => exact distinctIds_undo cmd _ h
  | setCurrentDate date => exact h

theorem distinctIds_runLogCalls (calls : List LogCall) (lm : LogManager)
    (h : ∀ p ∈ lm.logs, DistinctIds p.2) :
    ∀ p ∈ (runLogCalls lm calls).logs, DistinctIds p.2 := by
  induction calls generalizing lm with
  | nil => exact h
  | cons call rest ih => exact ih _ (distinctIds_apply lm call h)

theorem distinctIds_fromJsonLoop (entries : List LogEntry) (log : DailyLog)
    (h : DistinctIds log) : DistinctIds (DailyLog.fromJsonLoop log entries) := by
  induction entries generalizing log with
  | nil => exact h
  | cons e rest ih => exact ih _ (distinctIds_addEntry log e h)

/-- C17. In every state reached from a new log manager by any sequence of
`addFoodToLog`, `removeFoodFromLog`, `undo` and `setCurrentDate` calls with any
arguments, and in every log that `DailyLog::fromJson` builds, the entries of
each day have pairwise distinct food ids. -/
theorem distinctIds_invariant :
    (∀ (today : String) (calls : List LogCall),
        ∀ p ∈ (runLogCalls (LogManager.new today) calls).logs, DistinctIds p.2) ∧
      ∀ entries : List LogEntry, DistinctIds (DailyLog.fromJson entries) := by
  constructor
  · intro today calls
    apply distinctIds_runLogCalls
    intro p hp
    simp [LogManager.new] at hp
  · intro entries
    exact distinctIds_fromJsonLoop entries _ distinctIds_empty

theorem positiveEntries_empty : PositiveEntries DailyLog.empty := by
  simp [PositiveEntries, DailyLog.empty]

/-- Adding positive servings keeps the servings positive, provided the sum with
the servings of an entry of the same food stays within `int`. -/
theorem positiveEntries_addEntry (log : DailyLog) (entry : LogEntry)
    (h : PositiveEntries log) (hentry : 0 < entry.servings)
    (hfit : ∀ e ∈ log.entries, e.foodId = entry.foodId →
      e.servings.val + entry.servings.val < 2147483648) :
    PositiveEntries (log.addEntry entry) := by
  obtain ⟨entries⟩ := log
  unfold PositiveEntries at h ⊢
  simp only [DailyLog.addEntry] at h hfit ⊢
  induction entries with
  | nil =>
    intro e he
    simp only [DailyLog.addEntryLoop, List.mem_singleton] at he
    rw [he]; exact hentry
  | cons x rest ih =>
    have hx : 0 < x.servings := h x (List.mem_cons_self _ _)
    have hrest : ∀ e ∈ rest, 0 < e.servings := fun e he => h e (List.mem_cons_of_mem _ he)
    intro e he
    simp only [DailyLog.addEntryLoop] at he
    split_ifs at he with h1
    · rcases List.mem_cons.1 he with he | he
      · have hsum := hfit x (List.mem_cons_self _ _) h1
        rw [CInt.lt_iff, CInt.val_zero] at hx hentry
        rw [he, CInt.lt_iff, CInt.val_zero]
        simp only [LogEntry.addServings]
        rw [CInt.val_add_of_fits _ _ ⟨by omega, hsum⟩]
        omega
      · exact hrest e he
    · rcases List.mem_cons.1 he with he | he
      · rw [he]; exact hx
      · exact ih hrest (fun y hy => hfit y (List.mem_cons_of_mem _ hy)) e he

theorem positiveEntries_removeEntry (log : DailyLog) (index : Nat) (h : PositiveEntries log) :
    PositiveEntries (log.removeEntry index) := by
  unfold DailyLog.removeEntry
  split_ifs
  · intro e he
    exact h e ((List.eraseIdx_sublist _ _).subset he)
  · exact h

/-- Whatever is subtracted, the entries that `AddFoodLogCommand::undo` leaves
have positive servings if the entries had. -/
theorem positiveEntries_undoAddLoop (foodId : String) (servings : CInt)
    (entries : List LogEntry) (h : ∀ e ∈ entries, 0 < e.servings) :
    ∀ e ∈ undoAddLoop foodId servings entries, 0 < e.servings := by
  induction entries with
  | nil => simp [undoAddLoop]
  | cons x rest ih =>
    have hx : 0 < x.servings := h x (List.mem_cons_self _ _)
    have hrest : ∀ e ∈ rest, 0 < e.servings := fun e he => h e (List.mem_cons_of_mem _ he)
    intro e he
    simp only [undoAddLoop] at he
    split_ifs at he with h1 h2
    · exact hrest e he
    · rcases List.mem_cons.1 he with he | he
      · rw [he]; exact CInt.lt_of_not_le h2
      · exact hrest e he
    · rcases List.mem_cons.1 he with he | he
      · rw [he]; exact hx
      · exact ih hrest e he

/-! ## Calorie strategies and the target (C19, C20) -/

/-- C19. Over the rationals, both strategies return the basal rate times the
activity factor. Harris-Benedict takes
`88.362 + 13.397 W + 4.799 H - 5.677 A` for the gender `male` and
`447.593 + 9.247 W + 3.098 H - 4.330 A` for every other gender, the female case
included; Mifflin-St Jeor takes `10 W + 6.25 H - 5 A + 5` for `male` and
`10 W + 6.25 H - 5 A - 161` otherwise. -/
theorem calculateCalories_formulas (gender : String) (height : ℚ) (age : Int) (weight : ℚ)
    (activityLevel : String) :
    (gender = "male" →
        HarrisBenedictStrategy.calculateCalories gender height age weight activityLevel
          = (88.362 + 13.397 * weight + 4.799 * height - 5.677 * age)
              * HarrisBenedictStrategy.getActivityFactor activityLevel) ∧
      (gender ≠ "male" →
        HarrisBenedictStrategy.calculateCalories gender height age weight activityLevel
          = (447.593 + 9.247 * weight + 3.098 * height - 4.330 * age)
              * HarrisBenedictStrategy.getActivityFactor activityLevel) ∧
      (gender = "male" →
        MifflinStJeorStrategy.calculateCalories gender height age weight activityLevel
          = (10 * weight + 6.25 * height - 5 * age + 5)
              * MifflinStJeorStrategy.getActivityFactor activityLevel) ∧
      (gender ≠ "male" →
        MifflinStJeorStrategy.calculateCalories gender height age weight activityLevel
          = (10 * weight + 6.25 * height - 5 * age - 161)
              * MifflinStJeorStrategy.getActivityFactor activityLevel) := by
  refine ⟨?_, ?_, ?_, ?_⟩ <;> intro h
  · simp only [HarrisBenedictStrategy.calculateCalories, h, if_true]
  · simp only [HarrisBenedictStrategy.calculateCalories, h, if_false]
  · simp only [MifflinStJeorStrategy.calculateCalories, h, if_true]
  · simp only [MifflinStJeorStrategy.calculateCalories, h, if_false]

theorem calculateCalories_formulas_witness :
    HarrisBenedictStrategy.calculateCalories "male" 180 30 80 "moderate" = 1853.632 * 1.55 ∧
      HarrisBenedictStrategy.calculateCalories "male" 180 30 80 "moderate" = 2873.1296 := by
  have h := (calculateCalories_formulas "male" 180 30 80 "moderate").1 rfl
  rw [h]
  constructor <;> (simp [HarrisBenedictStrategy.getActivityFactor]; norm_num)

/-- C20. `calculateTargetCalories` is exactly 0 whenever the gender is empty,
the height, the age or the weight is zero or negative, or the activity level
is empty, whichever strategy is set and whatever the other fields hold. -/
theorem calculateTargetCalories_incomplete (p : UserProfile)
    (h : p.gender = "" ∨ p.height ≤ 0 ∨ p.age ≤ 0 ∨ p.weight ≤ 0 ∨ p.activityLevel = "") :
    p.calculateTargetCalories = 0 := by
  unfold UserProfile.calculateTargetCalories
  cases p.calorieStrategy with
  | none => rfl
  | some strategy => simp only [if_pos h]

theorem calculateTargetCalories_incomplete_witness :
    ({ sampleProfile with age := 0 } : UserProfile).calculateTargetCalories = 0 ∧
      ({ sampleProfile with
          calorieStrategy := some CalorieCalculationStrategy.MifflinStJeorStrategy,
          gender := "" } : UserProfile).calculateTargetCalories = 0 :=
  ⟨calculateTargetCalories_incomplete _ (Or.inr (Or.inr (Or.inl (by decide)))),
    calculateTargetCalories_incomplete _ (Or.inl rfl)⟩

/-! ## Activity factors, the gender that is never set, the sign of the target (C21, C29, C30) -/

/-- C21. In both strategies `getActivityFactor` gives 1.2 for `sedentary`, 1.375
for `light`, 1.55 for `moderate`, 1.725 for `active`, 1.9 for `very active` and
1.2 for every other label; the two functions agree on every label. -/
theorem getActivityFactor_table (activityLevel : String) :
    HarrisBenedictStrategy.getActivityFactor "sedentary" = 1.2 ∧
      HarrisBenedictStrategy.getActivityFactor "light" = 1.375 ∧
      HarrisBenedictStrategy.getActivityFactor "moderate" = 1.55 ∧
      HarrisBenedictStrategy.getActivityFactor "active" = 1.725 ∧
      HarrisBenedictStrategy.getActivityFactor "very active" = 1.9 ∧
      (activityLevel ∉ ["light", "moderate", "active", "very active"] →
        HarrisBenedictStrategy.getActivityFactor activityLevel = 1.2) ∧
      MifflinStJeorStrategy.getActivityFactor activityLevel
        = HarrisBenedictStrategy.getActivityFactor activityLevel := by
  refine ⟨?_, ?_, ?_, ?_, ?_, ?_, rfl⟩
  · simp [HarrisBenedictStrategy.getActivityFactor]
  · simp [HarrisBenedictStrategy.getActivityFactor]
  · simp [HarrisBenedictStrategy.getActivityFactor]
  · simp [HarrisBenedictStrategy.getActivityFactor]
  · simp [HarrisBenedictStrategy.getActivityFactor]
  · intro h
    simp only [List.mem_cons, List.mem_singleton, List.not_mem_nil, or_false, not_or] at h
    simp [HarrisBenedictStrategy.getActivityFactor, h.1, h.2.1, h.2.2.1, h.2.2.2]

theorem getActivityFactor_table_witness :
    HarrisBenedictStrategy.getActivityFactor "athlete" = 1.2 ∧
      MifflinStJeorStrategy.getActivityFactor "athlete" = 1.2 := by
  have h := getActivityFactor_table "athlete"
  exact ⟨h.2.2.2.2.2.1 (by decide), by rw [h.2.2.2.2.2.2]; exact h.2.2.2.2.2.1 (by decide)⟩

theorem gender_apply (pm : ProfileManager) (call : ProfileCall) :
    (call.apply pm).profile.gender = pm.profile.gender := by
  cases call with
  | updateProfile height age weight activityLevel => rfl
  | setCalculationMethod method =>
    simp only [ProfileCall.apply, ProfileManager.setCalculationMethod]
    split_ifs <;> rfl

theorem gender_runProfileCalls (calls : List ProfileCall) (pm : ProfileManager) :
    (runProfileCalls pm calls).profile.gender = pm.profile.gender := by
  induction calls generalizing pm with
  | nil => rfl
  | cons call rest ih => rw [runProfileCalls, ih, gender_apply]

/-- C29. `ProfileManager::updateProfile` never sets the gender: starting from a
default-constructed profile, after any sequence of `updateProfile` and
`setCalculationMethod` calls with any arguments the gender is still empty and
`getTargetCalories` returns 0. -/
theorem getTargetCalories_without_gender (calls : List ProfileCall) :
    (runProfileCalls ProfileManager.new calls).profile.gender = "" ∧
      (runProfileCalls ProfileManager.new calls).getTargetCalories = 0 := by
  have hg : (runProfileCalls ProfileManager.new calls).profile.gender = "" := by
    rw [gender_runProfileCalls]; rfl
  refine ⟨hg, ?_⟩
  unfold ProfileManager.getTargetCalories UserProfile.calculateTargetCalories
  cases (runProfileCalls ProfileManager.new calls).profile.calorieStrategy with
  | none => rfl
  | some strategy => simp [hg]

/-- The command that `removeFoodFromLog` builds for an index within bounds
captures the entry at that index. -/
theorem newRemove_in_range (lm : LogManager) (i : Nat)
    (h : i < lm.getCurrentDayLog.entries.length) :
    (mapFind lm.logs lm.currentDate).isSome = true ∧
      Command.newRemove lm.logs lm.currentDate i
        = Command.RemoveFoodLogCommand lm.currentDate i lm.getCurrentDayLog.entries[i] := by
  have hlog := getCurrentDayLog_eq_logsAt lm
  have hsome : (mapFind lm.logs lm.currentDate).isSome = true := by
    cases hfind : mapFind lm.logs lm.currentDate with
    | some log => rfl
    | none => simp [LogManager.getCurrentDayLog, hfind, DailyLog.empty] at h
  have h2 : i < (logsAt lm.logs lm.currentDate).entries.length := by rw [← hlog]; exact h
  have hget : (logsAt lm.logs lm.currentDate).entries.getD i LogEntry.default
      = lm.getCurrentDayLog.entries[i] := by
    rw [List.getD_eq_getElem _ _ h2]
    simp only [hlog]
  refine ⟨hsome, ?_⟩
  simp only [Command.newRemove, hsome, h2, and_self, if_true, hget]

theorem newRemove_date (logs : StdMap DailyLog) (date : String) (index : Nat) :
    ∃ e : LogEntry, Command.newRemove logs date index
      = Command.RemoveFoodLogCommand date index e := by
  unfold Command.newRemove
  split_ifs
  · exact ⟨_, rfl⟩
  · exact ⟨_, rfl⟩

theorem logsAt_execute_add_of_ne (logs : StdMap DailyLog) (date foodId : String)
    (servings : CInt) (d : String) (h : d ≠ date) :
    logsAt ((Command.AddFoodLogCommand date foodId servings).execute logs) d = logsAt logs d :=
  logsAt_mapAssign_of_ne _ _ _ _ (Ne.symm h)

theorem logsAt_execute_remove_of_ne (logs : StdMap DailyLog) (date : String) (index : Nat)
    (e : LogEntry) (d : String) (h : d ≠ date) :
    logsAt ((Command.RemoveFoodLogCommand date index e).execute logs) d = logsAt logs d := by
  simp only [Command.execute]
  split_ifs
  · exact logsAt_mapAssign_of_ne _ _ _ _ (Ne.symm h)
  · rfl

theorem logsAt_undo_add_of_ne (logs : StdMap DailyLog) (date foodId : String)
    (servings : CInt) (d : String) (h : d ≠ date) :
    logsAt ((Command.AddFoodLogCommand date foodId servings).undo logs) d = logsAt logs d :=
  logsAt_mapAssign_of_ne _ _ _ _ (Ne.symm h)

theorem logsAt_undo_remove_of_ne (logs : StdMap DailyLog) (date : String) (index : Nat)
    (e : LogEntry) (d : String) (h : d ≠ date) :
    logsAt ((Command.RemoveFoodLogCommand date index e).undo logs) d = logsAt logs d := by
  simp only [Command.undo]
  split_ifs
  · exact logsAt_mapAssign_of_ne _ _ _ _ (Ne.symm h)
  · rfl

/-- C25. For every day log with `n` entries and every index `i < n`,
`removeFoodFromLog i` leaves the `n - 1` entries obtained by deleting position
`i`: the entries before `i` keep their positions, each entry at a position
`j > i` is now at `j - 1`, and the logs of all other dates are unchanged. -/
theorem removeFoodFromLog_in_range (lm : LogManager) (i : Nat)
    (h : i < lm.getCurrentDayLog.entries.length) :
    (lm.removeFoodFromLog i).getCurrentDayLog.entries
        = lm.getCurrentDayLog.entries.eraseIdx i ∧
      (lm.removeFoodFromLog i).getCurrentDayLog.entries.length + 1
        = lm.getCurrentDayLog.entries.length ∧
      (∀ j, j < i →
        (lm.removeFoodFromLog i).getCurrentDayLog.entries[j]?
          = lm.getCurrentDayLog.entries[j]?) ∧
      (∀ j, i < j →
        (lm.removeFoodFromLog i).getCurrentDayLog.entries[j - 1]?
          = lm.getCurrentDayLog.entries[j]?) ∧
      ∀ d, d ≠ lm.currentDate → logsAt (lm.removeFoodFromLog i).logs d = logsAt lm.logs d := by
  obtain ⟨hsome, hcmd⟩ := newRemove_in_range lm i h
  have h2 : i < (logsAt lm.logs lm.currentDate).entries.length := by
    rw [← getCurrentDayLog_eq_logsAt]; exact h
  have hentries : (lm.removeFoodFromLog i).getCurrentDayLog.entries
      = lm.getCurrentDayLog.entries.eraseIdx i := by
    rw [getCurrentDayLog_eq_logsAt, getCurrentDayLog_eq_logsAt]
    simp only [LogManager.removeFoodFromLog, hcmd, Command.execute, hsome, if_true,
      logsAt_mapAssign_self, DailyLog.removeEntry, h2]
  refine ⟨hentries, ?_, ?_, ?_, ?_⟩
  · rw [hentries, List.length_eraseIdx_of_lt h]
    omega
  · intro j hj
    rw [hentries, List.getElem?_eraseIdx_of_lt _ _ _ hj]
  · intro j hj
    rw [hentries, List.getElem?_eraseIdx_of_ge _ _ _ (by omega)]
    congr 1
    omega
  · intro d hd
    simp only [LogManager.removeFoodFromLog, hcmd]
    exact logsAt_execute_remove_of_ne _ _ _ _ _ hd

theorem removeFoodFromLog_in_range_witness :
    (lunchDay.removeFoodFromLog 0).getCurrentDayLog.entries
      = [{ foodId := "cheese", servings := 1 }] :=
  (removeFoodFromLog_in_range lunchDay 0 (by decide)).1

/-- C27. A command is undone on the date that was current when it was
executed. `addFoodToLog` and `removeFoodFromLog` change the log of no date but
the current one, and when the current date is changed afterwards, `undo` again
changes the log of no date but the one the command was executed on: the add is
taken back there, and a removed entry with a non-empty food id is put back
there. -/
theorem undo_acts_on_captured_date (lm : LogManager) (d2 d : String)
    (hd : d ≠ lm.currentDate) :
    (∀ (foodId : String) (servings : CInt),
        logsAt (lm.addFoodToLog foodId servings).logs d = logsAt lm.logs d ∧
        logsAt ((lm.addFoodToLog foodId servings).setCurrentDate d2).undo.logs d
          = logsAt lm.logs d ∧
        (logsAt ((lm.addFoodToLog foodId servings).setCurrentDate d2).undo.logs
            lm.currentDate).entries
          = undoAddLoop foodId servings
              (DailyLog.addEntryLoop { foodId := foodId, servings := servings }
                lm.getCurrentDayLog.entries)) ∧
      ∀ index : Nat,
        logsAt (lm.removeFoodFromLog index).logs d = logsAt lm.logs d ∧
        logsAt ((lm.removeFoodFromLog index).setCurrentDate d2).undo.logs d
          = logsAt lm.logs d ∧
        ∀ h : index < lm.getCurrentDayLog.entries.length,
          lm.getCurrentDayLog.entries[index].foodId ≠ "" →
          (logsAt ((lm.removeFoodFromLog index).setCurrentDate d2).undo.logs
              lm.currentDate).entries
            = DailyLog.addEntryLoop lm.getCurrentDayLog.entries[index]
                (lm.getCurrentDayLog.entries.eraseIdx index) := by
  constructor
  · intro foodId servings
    refine ⟨logsAt_execute_add_of_ne _ _ _ _ _ hd, ?_, ?_⟩
    · simp only [LogManager.addFoodToLog, LogManager.setCurrentDate, LogManager.undo]
      rw [logsAt_undo_add_of_ne _ _ _ _ _ hd, logsAt_execute_add_of_ne _ _ _ _ _ hd]
    · simp only [LogManager.addFoodToLog, LogManager.setCurrentDate, LogManager.undo,
        Command.undo, Command.execute, logsAt_mapAssign_self, DailyLog.addEntry,
        getCurrentDayLog_eq_logsAt]
  · intro index
    obtain ⟨e, he⟩ := newRemove_date lm.logs lm.currentDate index
    refine ⟨?_, ?_, ?_⟩
    · simp only [LogManager.removeFoodFromLog, he]
      exact logsAt_execute_remove_of_ne _ _ _ _ _ hd
    · simp only [LogManager.removeFoodFromLog, LogManager.setCurrentDate, LogManager.undo, he]
      rw [logsAt_undo_remove_of_ne _ _ _ _ _ hd, logsAt_execute_remove_of_ne _ _ _ _ _ hd]
    · intro h hne
      obtain ⟨hsome, hcmd⟩ := newRemove_in_range lm index h
      have h2 : index < (logsAt lm.logs lm.currentDate).entries.length := by
        rw [← getCurrentDayLog_eq_logsAt]; exact h
      simp only [LogManager.removeFoodFromLog, LogManager.setCurrentDate, LogManager.undo,
        hcmd, Command.undo, Command.execute, hsome, if_true, ne_eq, hne, not_false_eq_true,
        logsAt_mapAssign_self, DailyLog.addEntry, DailyLog.removeEntry, h2,
        getCurrentDayLog_eq_logsAt]
      have hne2 : ¬ (logsAt lm.logs lm.currentDate).entries[index].foodId = "" := by
        simpa only [getCurrentDayLog_eq_logsAt] using hne
      rw [if_pos hne2, logsAt_mapAssign_self]

theorem undo_acts_on_captured_date_witness :
    logsAt ((lunchDay.addFoodToLog "bread" 1).setCurrentDate "2024-01-02").undo.logs
        "2024-01-02" = logsAt lunchDay.logs "2024-01-02" ∧
      (logsAt ((lunchDay.addFoodToLog "bread" 1).setCurrentDate "2024-01-02").undo.logs
        "2024-01-01").entries
        = [{ foodId := "bread", servings := 2 }, { foodId := "cheese", servings := 1 }] :=
  ⟨((undo_acts_on_captured_date lunchDay "2024-01-02" "2024-01-02" (by decide)).1
      "bread" 1).2.1,
    ((undo_acts_on_captured_date lunchDay "2024-01-02" "2024-01-02" (by decide)).1
      "bread" 1).2.2⟩

/-- C28. `removeFoodFromLog` with an index past the end of the current day's
entries, which is every index when the date has no log, leaves the entries of
every date unchanged and pushes one command onto the undo history; undoing
right away leaves the logs untouched and only pops that command, so it is this
idle command that the undo consumes, and the commands below it stay on the
history. -/
theorem removeFoodFromLog_idle_command (lm : LogManager) (index : Nat)
    (h : lm.getCurrentDayLog.entries.length ≤ index) :
    (∀ d : String, logsAt (lm.removeFoodFromLog index).logs d = logsAt lm.logs d) ∧
      (lm.removeFoodFromLog index).undoStack.length = lm.undoStack.length + 1 ∧
      (lm.removeFoodFromLog index).undo.logs = (lm.removeFoodFromLog index).logs ∧
      (∀ d : String, logsAt (lm.removeFoodFromLog index).undo.logs d = logsAt lm.logs d) ∧
      (lm.removeFoodFromLog index).undo.undoStack = lm.undoStack := by
  have h2 : (logsAt lm.logs lm.currentDate).entries.length ≤ index := by
    rw [← getCurrentDayLog_eq_logsAt]; exact h
  have hcmd : Command.newRemove lm.logs lm.currentDate index
      = Command.RemoveFoodLogCommand lm.currentDate index LogEntry.default := by
    unfold Command.newRemove
    rw [if_neg]
    rintro ⟨-, hlt⟩
    omega
  have hlogs : ∀ d : String, logsAt (lm.removeFoodFromLog index).logs d = logsAt lm.logs d := by
    intro d
    simp only [LogManager.removeFoodFromLog, hcmd]
    exact logsAt_execute_remove_out_of_range _ _ _ _ h2 d
  have hundo : (lm.removeFoodFromLog index).undo.logs = (lm.removeFoodFromLog index).logs := by
    simp [LogManager.removeFoodFromLog, LogManager.undo, hcmd, Command.undo, LogEntry.default]
  refine ⟨hlogs, ?_, hundo, ?_, ?_⟩
  · simp [LogManager.removeFoodFromLog]
  · intro d
    rw [hundo]; exact hlogs d
  · simp [LogManager.removeFoodFromLog, LogManager.undo]

theorem removeFoodFromLog_idle_command_witness :
    ((lunchDay.addFoodToLog "bread" 1).removeFoodFromLog 7).undo.getCurrentDayLog.entries
        = [{ foodId := "bread", servings := 3 }, { foodId := "cheese", servings := 1 }] ∧
      ((lunchDay.addFoodToLog "bread" 1).removeFoodFromLog 7).undo.undoStack
        = [Command.AddFoodLogCommand "2024-01-01" "bread" 1] := by
  have h := removeFoodFromLog_idle_command (lunchDay.addFoodToLog "bread" 1) 7 (by decide)
  refine ⟨?_, h.2.2.2.2⟩
  rw [getCurrentDayLog_eq_logsAt]
  exact (congrArg DailyLog.entries (h.2.2.2.1 "2024-01-01")).trans (by decide)

/-! ## The undo of an add against its specification (C24) -/

theorem toList_lt_trans {a b c : String} (h1 : a.toList < b.toList)
    (h2 : b.toList < c.toList) : a.toList < c.toList := by
  rw [← String.lt_iff_toList_lt] at h1 h2 ⊢; exact lt_trans h1 h2

theorem toList_lt_of_not {a b : String} (h1 : ¬ a.toList < b.toList) (h2 : b ≠ a) :
    b.toList < a.toList := by
  rw [← String.lt_iff_toList_lt] at h1 ⊢
  rcases lt_trichotomy a b with h | h | h
  · exact absurd h h1
  · exact absurd h.symm h2
  · exact h

theorem mem_mapAssign_pair {V : Type} (m : StdMap V) (k : String) (v : V) (p : String × V)
    (h : p ∈ mapAssign m k v) : p = (k, v) ∨ p ∈ m := by
  induction m with
  | nil =>
    simp only [mapAssign, List.mem_singleton] at h
    left; exact h
  | cons q rest ih =>
    obtain ⟨k', v'⟩ := q
    simp only [mapAssign] at h
    split_ifs at h with h1 h2
    · rcases List.mem_cons.1 h with h | h
      · left; exact h
      · right; exact h
    · rcases List.mem_cons.1 h with h | h
      · left; rw [h, h2]
      · right; exact List.mem_cons_of_mem _ h
    · rcases List.mem_cons.1 h with h | h
      · right; rw [h]; exact List.mem_cons_self _ _
      · rcases ih h with h | h
        · left; exact h
        · right; exact List.mem_cons_of_mem _ h

/-- Assignment keeps the keys of a map strictly ascending. -/
theorem isMap_mapAssign {V : Type} (m : StdMap V) (k : String) (v : V) (h : IsMap m) :
    IsMap (mapAssign m k v) := by
  induction m with
  | nil => simp [mapAssign, IsMap, mapKeys]
  | cons q rest ih =>
    obtain ⟨k', v'⟩ := q
    have hcons : (∀ a ∈ mapKeys rest, k'.toList < a.toList) ∧ IsMap rest := by
      simpa [IsMap, mapKeys] using h
    simp only [mapAssign]
    split_ifs with h1 h2
    · have hall : ∀ a ∈ mapKeys ((k', v') :: rest), k.toList < a.toList := by
        intro a ha
        simp only [mapKeys, List.map_cons, List.mem_cons] at ha
        rcases ha with ha | ha
        · rw [ha]; exact h1
        · exact toList_lt_trans h1 (hcons.1 a ha)
      unfold IsMap at h ⊢
      simp only [mapKeys, List.map_cons] at hall h ⊢
      exact List.pairwise_cons.2 ⟨hall, h⟩
    · simpa [IsMap, mapKeys] using h
    · have hlt : k'.toList < k.toList := toList_lt_of_not h1 h2
      have hall : ∀ a ∈ mapKeys (mapAssign rest k v), k'.toList < a.toList := by
        intro a ha
        rcases (mem_mapKeys_mapAssign _ _ _ _).1 ha with ha | ha
        · rw [ha]; exact hlt
        · exact hcons.1 a ha
      have hrest := ih hcons.2
      unfold IsMap at hrest ⊢
      simp only [mapKeys, List.map_cons] at hall hrest ⊢
      exact List.pairwise_cons.2 ⟨hall, hrest⟩

/-- In a map, the value found under a key is the value paired with it. -/
theorem mapFind_eq_some_iff {V : Type} (m : StdMap V) (k : String) (v : V) (h : IsMap m) :
    mapFind m k = some v ↔ (k, v) ∈ m := by
  induction m with
  | nil => simp [mapFind]
  | cons q rest ih =>
    obtain ⟨k', v'⟩ := q
    have hcons : (∀ a ∈ mapKeys rest, k'.toList < a.toList) ∧ IsMap rest := by
      simpa [IsMap, mapKeys] using h
    simp only [mapFind]
    split_ifs with h1
    · subst h1
      constructor
      · intro hv
        injection hv with hv
        rw [hv]; exact List.mem_cons_self _ _
      · intro hmem
        rcases List.mem_cons.1 hmem with hmem | hmem
        · injection hmem with _ hv
          rw [hv]
        · exfalso
          have : k' ∈ mapKeys rest := List.mem_map_of_mem Prod.fst hmem
          exact toList_lt_irrefl _ (hcons.1 k' this)
    · rw [ih hcons.2]
      constructor
      · exact List.mem_cons_of_mem _
      · intro hmem
        rcases List.mem_cons.1 hmem with hmem | hmem
        · injection hmem with hk _
          exact absurd hk.symm h1
        · exact hmem

theorem wellFormedRegistry_assign (fm : FoodManager) (food : Food) (modified : Bool)
    (h : WellFormedRegistry fm) :
    WellFormedRegistry
      { foodDatabase := mapAssign fm.foodDatabase food.getId food, modified := modified } := by
  refine ⟨isMap_mapAssign _ _ _ h.1, ?_⟩
  intro p hp
  rcases mem_mapAssign_pair _ _ _ _ hp with hp | hp
  · rw [hp]
  · exact h.2 p hp

/-- Every registry built from the empty one by `addBasicFood` and
`createCompositeFood` calls, guarded or not, is well formed. -/
theorem wellFormedRegistry_runCalls (calls : List FoodCall) (fm : FoodManager)
    (h : WellFormedRegistry fm) : WellFormedRegistry (runCalls fm calls) := by
  induction calls generalizing fm with
  | nil => exact h
  | cons call rest ih =>
    apply ih
    cases call with
    | addBasicFood id keywords calories description proteins carbs fats =>
      exact wellFormedRegistry_assign fm
        (Food.basic
          { id := id, keywords := keywords, caloriesPerServing := calories,
            description := description, proteins := proteins, carbs := carbs, fats := fats })
        true h
    | createCompositeFood id keywords components =>
      have hid : (Food.composite ((FoodManager.addComponents (CompositeFood.new id keywords)
          components).updateCalories fm.foodDatabase)).getId = id := by
        simp [Food.getId, CompositeFood.updateCalories, addComponents_id, CompositeFood.new]
      have := wellFormedRegistry_assign fm
        (Food.composite ((FoodManager.addComponents (CompositeFood.new id keywords)
          components).updateCalories fm.foodDatabase)) true h
      rw [hid] at this
      exact this

theorem getAllFoods_ids (fm : FoodManager) (h : WellFormedRegistry fm) :
    fm.getAllFoods.map Food.getId = mapKeys fm.foodDatabase := by
  unfold FoodManager.getAllFoods mapValues mapKeys
  rw [List.map_map]
  apply List.map_congr_left
  intro p hp
  exact h.2 p hp

/-- C22. For every registry, `getAllFoods` returns the foods in strictly
ascending order of their ids, the order in which `std::string` compares them;
it returns exactly the foods that resolve, each once; and `searchFoods` returns
a subsequence of `getAllFoods`, hence also in strictly ascending id order. -/
theorem listings_in_id_order (fm : FoodManager) (h : WellFormedRegistry fm) :
    (fm.getAllFoods.map Food.getId).Pairwise (fun a b => a.toList < b.toList) ∧
      (∀ (id : String) (food : Food),
        fm.getFoodById id = some food ↔ food ∈ fm.getAllFoods ∧ food.getId = id) ∧
      fm.getAllFoods.Nodup ∧
      ∀ (keywords : List String) (matchAll : Bool),
        List.Sublist (fm.searchFoods keywords matchAll) fm.getAllFoods ∧
          ((fm.searchFoods keywords matchAll).map Food.getId).Pairwise
            (fun a b => a.toList < b.toList) := by
  have hsorted : (fm.getAllFoods.map Food.getId).Pairwise (fun a b => a.toList < b.toList) := by
    rw [getAllFoods_ids fm h]; exact h.1
  have hsub : ∀ (keywords : List String) (matchAll : Bool),
      List.Sublist (fm.searchFoods keywords matchAll) fm.getAllFoods := by
    intro keywords matchAll
    cases matchAll with
    | true => rw [(searchFoods_eq_filter fm keywords).1]; exact List.filter_sublist _
    | false => rw [(searchFoods_eq_filter fm keywords).2]; exact List.filter_sublist _
  refine ⟨hsorted, ?_, ?_, fun keywords matchAll =>
    ⟨hsub keywords matchAll, hsorted.sublist ((hsub keywords matchAll).map _)⟩⟩
  · intro id food
    unfold FoodManager.getFoodById
    rw [mapFind_eq_some_iff _ _ _ h.1]
    constructor
    · intro hmem
      exact ⟨List.mem_map_of_mem Prod.snd hmem, h.2 _ hmem⟩
    · rintro ⟨hmem, hid⟩
      obtain ⟨p, hp, hfood⟩ := List.mem_map.1 hmem
      obtain ⟨k, f⟩ := p
      simp only at hfood
      subst hfood
      have := h.2 _ hp
      simp only at this
      rw [← hid, this]
      exact hp
  · apply List.Nodup.of_map Food.getId
    refine List.Pairwise.imp ?_ hsorted
    intro a b hab hEq
    subst hEq
    exact toList_lt_irrefl _ hab

theorem listings_in_id_order_witness :
    (taggedFoods.getAllFoods.map Food.getId).Pairwise (fun a b => a.toList < b.toList) ∧
      taggedFoods.getAllFoods.map Food.getId = ["apple", "burger", "cake", "salad"] :=
  ⟨(listings_in_id_order taggedFoods (by decide)).1, by decide⟩

/-! ## Transitive resolution (C23) -/

theorem length_mapAssign_fresh {V : Type} (m : StdMap V) (k : String) (v : V)
    (h : (mapFind m k).isSome = false) : (mapAssign m k v).length = m.length + 1 := by
  induction m with
  | nil => simp [mapAssign]
  | cons q rest ih =>
    obtain ⟨k', v'⟩ := q
    simp only [mapFind] at h
    split_ifs at h with h1
    · cases h
    · simp only [mapAssign]
      split_ifs
      · simp
      · simp [ih h]

theorem length_apply_guarded (fm : FoodManager) (call : FoodCall) (hg : call.Guarded fm) :
    (call.apply fm).foodDatabase.length = fm.foodDatabase.length + 1 := by
  cases call with
  | addBasicFood id keywords calories description proteins carbs fats =>
    exact length_mapAssign_fresh _ _ _ hg
  | createCompositeFood id keywords components =>
    exact length_mapAssign_fresh _ _ _ hg.1

/-- A guarded call keeps a rank that falls along every reference and stays
below the number of foods: the new food gets the old number of foods. -/
theorem depthRank_apply (fm : FoodManager) (call : FoodCall) (hcl : Closed fm)
    (hr : ∃ r : String → ℕ, (∀ a b, RefersTo fm a b → r b < r a) ∧
      ∀ a, (fm.getFoodById a).isSome = true → r a < fm.foodDatabase.length)
    (hg : call.Guarded fm) :
    ∃ r : String → ℕ, (∀ a b, RefersTo (call.apply fm) a b → r b < r a) ∧
      ∀ a, ((call.apply fm).getFoodById a).isSome = true →
        r a < (call.apply fm).foodDatabase.length := by
  obtain ⟨r, hr, hb⟩ := hr
  have hlen := length_apply_guarded fm call hg
  cases call with
  | addBasicFood id keywords calories description proteins carbs fats =>
    refine ⟨fun x => if x = id then fm.foodDatabase.length else r x, ?_, ?_⟩
    · intro a b h
      obtain ⟨ha, hab⟩ := refersTo_addBasicFood h
      have hbne : id ≠ b := isSome_false_ne hg (hcl a b hab)
      simp only [ha, if_false, Ne.symm hbne]
      exact hr a b hab
    · intro a ha
      rw [hlen]
      by_cases haid : a = id
      · simp [haid]
      · simp only [haid, if_false]
        rw [FoodCall.apply, getFoodById_addBasicFood_of_ne _ _ _ _ _ _ _ _ _ (Ne.symm haid)] at ha
        exact Nat.lt_succ_of_lt (hb a ha)
  | createCompositeFood id keywords components =>
    refine ⟨fun x => if x = id then fm.foodDatabase.length else r x, ?_, ?_⟩
    · intro a b h
      rcases refersTo_createCompositeFood h with ⟨ha, hbmem⟩ | ⟨ha, hab⟩
      · have hbs := hg.2 b hbmem
        have hbne : id ≠ b := isSome_false_ne hg.1 hbs
        simp only [ha, if_true, Ne.symm hbne, if_false]
        exact hb b hbs
      · have hbne : id ≠ b := isSome_false_ne hg.1 (hcl a b hab)
        simp only [ha, if_false, Ne.symm hbne]
        exact hr a b hab
    · intro a ha
      rw [hlen]
      by_cases haid : a = id
      · simp [haid]
      · simp only [haid, if_false]
        rw [FoodCall.apply, getFoodById_createCompositeFood_of_ne _ _ _ _ _ (Ne.symm haid)] at ha
        exact Nat.lt_succ_of_lt (hb a ha)

theorem depthRank_runCalls (calls : List FoodCall) (fm : FoodManager) (hcl : Closed fm)
    (hr : ∃ r : String → ℕ, (∀ a b, RefersTo fm a b → r b < r a) ∧
      ∀ a, (fm.getFoodById a).isSome = true → r a < fm.foodDatabase.length)
    (hg : GuardedCalls fm calls) :
    ∃ r : String → ℕ, (∀ a b, RefersTo (runCalls fm calls) a b → r b < r a) ∧
      ∀ a, ((runCalls fm calls).getFoodById a).isSome = true →
        r a < (runCalls fm calls).foodDatabase.length := by
  induction calls generalizing fm with
  | nil => exact hr
  | cons call rest ih =>
    exact ih _ (closed_apply fm call hcl hg.1) (depthRank_apply fm call hcl hr hg.1) hg.2

theorem sum_scaled_paths (paths : List (ℚ × Int)) (s : Int) :
    ((paths.map (fun q => (q.1, s * q.2))).map (fun q : ℚ × Int => q.1 * (q.2 : ℚ))).sum
      = ((paths.map (fun q : ℚ × Int => q.1 * (q.2 : ℚ))).sum) * s := by
  induction paths with
  | nil => simp
  | cons q rest ih =>
    simp only [List.map_cons, List.sum_cons, ih]
    push_cast
    ring

theorem sum_flatMap_paths (components : StdMap Int) (g : String × Int → List (ℚ × Int)) :
    ((components.flatMap g).map (fun q : ℚ × Int => q.1 * (q.2 : ℚ))).sum
      = (components.map (fun p => ((g p).map (fun q : ℚ × Int => q.1 * (q.2 : ℚ))).sum)).sum := by
  induction components with
  | nil => simp
  | cons p rest ih =>
    simp only [List.flatMap_cons, List.map_append, List.sum_append, List.map_cons,
      List.sum_cons, ih]

/-- In a closed registry whose composites have the calories their components
sum to, expanding a food with enough fuel gives its stored calories. -/
theorem expandedCalories_eq_stored (fm : FoodManager) (hcl : Closed fm)
    (hinv : CompositeInvariant fm) (r : String → ℕ)
    (hr : ∀ a b, RefersTo fm a b → r b < r a) (n : Nat) :
    ∀ (id : String) (food : Food), fm.getFoodById id = some food → r id < n →
      expandedCalories fm n id = food.getCaloriesPerServing := by
  induction n with
  | zero => intro id food _ h; exact absurd h (Nat.not_lt_zero _)
  | succ n ih =>
    intro id food hfood hrank
    cases food with
    | basic b =>
      simp [expandedCalories, leafPaths, hfood, Food.getCaloriesPerServing]
    | composite c =>
      simp only [expandedCalories, leafPaths, hfood, sum_flatMap_paths,
        Food.getCaloriesPerServing]
      rw [hinv id c hfood, componentSum]
      congr 1
      apply List.map_congr_left
      intro p hp
      have hedge : RefersTo fm id p.1 := ⟨c, hfood, List.mem_map_of_mem Prod.fst hp⟩
      have hsome := hcl id p.1 hedge
      cases hfind : fm.getFoodById p.1 with
      | none => rw [hfind] at hsome; cases hsome
      | some sub =>
        have hsub := ih p.1 sub hfind (by have := hr id p.1 hedge; omega)
        rw [sum_scaled_paths]
        simp only [expandedCalories] at hsub
        rw [hsub]
        simp [componentCalories, hfind]

/-- C23, over exact arithmetic. When the products and sums of calories are
exact, as they are over the rationals, in every registry built from the empty
one by `addBasicFood` and `createCompositeFood` calls that each use a fresh id
and, for a composite, only components already present, the calories stored for
a composite are its fully expanded value: the sum, over the reference paths
from the composite down to simple foods, of the calories of the simple food
times the product of the serving counts along the path. Fuel equal to the
number of foods is enough for the expansion to reach every leaf. -/
theorem stored_calories_fully_expanded (calls : List FoodCall)
    (hg : GuardedCalls FoodManager.empty calls) (id : String) (c : CompositeFood)
    (hc : (runCalls FoodManager.empty calls).getFoodById id = some (Food.composite c))
    (fuel : Nat) (hfuel : (runCalls FoodManager.empty calls).foodDatabase.length ≤ fuel) :
    c.caloriesPerServing = expandedCalories (runCalls FoodManager.empty calls) fuel id := by
  have hempty : ∀ a, FoodManager.empty.getFoodById a = none := by
    intro a; simp [FoodManager.empty, FoodManager.getFoodById, mapFind]
  have hcl := closed_runCalls calls _ closed_empty hg
  have hinv := compositeInvariant_runCalls calls _ closed_empty
    (fun a c hc => by rw [hempty] at hc; cases hc) hg
  have hstart : ∃ r : String → ℕ, (∀ a b, RefersTo FoodManager.empty a b → r b < r a) ∧
      ∀ a, (FoodManager.empty.getFoodById a).isSome = true →
        r a < FoodManager.empty.foodDatabase.length := by
    refine ⟨fun _ => 0, ?_, ?_⟩
    · rintro a b ⟨c, hc, -⟩
      rw [hempty] at hc; cases hc
    · intro a ha
      rw [hempty] at ha; cases ha
  obtain ⟨r, hr, hb⟩ := depthRank_runCalls calls _ closed_empty hstart hg
  have hrank : r id < fuel := lt_of_lt_of_le (hb id (by rw [hc]; rfl)) hfuel
  exact (expandedCalories_eq_stored _ hcl hinv r hr fuel id _ hc hrank).symm

theorem stored_calories_fully_expanded_witness :
    expandedCalories (runCalls FoodManager.empty lunchboxCalls) 4 "lunchbox" = 620 := by
  have hc : (runCalls FoodManager.empty lunchboxCalls).getFoodById "lunchbox"
      = some (Food.composite
          { id := "lunchbox", keywords := ["lunch"], caloriesPerServing := 620,
            components := [("bread", 1), ("sandwich", 2)] }) := by
    simp [lunchboxCalls, sandwichCalls, runCalls, FoodCall.apply,
      FoodManager.createCompositeFood, FoodManager.addBasicFood, FoodManager.empty,
      FoodManager.getFoodById, FoodManager.addComponents, CompositeFood.new,
      CompositeFood.addComponent, CompositeFood.updateCalories,
      CompositeFood.updateCaloriesLoop, mapAssign, mapFind, Food.getCaloriesPerServing]
    norm_num
    decide
  exact (stored_calories_fully_expanded lunchboxCalls (by decide) "lunchbox" _ hc 4
    (by decide)).symm

/-! ## Full unwinding (C26) -/

theorem servingsOf_eq_none (entries : List LogEntry) (f : String)
    (h : ∀ e ∈ entries, e.foodId ≠ f) : servingsOf entries f = none := by
  induction entries with
  | nil => rfl
  | cons x rest ih =>
    simp only [servingsOf, h x (List.mem_cons_self _ _), if_false]
    exact ih (fun e he => h e (List.mem_cons_of_mem _ he))

theorem mem_of_servingsOf (entries : List LogEntry) (f : String) (v : CInt)
    (h : servingsOf entries f = some v) : ∃ e ∈ entries, e.foodId = f ∧ e.servings = v := by
  induction entries with
  | nil => simp [servingsOf] at h
  | cons x rest ih =>
    simp only [servingsOf] at h
    split_ifs at h with h1
    · injection h with h
      exact ⟨x, List.mem_cons_self _ _, h1, h⟩
    · obtain ⟨e, he, h2⟩ := ih h
      exact ⟨e, List.mem_cons_of_mem _ he, h2⟩

theorem servingsOf_addEntryLoop (entry : LogEntry) (entries : List LogEntry) (f : String) :
    servingsOf (DailyLog.addEntryLoop entry entries) f
      = if entry.foodId = f then
          some (match servingsOf entries f with
            | some m => m + entry.servings
            | none => entry.servings)
        else servingsOf entries f := by
  induction entries with
  | nil => simp [DailyLog.addEntryLoop, servingsOf]
  | cons x rest ih =>
    by_cases hx : x.foodId = entry.foodId
    · by_cases hf : entry.foodId = f
      · have hxf : x.foodId = f := hx.trans hf
        simp [DailyLog.addEntryLoop, hx, servingsOf, hf, hxf, LogEntry.addServings]
      · have hxf : ¬ x.foodId = f := fun h => hf (hx ▸ h)
        simp [DailyLog.addEntryLoop, hx, servingsOf, hf, hxf, LogEntry.addServings]
    · simp only [DailyLog.addEntryLoop, hx, if_false, servingsOf, ih]
      by_cases hf : entry.foodId = f
      · have hxf : ¬ x.foodId = f := fun h => hx (h.trans hf.symm)
        simp [hf, hxf]
      · simp [hf]

theorem servingsOf_undoAddLoop_of_ne (g : String) (s : CInt) (entries : List LogEntry)
    (f : String) (h : f ≠ g) :
    servingsOf (undoAddLoop g s entries) f = servingsOf entries f := by
  induction entries with
  | nil => rfl
  | cons x rest ih =>
    simp only [undoAddLoop]
    split_ifs with h1 h2
    · have : ¬ x.foodId = f := fun hx => h (hx ▸ h1)
      simp [servingsOf, this]
    · have : ¬ x.foodId = f := fun hx => h (hx ▸ h1)
      simp [servingsOf, this, LogEntry.addServings]
    · simp [servingsOf, ih]

theorem servingsOf_undoAddLoop_self (g : String) (s : CInt) (entries : List LogEntry)
    (hd : (entries.map LogEntry.foodId).Nodup) :
    servingsOf (undoAddLoop g s entries) g
      = match servingsOf entries g with
        | none => none
        | some v => if v + -s ≤ 0 then none else some (v + -s) := by
  induction entries with
  | nil => rfl
  | cons x rest ih =>
    rw [List.map_cons, List.nodup_cons] at hd
    simp only [undoAddLoop]
    split_ifs with h1 h2
    · have hrest : servingsOf rest g = none := by
        apply servingsOf_eq_none
        intro e he hEq
        exact hd.1 (by rw [h1, ← hEq]; exact List.mem_map_of_mem _ he)
      simp only [LogEntry.addServings] at h2
      simp [servingsOf, h1, hrest, h2]
    · simp only [LogEntry.addServings] at h2
      simp [servingsOf, h1, LogEntry.addServings, h2]
    · simp [servingsOf, h1, ih hd.2]

theorem servingsOf_eraseIdx (entries : List LogEntry) (i : Nat) (h : i < entries.length)
    (hd : (entries.map LogEntry.foodId).Nodup) (f : String) :
    servingsOf (entries.eraseIdx i) f
      = if entries[i].foodId = f then none else servingsOf entries f := by
  induction entries generalizing i with
  | nil => simp at h
  | cons x rest ih =>
    rw [List.map_cons, List.nodup_cons] at hd
    cases i with
    | zero =>
      simp only [List.eraseIdx_cons_zero, List.getElem_cons_zero]
      split_ifs with h1
      · apply servingsOf_eq_none
        intro e he hEq
        exact hd.1 (by rw [h1, ← hEq]; exact List.mem_map_of_mem _ he)
      · simp [servingsOf, h1]
    | succ j =>
      have hj : j < rest.length := by simpa using h
      simp only [List.eraseIdx_cons_succ, List.getElem_cons_succ, servingsOf, ih j hj hd.2]
      split_ifs with h1 h2 h3
      · exfalso
        exact hd.1 (by rw [h1, ← h2]; exact List.mem_map_of_mem _ (List.getElem_mem hj))
      · rfl
      · rfl
      · rfl

theorem servingsOf_getElem (entries : List LogEntry) (i : Nat) (h : i < entries.length)
    (hd : (entries.map LogEntry.foodId).Nodup) :
    servingsOf entries entries[i].foodId = some entries[i].servings := by
  induction entries generalizing i with
  | nil => simp at h
  | cons x rest ih =>
    rw [List.map_cons, List.nodup_cons] at hd
    cases i with
    | zero => simp [servingsOf]
    | succ j =>
      have hj : j < rest.length := by simpa using h
      simp only [List.getElem_cons_succ, servingsOf]
      rw [if_neg, ih j hj hd.2]
      intro hEq
      exact hd.1 (by rw [hEq]; exact List.mem_map_of_mem _ (List.getElem_mem hj))

theorem pos_of_servingsOf (log : DailyLog) (f : String) (m : CInt) (hpos : PositiveEntries log)
    (h : servingsOf log.entries f = some m) : 0 < m := by
  obtain ⟨e, he, -, hm⟩ := mem_of_servingsOf _ _ _ h
  rw [← hm]; exact hpos e he

/-- Undoing an add on logs that agree, up to a missing blank entry, with the
logs after the add gives logs that agree with the logs before the add. -/
theorem agree_undo_add (X L : StdMap DailyLog) (d f : String) (s : CInt)
    (hX : DistinctIds (logsAt X d)) (hL : PositiveEntries (logsAt L d))
    (h : AgreeUpToBlank X ((Command.AddFoodLogCommand d f s).execute L)) :
    AgreeUpToBlank ((Command.AddFoodLogCommand d f s).undo X) L := by
  intro d' g
  by_cases hd : d' = d
  · subst hd
    have h1 := h d' g
    simp only [Command.execute, logsAt_mapAssign_self, DailyLog.addEntry,
      servingsOf_addEntryLoop] at h1
    simp only [Command.undo, logsAt_mapAssign_self]
    by_cases hg : g = f
    · subst hg
      rw [servingsOf_undoAddLoop_self _ _ _ hX]
      simp only [if_true] at h1
      rcases h1 with h1 | ⟨hb, h1⟩
      · rw [h1]
        cases hLg : servingsOf (logsAt L d').entries g with
        | none => left; simp [CInt.add_neg_self, CInt.zero_le_zero]
        | some m =>
          have hm : 0 < m := pos_of_servingsOf _ _ _ hL hLg
          left
          simp only
          have hnot : ¬ (m + s + -s ≤ 0) := by
            rw [CInt.add_neg_cancel_right]
            exact CInt.not_le_of_lt hm
          rw [if_neg hnot]
          simp [CInt.add_neg_cancel_right]
      · rw [h1]
        right
        exact ⟨hb, rfl⟩
    · rw [servingsOf_undoAddLoop_of_ne _ _ _ _ hg]
      have hfg : ¬ f = g := fun hEq => hg hEq.symm
      simpa only [hfg, if_false] using h1
  · have h1 := h d' g
    rw [logsAt_execute_add_of_ne _ _ _ _ _ hd] at h1
    rw [logsAt_undo_add_of_ne _ _ _ _ _ hd]
    exact h1

theorem logsAt_execute_remove_self (L : StdMap DailyLog) (d : String) (i : Nat)
    (e : LogEntry) (hi : i < (logsAt L d).entries.length) :
    logsAt ((Command.RemoveFoodLogCommand d i e).execute L) d
      = { entries := (logsAt L d).entries.eraseIdx i } := by
  have hsome : (mapFind L d).isSome = true := by
    cases hfind : mapFind L d with
    | some log => rfl
    | none => simp [logsAt, hfind, DailyLog.empty] at hi
  simp only [Command.execute, hsome, if_true, logsAt_mapAssign_self, DailyLog.removeEntry, hi]

/-- Undoing a removal on logs that agree, up to a missing blank entry, with the
logs after the removal gives logs that agree with the logs before it. -/
theorem agree_undo_remove (X L : StdMap DailyLog) (d : String) (i : Nat) (e : LogEntry)
    (hi : i < (logsAt L d).entries.length) (he : e = (logsAt L d).entries[i])
    (hL : DistinctIds (logsAt L d))
    (h : AgreeUpToBlank X ((Command.RemoveFoodLogCommand d i e).execute L)) :
    AgreeUpToBlank ((Command.RemoveFoodLogCommand d i e).undo X) L := by
  intro d' g
  by_cases hd : d' = d
  · subst hd
    have h1 := h d' g
    rw [logsAt_execute_remove_self _ _ _ _ hi] at h1
    simp only [servingsOf_eraseIdx _ _ hi hL, ← he] at h1
    have hself : servingsOf (logsAt L d').entries e.foodId = some e.servings := by
      rw [he]; exact servingsOf_getElem _ _ hi hL
    by_cases hblank : e.foodId = ""
    · have hundo : (Command.RemoveFoodLogCommand d' i e).undo X = X := by
        simp [Command.undo, hblank]
      rw [hundo]
      by_cases hg : e.foodId = g
      · have hgb : g = "" := hg ▸ hblank
        simp only [hg, if_true] at h1
        right
        exact ⟨hgb, by rcases h1 with h1 | ⟨-, h1⟩ <;> exact h1⟩
      · simpa only [hg, if_false] using h1
    · have hundo : logsAt ((Command.RemoveFoodLogCommand d' i e).undo X) d'
          = (logsAt X d').addEntry e := by
        simp only [Command.undo, ne_eq, hblank, not_false_eq_true, if_true,
          logsAt_mapAssign_self]
      rw [hundo]
      simp only [DailyLog.addEntry, servingsOf_addEntryLoop]
      by_cases hg : e.foodId = g
      · have hXg : servingsOf (logsAt X d').entries g = none := by
          simp only [hg, if_true] at h1
          rcases h1 with h1 | ⟨-, h1⟩ <;> exact h1
        left
        simp only [hg, if_true, hXg]
        rw [← hg, hself]
      · simpa only [hg, if_false] using h1
  · have h1 := h d' g
    rw [logsAt_execute_remove_of_ne _ _ _ _ _ hd] at h1
    rw [logsAt_undo_remove_of_ne _ _ _ _ _ hd]
    exact h1

theorem undo_of_stack (lm : LogManager) (cmd : Command) (rest : List Command)
    (h : lm.undoStack = cmd :: rest) :
    lm.undo.logs = cmd.undo lm.logs ∧ lm.undo.undoStack = rest := by
  unfold LogManager.undo
  rw [h]
  exact ⟨rfl, rfl⟩

theorem newRemove_logsAt (logs : StdMap DailyLog) (d : String) (i : Nat)
    (hi : i < (logsAt logs d).entries.length) :
    Command.newRemove logs d i
      = Command.RemoveFoodLogCommand d i (logsAt logs d).entries[i] := by
  have hsome : (mapFind logs d).isSome = true := by
    cases hfind : mapFind logs d with
    | some log => rfl
    | none => simp [logsAt, hfind, DailyLog.empty] at hi
  simp only [Command.newRemove, hsome, hi, and_self, if_true, List.getD_eq_getElem _ _ hi]

/-- Full unwinding for logs with distinct ids and positive servings, blank food
ids allowed: after as many undos as there were mutations the logs agree with
the starting logs up to a missing blank entry, and the history is the
starting history. -/
theorem unwinding_general (ops : List LogCall) :
    ∀ lm : LogManager, (∀ p ∈ lm.logs, DistinctIds p.2 ∧ PositiveEntries p.2) →
      ValidOps lm ops → AddsFit lm ops →
      AgreeUpToBlank (undoTimes (mutations ops) (runLogCalls lm ops)).logs lm.logs ∧
        (undoTimes (mutations ops) (runLogCalls lm ops)).undoStack = lm.undoStack ∧
        ∀ p ∈ (undoTimes (mutations ops) (runLogCalls lm ops)).logs, DistinctIds p.2 := by
  induction ops with
  | nil =>
    intro lm hlm _ _
    exact ⟨fun d f => Or.inl rfl, rfl, fun p hp => (hlm p hp).1⟩
  | cons op rest ih =>
    intro lm hlm hops hfit
    have hboth := fun d => logsAt_of_forall (fun log => DistinctIds log ∧ PositiveEntries log)
      ⟨distinctIds_empty, positiveEntries_empty⟩ lm.logs d hlm
    cases op with
    | addFoodToLog f s =>
      obtain ⟨hs, hrest⟩ := hops
      obtain ⟨hf, hfrest⟩ := hfit
      rw [getCurrentDayLog_eq_logsAt] at hf
      have hlm' : ∀ p ∈ (lm.addFoodToLog f s).logs, DistinctIds p.2 ∧ PositiveEntries p.2 :=
        forall_mapAssign (fun log => DistinctIds log ∧ PositiveEntries log) _ _ _ hlm
          ⟨distinctIds_addEntry _ _ (hboth _).1,
            positiveEntries_addEntry _ _ (hboth _).2 hs hf⟩
      obtain ⟨hagree, hstack, hdist⟩ := ih (lm.addFoodToLog f s) hlm' hrest hfrest
      obtain ⟨hl, hst⟩ := undo_of_stack _ _ _ hstack
      refine ⟨?_, hst, ?_⟩
      · show AgreeUpToBlank (undoTimes (mutations rest)
          (runLogCalls (lm.addFoodToLog f s) rest)).undo.logs lm.logs
        rw [hl]
        exact agree_undo_add _ _ _ _ _
          (logsAt_of_forall DistinctIds distinctIds_empty _ _ hdist) (hboth _).2 hagree
      · show ∀ p ∈ (undoTimes (mutations rest)
          (runLogCalls (lm.addFoodToLog f s) rest)).undo.logs, DistinctIds p.2
        rw [hl]
        exact distinctIds_undo _ _ hdist
    | removeFoodFromLog i =>
      obtain ⟨hi, hrest⟩ := hops
      have hi2 : i < (logsAt lm.logs lm.currentDate).entries.length := by
        rw [← getCurrentDayLog_eq_logsAt]; exact hi
      have hcmd := newRemove_logsAt lm.logs lm.currentDate i hi2
      have hlogs' : (lm.removeFoodFromLog i).logs
          = (Command.RemoveFoodLogCommand lm.currentDate i
              (logsAt lm.logs lm.currentDate).entries[i]).execute lm.logs := by
        simp only [LogManager.removeFoodFromLog, hcmd]
      have hstack' : (lm.removeFoodFromLog i).undoStack
          = Command.RemoveFoodLogCommand lm.currentDate i
              (logsAt lm.logs lm.currentDate).entries[i] :: lm.undoStack := by
        simp only [LogManager.removeFoodFromLog, hcmd]
      have hlm' : ∀ p ∈ (lm.removeFoodFromLog i).logs,
          DistinctIds p.2 ∧ PositiveEntries p.2 := by
        rw [hlogs']
        simp only [Command.execute]
        split_ifs
        · exact forall_mapAssign (fun log => DistinctIds log ∧ PositiveEntries log) _ _ _ hlm
            ⟨distinctIds_removeEntry _ _ (hboth _).1, positiveEntries_removeEntry _ _ (hboth _).2⟩
        · exact hlm
      obtain ⟨hagree, hstack, hdist⟩ := ih (lm.removeFoodFromLog i) hlm' hrest hfit
      rw [hstack'] at hstack
      rw [hlogs'] at hagree
      obtain ⟨hl, hst⟩ := undo_of_stack _ _ _ hstack
      refine ⟨?_, hst, ?_⟩
      · show AgreeUpToBlank (undoTimes (mutations rest)
          (runLogCalls (lm.removeFoodFromLog i) rest)).undo.logs lm.logs
        rw [hl]
        exact agree_undo_remove _ _ _ _ _ hi2 rfl (hboth _).1 hagree
      · show ∀ p ∈ (undoTimes (mutations rest)
          (runLogCalls (lm.removeFoodFromLog i) rest)).undo.logs, DistinctIds p.2
        rw [hl]
        exact distinctIds_undo _ _ hdist
    | undo => exact absurd hops (by simp [ValidOps])
    | setCurrentDate date =>
      exact ih (lm.setCurrentDate date) hlm hops hfit

theorem undoStack_length_runLogCalls (ops : List LogCall) :
    ∀ lm : LogManager, ValidOps lm ops →
      (runLogCalls lm ops).undoStack.length = lm.undoStack.length + mutations ops := by
  induction ops with
  | nil => intro lm _; rfl
  | cons op rest ih =>
    intro lm hops
    cases op with
    | addFoodToLog f s =>
      have := ih (lm.addFoodToLog f s) hops.2
      have h1 : (lm.addFoodToLog f s).undoStack.length = lm.undoStack.length + 1 := by
        simp [LogManager.addFoodToLog]
      show (runLogCalls (lm.addFoodToLog f s) rest).undoStack.length
        = lm.undoStack.length + (mutations rest + 1)
      rw [this, h1]
      omega
    | removeFoodFromLog i =>
      have := ih (lm.removeFoodFromLog i) hops.2
      have h1 : (lm.removeFoodFromLog i).undoStack.length = lm.undoStack.length + 1 := by
        simp [LogManager.removeFoodFromLog]
      show (runLogCalls (lm.removeFoodFromLog i) rest).undoStack.length
        = lm.undoStack.length + (mutations rest + 1)
      rw [this, h1]
      omega
    | undo => exact absurd hops (by simp [ValidOps])
    | setCurrentDate date =>
      have := ih (lm.setCurrentDate date) hops
      simpa only [runLogCalls, LogCall.apply, mutations, LogManager.setCurrentDate] using this

/-- C26, as the code has it. Starting from logs with, per day, distinct food
ids, positive servings and no empty food id, after any sequence of
`addFoodToLog` calls with positive servings, none of which overflows the `int`
servings of the entry it merges into, and `removeFoodFromLog` calls with an
index within bounds, interleaved with `setCurrentDate`, as many undos as there
were adds and removals bring every day back to the servings it recorded for
every food id at the start (the order of the entries may differ) and the undo
history back to what it was; the calls had pushed one command per add or
removal. -/
theorem full_unwinding (lm : LogManager) (ops : List LogCall) (hstart : CleanLogs lm.logs)
    (hops : ValidOps lm ops) (hfit : AddsFit lm ops) :
    (∀ d f : String,
        servingsOf (logsAt (undoTimes (mutations ops) (runLogCalls lm ops)).logs d).entries f
          = servingsOf (logsAt lm.logs d).entries f) ∧
      (undoTimes (mutations ops) (runLogCalls lm ops)).undoStack = lm.undoStack ∧
      (runLogCalls lm ops).undoStack.length = lm.undoStack.length + mutations ops := by
  obtain ⟨hagree, hstack, -⟩ := unwinding_general ops lm
    (fun p hp => ⟨(hstart p hp).1, (hstart p hp).2.1⟩) hops hfit
  refine ⟨?_, hstack, undoStack_length_runLogCalls ops lm hops⟩
  intro d f
  rcases hagree d f with h | ⟨hf, h⟩
  · exact h
  · rw [h]
    symm
    apply servingsOf_eq_none
    have hnb := logsAt_of_forall (fun log => ∀ e ∈ log.entries, e.foodId ≠ "")
      (by simp [DailyLog.empty]) lm.logs d (fun p hp => (hstart p hp).2.2)
    intro e he
    rw [hf]
    exact hnb e he

theorem full_unwinding_witness :
    servingsOf
        (logsAt (undoTimes (mutations sampleOps) (runLogCalls lunchDay sampleOps)).logs
          "2024-01-01").entries "bread" = some 2 ∧
      (undoTimes (mutations sampleOps) (runLogCalls lunchDay sampleOps)).undoStack = [] :=
  ⟨(full_unwinding lunchDay sampleOps (by decide) (by decide) (by decide)).1 "2024-01-01" "bread",
    (full_unwinding lunchDay sampleOps (by decide) (by decide) (by decide)).2.1⟩

/-- C26 fails as stated: from a day with one `bread`, adding `INT_MAX` servings
and then one more wraps the `int` servings of the entry to a negative count;
the first undo brings the count to `INT_MIN` and erases the entry, the second
finds nothing to subtract from, and the day records no `bread` at the end. -/
theorem full_unwinding_counterexample :
    ¬ ∀ (lm : LogManager) (ops : List LogCall), CleanLogs lm.logs → ValidOps lm ops →
        ∀ d f : String,
          servingsOf (logsAt (undoTimes (mutations ops) (runLogCalls lm ops)).logs d).entries f
            = servingsOf (logsAt lm.logs d).entries f := by
  intro h
  have h1 := h breadDay overflowCalls (by decide) (by decide) "2024-01-01" "bread"
  revert h1
  decide

/-! ## Positive servings (C18) -/

theorem foodId_ne_of_servingsOf_none (entries : List LogEntry) (f : String)
    (h : servingsOf entries f = none) : ∀ e ∈ entries, e.foodId ≠ f := by
  induction entries with
  | nil => intro e he; simp at he
  | cons x rest ih =>
    simp only [servingsOf] at h
    split_ifs at h with h1
    intro e he
    rcases List.mem_cons.1 he with he | he
    · rw [he]; exact h1
    · exact ih h e he

theorem recorded_eq_of_agree (X L : StdMap DailyLog) (h : AgreeUpToBlank X L) :
    recorded X = recorded L := by
  funext d g
  unfold recorded
  by_cases hg : g = ""
  · simp [hg]
  · simp only [hg, if_false]
    rcases h d g with h1 | ⟨h1, -⟩
    · exact h1
    · exact absurd h1 hg

theorem recorded_eq_of_logsAt (X L : StdMap DailyLog) (h : ∀ d, logsAt X d = logsAt L d) :
    recorded X = recorded L := by
  funext d g
  unfold recorded
  rw [h d]

/-- What `undo` of a command does to the logs, read off the recorded
servings. -/
theorem recorded_undo (cmd : Command) (X : StdMap DailyLog)
    (hX : ∀ d, DistinctIds (logsAt X d)) :
    recorded (cmd.undo X) = cmd.undoRecorded (recorded X) := by
  funext d g
  cases cmd with
  | AddFoodLogCommand date f s =>
    simp only [Command.undoRecorded, recorded]
    by_cases hd : d = date
    · subst hd
      simp only [Command.undo, logsAt_mapAssign_self]
      by_cases hg : g = f
      · subst hg
        rw [servingsOf_undoAddLoop_self _ _ _ (hX d)]
        by_cases hb : g = ""
        · simp [hb]
        · simp only [hb, if_false, and_self, if_true]
          cases servingsOf (logsAt X d).entries g <;> rfl
      · rw [servingsOf_undoAddLoop_of_ne _ _ _ _ hg]
        simp [hg]
    · rw [logsAt_undo_add_of_ne _ _ _ _ _ hd]
      simp [hd]
  | RemoveFoodLogCommand date i r =>
    simp only [Command.undoRecorded, recorded]
    by_cases hr : r.foodId = ""
    · simp [Command.undo, hr]
    · by_cases hd : d = date
      · subst hd
        simp only [Command.undo, ne_eq, hr, not_false_eq_true, if_true, logsAt_mapAssign_self,
          DailyLog.addEntry, servingsOf_addEntryLoop, true_and]
        by_cases hg : g = r.foodId
        · subst hg
          simp only [hr, if_false, if_true]
          cases servingsOf (logsAt X d).entries r.foodId <;> rfl
        · have hg2 : ¬ r.foodId = g := fun hEq => hg hEq.symm
          simp only [hg, hg2, if_false]
      · rw [logsAt_undo_remove_of_ne _ _ _ _ _ hd]
        simp [hd]

theorem agreeUpToBlank_refl (L : StdMap DailyLog) : AgreeUpToBlank L L :=
  fun _ _ => Or.inl rfl

theorem addsFit_cons (lm : LogManager) (call : LogCall) (rest : List LogCall) :
    AddsFit lm (call :: rest) ↔ AddsFit lm [call] ∧ AddsFit (call.apply lm) rest := by
  cases call <;> simp [AddsFit, LogCall.apply]

theorem unwinds_cons (M : String → String → Option CInt) (cmd : Command)
    (rest : List Command) :
    Unwinds M (cmd :: rest) ↔ cmd.Restorable M ∧ Unwinds (cmd.undoRecorded M) rest := Iff.rfl

/-- One call keeps the servings positive and the history restorable. -/
theorem unwinds_apply (lm : LogManager) (call : LogCall)
    (hcall : call.PositiveServings) (hfit : AddsFit lm [call])
    (hlogs : ∀ p ∈ lm.logs, DistinctIds p.2 ∧ PositiveEntries p.2)
    (hstack : Unwinds (recorded lm.logs) lm.undoStack) :
    (∀ p ∈ (call.apply lm).logs, DistinctIds p.2 ∧ PositiveEntries p.2) ∧
      Unwinds (recorded (call.apply lm).logs) (call.apply lm).undoStack := by
  have hboth := fun d => logsAt_of_forall (fun log => DistinctIds log ∧ PositiveEntries log)
    ⟨distinctIds_empty, positiveEntries_empty⟩ lm.logs d hlogs
  have hdist : ∀ p ∈ lm.logs, DistinctIds p.2 := fun p hp => (hlogs p hp).1
  cases call with
  | addFoodToLog f s =>
    have hf := hfit.1
    rw [getCurrentDayLog_eq_logsAt] at hf
    have hlogs' : ∀ p ∈ (Command.AddFoodLogCommand lm.currentDate f s).execute lm.logs,
        DistinctIds p.2 ∧ PositiveEntries p.2 :=
      forall_mapAssign (fun log => DistinctIds log ∧ PositiveEntries log) _ _ _ hlogs
        ⟨distinctIds_addEntry _ _ (hboth _).1,
          positiveEntries_addEntry _ _ (hboth _).2 hcall hf⟩
    refine ⟨hlogs', ?_⟩
    show Unwinds (recorded ((Command.AddFoodLogCommand lm.currentDate f s).execute lm.logs))
      (Command.AddFoodLogCommand lm.currentDate f s :: lm.undoStack)
    refine (unwinds_cons _ _ _).2 ⟨trivial, ?_⟩
    have hd' := fun d => logsAt_of_forall DistinctIds distinctIds_empty _ d
      (fun p hp => (hlogs' p hp).1)
    rw [← recorded_undo _ _ hd',
      recorded_eq_of_agree _ _ (agree_undo_add _ _ _ _ _ (hd' _) (hboth _).2
        (agreeUpToBlank_refl _))]
    exact hstack
  | removeFoodFromLog i =>
    have hexec : ∀ e : LogEntry, ∀ p ∈ (Command.RemoveFoodLogCommand lm.currentDate i e).execute
        lm.logs, DistinctIds p.2 ∧ PositiveEntries p.2 := by
      intro e
      simp only [Command.execute]
      split_ifs
      · exact forall_mapAssign (fun log => DistinctIds log ∧ PositiveEntries log) _ _ _ hlogs
          ⟨distinctIds_removeEntry _ _ (hboth _).1,
            positiveEntries_removeEntry _ _ (hboth _).2⟩
      · exact hlogs
    by_cases hi : i < (logsAt lm.logs lm.currentDate).entries.length
    · have hcmd := newRemove_logsAt lm.logs lm.currentDate i hi
      simp only [LogCall.apply, LogManager.removeFoodFromLog, hcmd]
      refine ⟨hexec _, (unwinds_cons _ _ _).2 ⟨?_, ?_⟩⟩
      · show _ ∨ _
        by_cases hblank : (logsAt lm.logs lm.currentDate).entries[i].foodId = ""
        · exact Or.inl hblank
        · refine Or.inr ⟨?_, (hboth _).2 _ (List.getElem_mem hi)⟩
          unfold recorded
          rw [if_neg hblank, logsAt_execute_remove_self _ _ _ _ hi,
            servingsOf_eraseIdx _ _ hi (hboth _).1, if_pos rfl]
      · have hd' : ∀ d, DistinctIds (logsAt ((Command.RemoveFoodLogCommand lm.currentDate i
            (logsAt lm.logs lm.currentDate).entries[i]).execute lm.logs) d) :=
          fun d => logsAt_of_forall DistinctIds distinctIds_empty _ d
            (fun p hp => (hexec (logsAt lm.logs lm.currentDate).entries[i] p hp).1)
        rw [← recorded_undo _ _ hd',
          recorded_eq_of_agree _ _ (agree_undo_remove _ _ _ _ _ hi rfl (hboth _).1
            (agreeUpToBlank_refl _))]
        exact hstack
    · have hcmd : Command.newRemove lm.logs lm.currentDate i
          = Command.RemoveFoodLogCommand lm.currentDate i LogEntry.default := by
        simp [Command.newRemove, hi]
      simp only [LogCall.apply, LogManager.removeFoodFromLog, hcmd]
      refine ⟨hexec _, (unwinds_cons _ _ _).2 ⟨Or.inl rfl, ?_⟩⟩
      have hsame : (Command.RemoveFoodLogCommand lm.currentDate i LogEntry.default).undoRecorded
          (recorded ((Command.RemoveFoodLogCommand lm.currentDate i LogEntry.default).execute
            lm.logs)) = recorded lm.logs := by
        rw [recorded_eq_of_logsAt _ _
          (logsAt_execute_remove_out_of_range _ _ _ _ (by omega))]
        funext d g
        simp [Command.undoRecorded, LogEntry.default]
      rw [hsame]
      exact hstack
  | undo =>
    cases hs : lm.undoStack with
    | nil =>
      have hundo : lm.undo = lm := by simp [LogManager.undo, hs]
      simp only [LogCall.apply, hundo]
      exact ⟨hlogs, hstack⟩
    | cons cmd rest =>
      rw [hs] at hstack
      obtain ⟨hres, hrest⟩ := (unwinds_cons _ _ _).1 hstack
      obtain ⟨hl, hst⟩ := undo_of_stack lm cmd rest hs
      simp only [LogCall.apply, hl, hst]
      have hd0 := fun d => logsAt_of_forall DistinctIds distinctIds_empty _ d hdist
      rw [recorded_undo _ _ hd0]
      refine ⟨fun p hp => ⟨distinctIds_undo cmd _ hdist p hp, ?_⟩, hrest⟩
      revert p
      cases cmd with
      | AddFoodLogCommand date foodId servings =>
        exact forall_mapAssign _ _ _ _ (fun p hp => (hlogs p hp).2)
          (positiveEntries_undoAddLoop _ _ _ (hboth date).2)
      | RemoveFoodLogCommand date index removedEntry =>
        simp only [Command.undo]
        split_ifs with hne
        · rcases hres with h1 | ⟨h1, h2⟩
          · exact absurd h1 hne
          · unfold recorded at h1
            rw [if_neg hne] at h1
            exact forall_mapAssign _ _ _ _ (fun p hp => (hlogs p hp).2)
              (positiveEntries_addEntry _ _ (hboth date).2 h2
                (fun e he hEq => absurd hEq (foodId_ne_of_servingsOf_none _ _ h1 e he)))
        · exact fun p hp => (hlogs p hp).2
  | setCurrentDate date => exact ⟨hlogs, hstack⟩

theorem positiveEntries_runLogCalls (calls : List LogCall) :
    ∀ lm : LogManager, (∀ c ∈ calls, c.PositiveServings) → AddsFit lm calls →
      (∀ p ∈ lm.logs, DistinctIds p.2 ∧ PositiveEntries p.2) →
      Unwinds (recorded lm.logs) lm.undoStack →
      ∀ p ∈ (runLogCalls lm calls).logs, PositiveEntries p.2 := by
  induction calls with
  | nil => exact fun lm _ _ hlogs _ p hp => (hlogs p hp).2
  | cons call rest ih =>
    intro lm hcalls hfit hlogs hstack
    obtain ⟨hfit1, hfit2⟩ := (addsFit_cons lm call rest).1 hfit
    have hstep := unwinds_apply lm call (hcalls call (List.mem_cons_self _ _)) hfit1 hlogs hstack
    exact ih _ (fun c hc => hcalls c (List.mem_cons_of_mem _ hc)) hfit2 hstep.1 hstep.2

/-- C18, as the code has it. In every state reached from a new log manager by a
sequence of `addFoodToLog` calls with positive servings, none of which
overflows the `int` servings of the entry it merges into, and
`removeFoodFromLog`, `undo` and `setCurrentDate` calls, every entry of every
day has positive servings: an entry whose servings an undo would bring to zero
or below is erased, and the undo of a removal never merges. -/
theorem positiveEntries_invariant (today : String) (calls : List LogCall)
    (hcalls : ∀ c ∈ calls, c.PositiveServings)
    (hfit : AddsFit (LogManager.new today) calls) :
    ∀ p ∈ (runLogCalls (LogManager.new today) calls).logs, PositiveEntries p.2 := by
  apply positiveEntries_runLogCalls calls _ hcalls hfit
  · intro p hp
    simp [LogManager.new] at hp
  · simp [LogManager.new, Unwinds]

theorem positiveEntries_invariant_witness :
    (logsAt (runLogCalls (LogManager.new "2024-01-01") sampleLogCalls).logs "2024-01-01").entries
        = [{ foodId := "cheese", servings := 1 }, { foodId := "bread", servings := 2 }] ∧
      PositiveEntries
        (logsAt (runLogCalls (LogManager.new "2024-01-01") sampleLogCalls).logs "2024-01-01") :=
  ⟨by decide, logsAt_of_forall PositiveEntries positiveEntries_empty _ _
    (positiveEntries_invariant "2024-01-01" sampleLogCalls (by decide) (by decide))⟩

/-- C18 fails as stated: adding `INT_MAX` servings of a food and then one more
of the same food, both positive, wraps the `int` servings of the entry to
`INT_MIN`, which is negative. -/
theorem positiveEntries_counterexample :
    ¬ ∀ (today : String) (calls : List LogCall), (∀ c ∈ calls, c.PositiveServings) →
        ∀ p ∈ (runLogCalls (LogManager.new today) calls).logs, PositiveEntries p.2 := by
  intro h
  have h1 := logsAt_of_forall PositiveEntries positiveEntries_empty _ "2024-01-01"
    (h "2024-01-01" overflowCalls (by decide))
  revert h1
  unfold PositiveEntries
  decide

/-! ## Stored calories in `double` arithmetic (C23) -/

/-- The `double` nearest to 0.1 is `3602879701896397 / 2^55`. -/
theorem roundNearest_tenth :
    (Binary64.roundNearest (1 / 10)).num = 3602879701896397 ∧
      (Binary64.roundNearest (1 / 10)).den = 36028797018963968 := by
  with_unfolding_all decide

/-- Rounding leaves a `double` as it is and takes 0.3 to
`5404319552844595 / 2^54`. -/
theorem roundNearest_samples :
    (Binary64.roundNearest 270).num = 270 ∧ (Binary64.roundNearest 270).den = 1 ∧
      (Binary64.roundNearest (3 / 10)).num = 5404319552844595 ∧
      (Binary64.roundNearest (3 / 10)).den = 18014398509481984 ∧
      (Binary64.roundNearest (-5 / 2)).num = -5 ∧ (Binary64.roundNearest (-5 / 2)).den = 2 := by
  refine ⟨?_, ?_, ?_, ?_, ?_, ?_⟩ <;> with_unfolding_all decide

set_option maxRecDepth 8000 in
/-- The registry of `tenthCalls` in `double` arithmetic: `crate` stores
`8106479329266894 / 2^53`, which prints as 0.9000000000000001, while nine
times the calories of `leaf` is `32425917317067573 / 2^55`, which rounds to the
`double` `8106479329266893 / 2^53`, printed as 0.9. -/
theorem tenthCalls_stored :
    GuardedCallsRounded FoodManager.empty tenthCalls ∧
      (∃ c : CompositeFood,
        (runCallsRounded FoodManager.empty tenthCalls).getFoodById "crate"
            = some (Food.composite c) ∧
          c.caloriesPerServing.num = 4053239664633447 ∧
          c.caloriesPerServing.den = 4503599627370496) ∧
      (expandedCalories (runCallsRounded FoodManager.empty tenthCalls) 3 "crate").num
        = 32425917317067573 ∧
      (expandedCalories (runCallsRounded FoodManager.empty tenthCalls) 3 "crate").den
        = 36028797018963968 ∧
      (Binary64.roundNearest
        (expandedCalories (runCallsRounded FoodManager.empty tenthCalls) 3 "crate")).num
        = 8106479329266893 ∧
      (Binary64.roundNearest
        (expandedCalories (runCallsRounded FoodManager.empty tenthCalls) 3 "crate")).den
        = 9007199254740992 := by
  refine ⟨by decide, ⟨_, rfl, ?_, ?_⟩, ?_, ?_, ?_, ?_⟩ <;> with_unfolding_all decide

/-- C23 fails as stated: in `double` arithmetic the stored calories are rounded
at every level. With `leaf` at 0.1, `pack` = {leaf: 3} and `crate` = {pack: 3},
all guarded, `pack` stores 0.30000000000000004 and `crate` stores
0.9000000000000001, which is neither the expanded value, nine times the
calories of `leaf`, nor the `double` nearest to it, 0.9. -/
theorem stored_calories_fully_expanded_counterexample :
    ¬ ∀ (calls : List FoodCall), GuardedCallsRounded FoodManager.empty calls →
        ∀ (id : String) (c : CompositeFood),
          (runCallsRounded FoodManager.empty calls).getFoodById id
            = some (Food.composite c) →
          ∀ fuel : Nat, (runCallsRounded FoodManager.empty calls).foodDatabase.length ≤ fuel →
            c.caloriesPerServing
                = expandedCalories (runCallsRounded FoodManager.empty calls) fuel id ∨
              c.caloriesPerServing
                = Binary64.roundNearest
                    (expandedCalories (runCallsRounded FoodManager.empty calls) fuel id) := by
  intro h
  obtain ⟨hg, ⟨c, hc, hnum, -⟩, hexp, -, hround, -⟩ := tenthCalls_stored
  rcases h tenthCalls hg "crate" c hc 3 (by decide) with h1 | h1
  · rw [h1, hexp] at hnum
    revert hnum
    decide
  · rw [h1, hround] at hnum
    revert hnum
    decide

end YADA
